import Mathlib

/-!
# IB-Trust: block acceptance and full-chain verification

A shallow embedding of `blockchain.go`: the acceptance predicate
`checkAcceptBlock`, the key-op reader `Block.dbGetKeyOps`, the quorum rule
`QuorumForHeight`, the block file path `blockchainGetFilename`, the start-up
verifier `blockchainVerifyEverything` and the bootstrap `blockchainInit`.

Conventions.
* Go `int` is `Int`, taken 64 bits wide: the sum `prevBlk.Height + 1` of
  `checkAcceptBlock` wraps around (`wrapInt`).
* Go `error` values are abstracted to the return site that produced them
  (`Err`); the formatted message text is not modelled.
* The main database is threaded explicitly (`Db`); a function that writes to
  it returns the database it leaves behind, also on its error paths.
* Ranging over a Go map visits the entries in an unspecified order.  Every
  such loop takes a choice sequence (`List Nat`) and visits the entries in
  the order `mapRange` derives from it; every order arises from some
  sequence.
* The cryptographic primitives, the file hash, the SQLite reader, the JSON
  decoder and floating-point `math.Log` are black boxes collected in `Env`.
  Statements about the quorum above the height 148 are made relative to an
  accuracy bound on that floating-point result (`logTimes2Accurate`).
-/

namespace IBTrust

/-- Go `[]byte`. -/
abbrev Bytes := List (Fin 256)

/-- The return sites of the modelled functions (one constructor per kind of
`fmt.Errorf` / propagated error; `indexOutOfRange` is the run-time panic of
`keyOps[0]` on an empty slice). -/
inductive Err where
  | unsupportedVersion
  | unknownParent
  | heightOccupied
  | unknownSigner
  | revokedSigner
  | decodeKey
  | badPrevSig
  | badHashSig
  | keysQuery
  | hexDecode
  | hashMismatch
  | jsonDecode
  | mixedOps
  | quorumShort
  | unknownOpSigner
  | badOpSig
  | duplicateAdd
  | unknownRevokeTarget
  | doubleRevoke
  | badOp
  | indexOutOfRange
  | mkdir
  | fileRead
  | noHeader
  | fileHashMismatch
  | genesisMismatch
  | quorumMismatch
  | opMismatch
  | openBlock
  deriving DecidableEq, Repr

/-! ## Data model -/

/-- Modelled from the spec: the block header row `DbBlockchainBlock` (§3,
"Block header"); the Go type is declared in the database layer, which is not
part of the sources.  Field names are the ones `blockchain.go` uses. -/
structure DbBlockchainBlock where
  Hash : String
  Height : Int
  PreviousBlockHash : String
  SignaturePublicKeyHash : String
  PreviousBlockHashSignature : Bytes
  HashSignature : Bytes
  Version : Int
  TimeAccepted : Int
  deriving DecidableEq, Repr

/-- Modelled from the spec: a signatory registry entry (§3, "Signatory
registry entry"); the Go type is declared in the database layer.  The
wall-clock `timeRevoked` is left out. -/
structure DbPubKey where
  publicKeyHash : String
  publicKeyBytes : Bytes
  addedAtHeight : Int
  isRevoked : Bool
  deriving DecidableEq, Repr

/-- The main database as far as the chain core reads and writes it: the
header index and the signatory registry, each as the list of its rows. -/
structure Db where
  blockchain : List DbBlockchainBlock
  pubkeys : List DbPubKey
  deriving DecidableEq, Repr

/-- One row of a block file's `_keys` table, as selected and scanned by
`dbGetKeyOps` (`metadata` after `COALESCE(metadata, '')`).  A row that
`rows.Scan` cannot read into strings is outside the model. -/
structure KeyRow where
  op : String
  pubkey_hash : String
  pubkey : String
  sigkey_hash : String
  signature : String
  metadata : String
  deriving DecidableEq, Repr

/-- The opened block file (`*sql.DB`): its `_meta` rows and its `_keys` rows;
`keys = none` is a database whose `_keys` table cannot be queried. -/
structure BlockDb where
  metaRows : List (String × String)
  keys : Option (List KeyRow)
  deriving DecidableEq, Repr

/-- The type `Block`: `struct { *DbBlockchainBlock; db *sql.DB }`. -/
structure Block extends DbBlockchainBlock where
  db : BlockDb
  deriving DecidableEq, Repr

/-- The type `BlockKeyOp`. -/
structure BlockKeyOp where
  op : String
  publicKeyHash : String
  publicKeyBytes : Bytes
  signatureKeyHash : String
  signature : Bytes
  metadata : List (String × String)
  deriving DecidableEq, Repr

/-- A Go `map[string][]BlockKeyOp`: its entries, keys pairwise distinct, in
the order in which the keys were first inserted. -/
abbrev KeyOpsMap := List (String × List BlockKeyOp)

/-- The black boxes the core calls.  `PK` is the decoded public key type.
`mathLogTimes2 h` is the floating-point expression
`int(math.Log(float64(h)) * 2)`. -/
structure Env (PK : Type) where
  cryptoDecodePublicKeyBytes : Bytes → Option PK
  cryptoMustGetPublicKeyHash : PK → String
  cryptoVerifyBytes : PK → Bytes → Bytes → Bool
  hashBytesToHexString : Bytes → String
  dbOpen : Bytes → Option BlockDb
  jsonUnmarshal : String → Option (List (String × String))
  mathLogTimes2 : Int → Int

/-! ## Library functions -/

/-- The value of one hexadecimal digit (`encoding/hex`, `fromHexChar`). -/
def fromHexChar (c : Char) : Option Nat :=
  if '0' ≤ c ∧ c ≤ '9' then some (c.toNat - 48)
  else if 'a' ≤ c ∧ c ≤ 'f' then some (c.toNat - 87)
  else if 'A' ≤ c ∧ c ≤ 'F' then some (c.toNat - 55)
  else none

/-- The function `hex.DecodeString` on the characters of the string: an odd length or a
character that is no hexadecimal digit is an error. -/
def hexDecodeChars : List Char → Option Bytes
  | [] => some []
  | [_] => none
  | a :: b :: rest =>
    match fromHexChar a, fromHexChar b, hexDecodeChars rest with
    | some x, some y, some r => some (⟨(x * 16 + y) % 256, Nat.mod_lt _ (by decide)⟩ :: r)
    | _, _, _ => none

/-- The function `hex.DecodeString`. -/
def hexDecodeString (s : String) : Option Bytes :=
  hexDecodeChars s.data

/-- The order in which a `range` loop visits the entries `m` of a Go map under
the choice sequence `order`: each choice picks (modulo the number of entries
left) the entry visited next; when the choices run out the remaining entries
are visited as they stand. -/
def mapRange {α : Type} : List Nat → List α → List α
  | _, [] => []
  | [], x :: xs => x :: xs
  | c :: cs, x :: xs =>
    match (x :: xs).get? (c % (xs.length + 1)) with
    | some y => y :: mapRange cs ((x :: xs).eraseIdx (c % (xs.length + 1)))
    | none => x :: xs

/-! ## Crypto capability -/

/-- Modelled from the spec: `verify_hex` (§4.1), "equivalent to `verify` over
the hex-decoded bytes"; `crypto.go` is not part of the sources. -/
def cryptoVerifyHexBytes {PK : Type} (env : Env PK) (publicKey : PK) (hexMessage : String)
    (sig : Bytes) : Bool :=
  match hexDecodeString hexMessage with
  | some msg => env.cryptoVerifyBytes publicKey msg sig
  | none => false

/-- Modelled from the spec: `verify_key_hash` (§4.1), "semantically equivalent
to `verify` over the raw bytes of the hex-decoded hash"; `crypto.go` is not
part of the sources. -/
def cryptoVerifyPublicKeyHashSignature {PK : Type} (env : Env PK) (publicKey : PK)
    (publicKeyHash : String) (sig : Bytes) : Bool :=
  match hexDecodeString publicKeyHash with
  | some msg => env.cryptoVerifyBytes publicKey msg sig
  | none => false

/-! ## Index store -/

/-- Modelled from the spec: `get_block_by_hash` (§4.3); the database layer is
not part of the sources. -/
def dbGetBlock (db : Db) (hash : String) : Option DbBlockchainBlock :=
  db.blockchain.find? (fun b => decide (b.Hash = hash))

/-- Modelled from the spec: `get_block_by_height` (§4.3). -/
def dbGetBlockByHeight (db : Db) (height : Int) : Option DbBlockchainBlock :=
  db.blockchain.find? (fun b => decide (b.Height = height))

/-- Modelled from the spec: `height()` (§4.3), the greatest stored height,
`-1` if the header table is empty. -/
def dbGetBlockchainHeight (db : Db) : Int :=
  match db.blockchain with
  | [] => -1
  | b :: bs => bs.foldl (fun m x => max m x.Height) b.Height

/-- Modelled from the spec: `insert_block` (§4.3), refused when the height or
the hash is already stored. -/
def dbInsertBlock (db : Db) (b : DbBlockchainBlock) : Option Db :=
  if (dbGetBlockByHeight db b.Height).isSome then none
  else if (dbGetBlock db b.Hash).isSome then none
  else some { db with blockchain := db.blockchain ++ [b] }

/-- Modelled from the spec: `get_public_key` (§4.3). -/
def dbGetPublicKey (db : Db) (hash : String) : Option DbPubKey :=
  db.pubkeys.find? (fun k => decide (k.publicKeyHash = hash))

/-- Modelled from the spec: `public_key_exists` (§4.3). -/
def dbPublicKeyExists (db : Db) (hash : String) : Bool :=
  (dbGetPublicKey db hash).isSome

/-- Modelled from the spec: `write_public_key(bytes, hash, added_at_height)`
(§4.3): a new registry row, not revoked. -/
def dbWritePublicKey (db : Db) (publicKeyBytes : Bytes) (hash : String) (height : Int) : Db :=
  { db with
    pubkeys := db.pubkeys ++
      [{ publicKeyHash := hash, publicKeyBytes := publicKeyBytes,
         addedAtHeight := height, isRevoked := false }] }

/-- Modelled from the spec: `revoke_public_key(hash)` (§4.3, §4.5):
`is_revoked` flips on the rows of that hash. -/
def dbRevokePublicKey (db : Db) (hash : String) : Db :=
  { db with
    pubkeys := List.map
      (fun k => if k.publicKeyHash = hash then { k with isRevoked := true } else k) db.pubkeys }

/-! ## Block file: `dbGetKeyOps` -/

/-- The body of the `rows.Next()` loop of `dbGetKeyOps` up to the map update:
decode one row into a `BlockKeyOp`. -/
def scanKeyOp {PK : Type} (env : Env PK) (row : KeyRow) : Except Err BlockKeyOp :=
  match hexDecodeString row.pubkey with
  | none => .error .hexDecode
  | some publicKeyBytes =>
    match env.cryptoDecodePublicKeyBytes publicKeyBytes with
    | none => .error .decodeKey
    | some publicKey =>
      if row.pubkey_hash ≠ env.cryptoMustGetPublicKeyHash publicKey then .error .hashMismatch
      else
        match hexDecodeString row.signature with
        | none => .error .hexDecode
        | some sig =>
          if row.metadata ≠ "" then
            match env.jsonUnmarshal row.metadata with
            | none => .error .jsonDecode
            | some md =>
              .ok { op := row.op, publicKeyHash := row.pubkey_hash,
                    publicKeyBytes := publicKeyBytes, signatureKeyHash := row.sigkey_hash,
                    signature := sig, metadata := md }
          else
            .ok { op := row.op, publicKeyHash := row.pubkey_hash,
                  publicKeyBytes := publicKeyBytes, signatureKeyHash := row.sigkey_hash,
                  signature := sig, metadata := [] }

/-- The map update at the end of the loop body: append to the slice stored
under `keyOp.publicKeyHash`, or store a one-element slice under a new key. -/
def keyOpsInsert : KeyOpsMap → BlockKeyOp → KeyOpsMap
  | [], keyOp => [(keyOp.publicKeyHash, [keyOp])]
  | (k, ops) :: rest, keyOp =>
    if k = keyOp.publicKeyHash then (k, ops ++ [keyOp]) :: rest
    else (k, ops) :: keyOpsInsert rest keyOp

/-- The `for rows.Next()` loop of `dbGetKeyOps`. -/
def readKeyRows {PK : Type} (env : Env PK) : List KeyRow → KeyOpsMap → Except Err KeyOpsMap
  | [], keyOps => .ok keyOps
  | row :: rows, keyOps =>
    match scanKeyOp env row with
    | .error e => .error e
    | .ok keyOp => readKeyRows env rows (keyOpsInsert keyOps keyOp)

/-- The inner loop of the final check of `dbGetKeyOps`: every op of the slice
equals `oneKeyOps[0].op`. -/
def sameOps : List BlockKeyOp → Bool
  | [] => true
  | first :: rest => (first :: rest).all (fun keyOp => decide (keyOp.op = first.op))

/-- The function `(b *Block) dbGetKeyOps()`.  The final loop ranges over the
map; whether it reports an error does not depend on the visiting order. -/
def dbGetKeyOps {PK : Type} (env : Env PK) (b : Block) : Except Err KeyOpsMap :=
  match b.db.keys with
  | none => .error .keysQuery
  | some rows =>
    match readKeyRows env rows [] with
    | .error e => .error e
    | .ok keyOps =>
      if keyOps.all (fun entry => sameOps entry.2) then .ok keyOps else .error .mixedOps

/-! ## Quorum rule -/

/-- The function `QuorumForHeight`. -/
def QuorumForHeight {PK : Type} (env : Env PK) (h : Int) : Int :=
  if h < 149 then 1 else env.mathLogTimes2 h

/-! ## Acceptance predicate -/

/-- The inner loop `for _, keyOp := range keyOps` of `checkAcceptBlock`: look
up each row's signatory and verify the row's signature over the group key. -/
def verifyKeyOpSignatures {PK : Type} (env : Env PK) (db : Db) (key : String) :
    List BlockKeyOp → Except Err Unit
  | [] => .ok ()
  | keyOp :: rest =>
    match dbGetPublicKey db keyOp.signatureKeyHash with
    | none => .error .unknownOpSigner
    | some signatoryPubKey =>
      match env.cryptoDecodePublicKeyBytes signatoryPubKey.publicKeyBytes with
      | none => .error .decodeKey
      | some sigPubKey =>
        if cryptoVerifyPublicKeyHashSignature env sigPubKey key keyOp.signature then
          verifyKeyOpSignatures env db key rest
        else .error .badOpSig

/-- The application of a group's op after its signatures verified (the
`if keyOps[0].op == "A" ... else if ... "R" ... else` of `checkAcceptBlock`). -/
def applyKeyOp (thisBlockHeight : Int) (db : Db) (key : String) (keyOps : List BlockKeyOp) :
    Except Err Db :=
  match keyOps with
  | [] => .error .indexOutOfRange
  | first :: _ =>
    if first.op = "A" then
      match dbGetPublicKey db key with
      | some _ => .error .duplicateAdd
      | none => .ok (dbWritePublicKey db first.publicKeyBytes key thisBlockHeight)
    else if first.op = "R" then
      match dbGetPublicKey db key with
      | none => .error .unknownRevokeTarget
      | some dbpk =>
        if dbpk.isRevoked then .error .doubleRevoke
        else .ok (dbRevokePublicKey db key)
    else .error .badOp

/-- One iteration of `for key, keyOps := range allKeyOps` in
`checkAcceptBlock`: quorum test, signature checks, application.  An iteration
that fails has written nothing. -/
def acceptKeyOpGroup {PK : Type} (env : Env PK) (thisBlockHeight targetQuorum : Int) (db : Db)
    (key : String) (keyOps : List BlockKeyOp) : Except Err Db :=
  if (keyOps.length : Int) < targetQuorum then .error .quorumShort
  else
    match verifyKeyOpSignatures env db key keyOps with
    | .error e => .error e
    | .ok () => applyKeyOp thisBlockHeight db key keyOps

/-- The loop `for key, keyOps := range allKeyOps` of `checkAcceptBlock` over
the groups in visiting order: the first failing iteration ends it, and the
database keeps what the earlier iterations wrote. -/
def acceptKeyOps {PK : Type} (env : Env PK) (thisBlockHeight targetQuorum : Int) :
    List (String × List BlockKeyOp) → Db → Option Err × Db
  | [], db => (none, db)
  | (key, keyOps) :: rest, db =>
    match acceptKeyOpGroup env thisBlockHeight targetQuorum db key keyOps with
    | .error e => (some e, db)
    | .ok db1 => acceptKeyOps env thisBlockHeight targetQuorum rest db1

/-- The value of a Go `int` expression whose mathematical value is `x`: the
representative of `x` modulo `2^64` in the range `-2^63 .. 2^63 - 1`. -/
def wrapInt (x : Int) : Int :=
  (x + 9223372036854775808) % 18446744073709551616 - 9223372036854775808

/-- Steps 1 and 2 of `checkAcceptBlock` (from the version test to the check of
the block-hash signature): they read the main database and write nothing.
The result is `thisBlockHeight`. -/
def checkAcceptBlockHeader {PK : Type} (env : Env PK) (db : Db) (blk : Block) : Except Err Int :=
  if blk.Version ≠ 1 then .error .unsupportedVersion
  else
    match dbGetBlock db blk.PreviousBlockHash with
    | none => .error .unknownParent
    | some prevBlk =>
      let thisBlockHeight := wrapInt (prevBlk.Height + 1)
      if (dbGetBlockByHeight db thisBlockHeight).isSome then .error .heightOccupied
      else
        match dbGetPublicKey db blk.SignaturePublicKeyHash with
        | none => .error .unknownSigner
        | some signatoryPubKey =>
          if signatoryPubKey.isRevoked then .error .revokedSigner
          else
            match env.cryptoDecodePublicKeyBytes signatoryPubKey.publicKeyBytes with
            | none => .error .decodeKey
            | some sigPubKey =>
              if !cryptoVerifyHexBytes env sigPubKey blk.PreviousBlockHash
                    blk.PreviousBlockHashSignature then .error .badPrevSig
              else if !cryptoVerifyHexBytes env sigPubKey blk.Hash blk.HashSignature then
                .error .badHashSig
              else .ok thisBlockHeight

/-- The function `checkAcceptBlock`: the verdict (the height of the block, or
the rejection) and the main database after the call.  `order` fixes the order
in which `range allKeyOps` visits the key-op groups. -/
def checkAcceptBlock {PK : Type} (env : Env PK) (order : List Nat) (db : Db) (blk : Block) :
    Except Err Int × Db :=
  match checkAcceptBlockHeader env db blk with
  | .error e => (.error e, db)
  | .ok thisBlockHeight =>
    match dbGetKeyOps env blk with
    | .error e => (.error e, db)
    | .ok allKeyOps =>
      let targetQuorum := QuorumForHeight env thisBlockHeight
      match acceptKeyOps env thisBlockHeight targetQuorum (mapRange order allKeyOps) db with
      | (some e, db1) => (.error e, db1)
      | (none, db1) => (.ok thisBlockHeight, db1)

/-! ## Block directory tree -/

/-- The process-wide configuration `cfg` as far as the core reads it. -/
structure Config where
  DataDir : String
  faster : Bool
  deriving DecidableEq, Repr

/-- The chain parameters (`var chainParams`). -/
structure ChainParams where
  GenesisBlockHash : String
  GenesisBlockHashSignature : String
  GenesisBlockTimestamp : String
  deriving DecidableEq, Repr

/-- The process-wide variables the core reads: `cfg`, `chainParams` and
`blockchainSubdirectory`. -/
structure Globals where
  cfg : Config
  chainParams : ChainParams
  blockchainSubdirectory : String
  deriving DecidableEq, Repr

/-- The file system: the directories that exist and the regular files with
their contents. -/
structure FileSys where
  dirs : List String
  files : List (String × Bytes)
  deriving DecidableEq, Repr

/-- The content of the regular file at `path`, if there is one. -/
def readFile (fs : FileSys) (path : String) : Option Bytes :=
  (fs.files.find? (fun f => decide (f.1 = path))).map Prod.snd

/-- The directory `path` and the directories above it: the non-empty initial
segments of `path` that end before a `/`, then `path` itself. -/
def pathAncestors : List Char → List Char → List String
  | seen, [] => if seen = [] then [] else [String.mk seen]
  | seen, c :: cs =>
    if c = '/' ∧ seen ≠ [] then String.mk seen :: pathAncestors (seen ++ [c]) cs
    else pathAncestors (seen ++ [c]) cs

/-- The function `os.MkdirAll`: nothing to do when `path` is a directory; an error when
`path` or a directory above it is a regular file; otherwise the missing
directories are created. -/
def osMkdirAll (fs : FileSys) (path : String) : Except Err FileSys :=
  if path ∈ fs.dirs then .ok fs
  else if (pathAncestors [] path.data).any (fun d => (readFile fs d).isSome) then .error .mkdir
  else .ok { fs with
    dirs := fs.dirs ++ (pathAncestors [] path.data).filter (fun d => decide (d ∉ fs.dirs)) }

/-- The verb `%0Nx` of `fmt.Sprintf` on an `int`: lowercase hexadecimal
digits, a leading `-` for a negative number, zeros after the sign up to the
width `N`. -/
def fmtHex (width : Nat) (n : Int) : List Char :=
  let digits := Nat.toDigits 16 n.natAbs
  if n < 0 then
    '-' :: (List.replicate (width - 1 - digits.length) '0' ++ digits)
  else List.replicate (width - digits.length) '0' ++ digits

/-- The function `blockchainGetFilename`
(`rawBlockFilenameFormat = "%s/%04x/block_%08x.db"`); the operator `/` on a Go `int`
truncates toward zero. -/
def blockchainGetFilename (g : Globals) (h : Int) : String :=
  g.blockchainSubdirectory ++ "/" ++ String.mk (fmtHex 4 (Int.tdiv h 65536)) ++ "/block_" ++
    String.mk (fmtHex 8 h) ++ ".db"

/-- The function `blockchainEnsureBlockDir` (`rawBlockDirnameFormat = "%s/%04x"`). -/
def blockchainEnsureBlockDir (g : Globals) (fs : FileSys) (h : Int) : Except Err FileSys :=
  osMkdirAll fs (g.blockchainSubdirectory ++ "/" ++ String.mk (fmtHex 4 (Int.tdiv h 65536)))

/-- Modelled from the spec: `hash_file` (§4.2), "identical to `hash_bytes`
applied to the file contents", an error when the file cannot be read; the
hashing utility is not part of the sources. -/
def hashFileToHexString {PK : Type} (env : Env PK) (fs : FileSys) (path : String) :
    Option String :=
  (readFile fs path).map env.hashBytesToHexString

/-- Modelled from the spec: opening a block file read-only (§4.4); the
database layer is not part of the sources. -/
def dbOpen {PK : Type} (env : Env PK) (fs : FileSys) (path : String) : Option BlockDb :=
  match readFile fs path with
  | none => none
  | some content => env.dbOpen content

/-- The function `OpenBlockByHeight`, with the file system it leaves behind. -/
def OpenBlockByHeight {PK : Type} (env : Env PK) (g : Globals) (db : Db) (fs : FileSys)
    (height : Int) : Except Err Block × FileSys :=
  match blockchainEnsureBlockDir g fs height with
  | .error e => (.error e, fs)
  | .ok fs1 =>
    let blockFilename := blockchainGetFilename g height
    match hashFileToHexString env fs1 blockFilename with
    | none => (.error .fileRead, fs1)
    | some hash =>
      match dbGetBlockByHeight db height with
      | none => (.error .noHeader, fs1)
      | some dbb =>
        if hash ≠ dbb.Hash then (.error .fileHashMismatch, fs1)
        else
          match dbOpen env fs1 blockFilename with
          | none => (.error .openBlock, fs1)
          | some bdb => (.ok { toDbBlockchainBlock := dbb, db := bdb }, fs1)

/-! ## Full-chain verifier -/

/-- The loop `for _, kop := range keyOps` of `blockchainVerifyEverything`. -/
def verifyKeyOpRows {PK : Type} (env : Env PK) (db : Db) (op : String) :
    List BlockKeyOp → Option Err
  | [] => none
  | kop :: rest =>
    if kop.op ≠ op then some .opMismatch
    else
      match dbGetPublicKey db kop.signatureKeyHash with
      | none => some .unknownOpSigner
      | some dbSigningKey =>
        match env.cryptoDecodePublicKeyBytes dbSigningKey.publicKeyBytes with
        | none => some .decodeKey
        | some signingKey =>
          if cryptoVerifyPublicKeyHashSignature env signingKey kop.publicKeyHash kop.signature
          then verifyKeyOpRows env db op rest
          else some .badOpSig

/-- The loop `for keyOpKeyHash, keyOps := range blockKeyOps` of
`blockchainVerifyEverything`, over the groups in visiting order. -/
def verifyKeyOpGroups {PK : Type} (env : Env PK) (db : Db) (Q : Int) :
    List (String × List BlockKeyOp) → Option Err
  | [] => none
  | (_, keyOps) :: rest =>
    if (keyOps.length : Int) ≠ Q then some .quorumMismatch
    else
      match keyOps with
      | [] => some .indexOutOfRange
      | first :: _ =>
        match verifyKeyOpRows env db first.op keyOps with
        | some e => some e
        | none => verifyKeyOpGroups env db Q rest

/-- The body of the height loop of `blockchainVerifyEverything`: the error it
returns, if any, and the file system after the iteration. -/
def verifyBlockAt {PK : Type} (env : Env PK) (g : Globals) (order : List Nat) (db : Db)
    (fs : FileSys) (height : Int) : Option Err × FileSys :=
  match blockchainEnsureBlockDir g fs height with
  | .error e => (some e, fs)
  | .ok fs1 =>
    let blockFilename := blockchainGetFilename g height
    match hashFileToHexString env fs1 blockFilename with
    | none => (some .fileRead, fs1)
    | some fileHash =>
      match dbGetBlockByHeight db height with
      | none => (some .noHeader, fs1)
      | some dbb =>
        if fileHash ≠ dbb.Hash then (some .fileHashMismatch, fs1)
        else if height = 0 ∧ fileHash ≠ g.chainParams.GenesisBlockHash then
          (some .genesisMismatch, fs1)
        else
          match dbGetPublicKey db dbb.SignaturePublicKeyHash with
          | none => (some .unknownSigner, fs1)
          | some dbpk =>
            match env.cryptoDecodePublicKeyBytes dbpk.publicKeyBytes with
            | none => (some .decodeKey, fs1)
            | some creatorPublicKey =>
              match hexDecodeString dbb.Hash with
              | none => (some .hexDecode, fs1)
              | some hashBytes =>
                if !env.cryptoVerifyBytes creatorPublicKey hashBytes dbb.HashSignature then
                  (some .badHashSig, fs1)
                else
                  match hexDecodeString dbb.PreviousBlockHash with
                  | none => (some .hexDecode, fs1)
                  | some previousHashBytes =>
                    if !env.cryptoVerifyBytes creatorPublicKey previousHashBytes
                          dbb.PreviousBlockHashSignature then (some .badPrevSig, fs1)
                    else
                      match OpenBlockByHeight env g db fs1 height with
                      | (.error e, fs2) => (some e, fs2)
                      | (.ok b, fs2) =>
                        match dbGetKeyOps env b with
                        | .error e => (some e, fs2)
                        | .ok blockKeyOps =>
                          (verifyKeyOpGroups env db (QuorumForHeight env height)
                            (mapRange order blockKeyOps), fs2)

/-- The height loop of `blockchainVerifyEverything` over the heights still to
visit; `orders height` fixes the visiting order of the key-op groups of the
block at `height`. -/
def verifyBlocks {PK : Type} (env : Env PK) (g : Globals) (orders : Int → List Nat) (db : Db) :
    List Int → FileSys → Option Err × FileSys
  | [], fs => (none, fs)
  | height :: rest, fs =>
    match verifyBlockAt env g (orders height) db fs height with
    | (some e, fs1) => (some e, fs1)
    | (none, fs1) => verifyBlocks env g orders db rest fs1

/-- The heights `0, 1, ..., maxHeight` of `for height := 0; height <= maxHeight; height++`. -/
def heightsUpTo (maxHeight : Int) : List Int :=
  (List.range (maxHeight + 1).toNat).map Int.ofNat

/-- The function `blockchainVerifyEverything`: the error it returns (`none` for
`nil`) and the file system after the call.  It calls nothing that writes to
the main database. -/
def blockchainVerifyEverything {PK : Type} (env : Env PK) (g : Globals)
    (orders : Int → List Nat) (db : Db) (fs : FileSys) : Option Err × FileSys :=
  if g.cfg.faster then (none, fs)
  else verifyBlocks env g orders db (heightsUpTo (dbGetBlockchainHeight db)) fs

/-! ## Specification predicates -/

/-- The registry of `db1` keeps every entry of the registry of `db`: a key
hash found in `db` is found in `db1` with the same hash, public-key bytes and
`addedAtHeight`, revoked if it was revoked, and in as many rows as before. -/
def RegistryKept (db db1 : Db) : Prop :=
  ∀ (k : String) (e : DbPubKey), dbGetPublicKey db k = some e →
    ∃ e1, dbGetPublicKey db1 k = some e1 ∧ e1.publicKeyHash = e.publicKeyHash ∧
      e1.publicKeyBytes = e.publicKeyBytes ∧ e1.addedAtHeight = e.addedAtHeight ∧
      (e.isRevoked = true → e1.isRevoked = true) ∧
      db1.pubkeys.countP (fun r => decide (r.publicKeyHash = k)) =
        db.pubkeys.countP (fun r => decide (r.publicKeyHash = k))

/-- The header table holds exactly one header at each height `0..tip` and none
elsewhere: its heights are a rearrangement of `0, 1, ..., tip`. -/
def heightsDense (blocks : List DbBlockchainBlock) (tip : Int) : Prop :=
  0 ≤ tip ∧ (blocks.map (fun b => b.Height)).Perm (heightsUpTo tip)

instance (blocks : List DbBlockchainBlock) (tip : Int) : Decidable (heightsDense blocks tip) := by
  unfold heightsDense
  exact inferInstance

/-- What one passing iteration of the height loop of
`blockchainVerifyEverything` establishes about the block at height `h`: the
header `header(h)` exists; the block file at the path of `h` hashes to
`header(h).Hash`, which at `h = 0` is the chain-params genesis hash; both
header signatures verify under the registry key named by
`header(h).SignaturePublicKeyHash`; the file opens as a block whose key ops
are read without error, and every key-op group has exactly
`QuorumForHeight(h)` rows, one common op, and on every row a signature that
verifies the row's `publicKeyHash` under the registry key named by the row's
`signatureKeyHash`. -/
def VerifiedAt {PK : Type} (env : Env PK) (g : Globals) (db : Db) (fs : FileSys) (h : Int) :
    Prop :=
  ∃ (hdr : DbBlockchainBlock) (content : Bytes) (bdb : BlockDb) (allKeyOps : KeyOpsMap)
    (creator : DbPubKey) (creatorKey : PK) (hashBytes prevBytes : Bytes),
    dbGetBlockByHeight db h = some hdr ∧
    readFile fs (blockchainGetFilename g h) = some content ∧
    env.hashBytesToHexString content = hdr.Hash ∧
    (h = 0 → hdr.Hash = g.chainParams.GenesisBlockHash) ∧
    dbGetPublicKey db hdr.SignaturePublicKeyHash = some creator ∧
    env.cryptoDecodePublicKeyBytes creator.publicKeyBytes = some creatorKey ∧
    hexDecodeString hdr.Hash = some hashBytes ∧
    env.cryptoVerifyBytes creatorKey hashBytes hdr.HashSignature = true ∧
    hexDecodeString hdr.PreviousBlockHash = some prevBytes ∧
    env.cryptoVerifyBytes creatorKey prevBytes hdr.PreviousBlockHashSignature = true ∧
    env.dbOpen content = some bdb ∧
    dbGetKeyOps env { toDbBlockchainBlock := hdr, db := bdb } = .ok allKeyOps ∧
    ∀ grp ∈ allKeyOps,
      (grp.2.length : Int) = QuorumForHeight env h ∧
      (∃ op, ∀ row ∈ grp.2, row.op = op) ∧
      ∀ row ∈ grp.2, ∃ (signer : DbPubKey) (signerKey : PK),
        dbGetPublicKey db row.signatureKeyHash = some signer ∧
        env.cryptoDecodePublicKeyBytes signer.publicKeyBytes = some signerKey ∧
        cryptoVerifyPublicKeyHashSignature env signerKey row.publicKeyHash row.signature = true

/-! ## Test data

A small instance of the black boxes and a few chains and candidate blocks on
which the model is evaluated. -/

/-- The function `hex.EncodeToString` on the characters. -/
def hexEncode : Bytes → List Char
  | [] => []
  | b :: bs => Nat.digitChar (b.val / 16) :: Nat.digitChar (b.val % 16) :: hexEncode bs

/-- The key-op table of the test genesis file: the bootstrap key `aa`, signed
by itself. -/
def testGenesisKeys : List KeyRow :=
  [{ op := "A", pubkey_hash := "aa", pubkey := "aa", sigkey_hash := "aa", signature := "aaaa",
     metadata := "" }]

/-- A test instance of the black boxes: a public key is any non-empty byte
string and its canonical hash is its hex encoding; the signature of a message
under a key is the key followed by the message; the hash of a file is the hex
encoding of its content; the file with content `00` is the genesis block
file, every other non-empty file a block file with an empty `_keys` table;
`int(math.Log(float64(h)) * 2)` is fixed to `10`, its value at `h = 149`. -/
def testEnv : Env Bytes where
  cryptoDecodePublicKeyBytes := fun b => if b = [] then none else some b
  cryptoMustGetPublicKeyHash := fun pk => String.mk (hexEncode pk)
  cryptoVerifyBytes := fun pk msg sig => decide (sig = pk ++ msg)
  hashBytesToHexString := fun b => String.mk (hexEncode b)
  dbOpen := fun content =>
    if content = [] then none
    else if content = [0x00] then some { metaRows := [], keys := some testGenesisKeys }
    else some { metaRows := [], keys := some [] }
  jsonUnmarshal := fun _ => none
  mathLogTimes2 := fun _ => 10

/-- The test genesis header: hash `00`, signed by the key `aa`. -/
def testGenesis : DbBlockchainBlock :=
  { Hash := "00", Height := 0, PreviousBlockHash := "01", SignaturePublicKeyHash := "aa",
    PreviousBlockHashSignature := [0xaa, 0x01], HashSignature := [0xaa, 0x00], Version := 1,
    TimeAccepted := 0 }

/-- The registry entry of the bootstrap key `aa`. -/
def testKeyA : DbPubKey :=
  { publicKeyHash := "aa", publicKeyBytes := [0xaa], addedAtHeight := 0, isRevoked := false }

/-- The main database after bootstrap: the genesis header and the key `aa`. -/
def testDb : Db :=
  { blockchain := [testGenesis], pubkeys := [testKeyA] }

/-- A candidate block on top of the test genesis, signed by `aa`, with the
given `_keys` rows. -/
def testBlock (rows : List KeyRow) : Block :=
  { Hash := "11", Height := 0, PreviousBlockHash := "00", SignaturePublicKeyHash := "aa",
    PreviousBlockHashSignature := [0xaa, 0x00], HashSignature := [0xaa, 0x11], Version := 1,
    TimeAccepted := 0, db := { metaRows := [], keys := some rows } }

/-- The key-op row `op` on the key `target` (one byte, in hex), co-signed by
the key `signer` (one byte, in hex). -/
def testRow (op target signer : String) : KeyRow :=
  { op := op, pubkey_hash := target, pubkey := target, sigkey_hash := signer,
    signature := signer ++ target, metadata := "" }

/-- A block that adds the key `bb`, co-signed by `aa`. -/
def testBlockAdd : Block := testBlock [testRow "A" "bb" "aa"]

/-- A block with two key-op groups: the add of `bb` co-signed by `aa`, and
the add of `cc` co-signed by the key `dd`, which is not in the registry. -/
def testBlockTwoGroups : Block := testBlock [testRow "A" "bb" "aa", testRow "A" "cc" "dd"]

/-- A block whose group for `bb` has two rows (both co-signed by `aa`). -/
def testBlockExcess : Block := testBlock [testRow "A" "bb" "aa", testRow "A" "bb" "aa"]

/-- A registry in which the key `ee` is revoked. -/
def testDbRevoked : Db :=
  { blockchain := [testGenesis],
    pubkeys := [testKeyA,
      { publicKeyHash := "ee", publicKeyBytes := [0xee], addedAtHeight := 0, isRevoked := true }] }

/-- A block that adds the key `bb`, co-signed by the revoked key `ee`. -/
def testBlockRevokedCosigner : Block := testBlock [testRow "A" "bb" "ee"]

/-- A main database whose only header sits at height 148. -/
def testDb148 : Db :=
  { blockchain := [{ testGenesis with Height := 148 }], pubkeys := [testKeyA] }

/-- The test globals: data directory `data`, fast mode off, genesis hash `00`. -/
def testGlobals : Globals :=
  { cfg := { DataDir := "data", faster := false },
    chainParams := { GenesisBlockHash := "00", GenesisBlockHashSignature := "aa00",
                     GenesisBlockTimestamp := "2017-05-06T10:38:50+02:00" },
    blockchainSubdirectory := "data/blocks" }

/-- The test block directory tree: the genesis file (content `00`) and a file
for height 1 (content `11`, a block with an empty `_keys` table). -/
def testFs : FileSys :=
  { dirs := ["data", "data/blocks", "data/blocks/0000"],
    files := [("data/blocks/0000/block_00000000.db", [0x00]),
              ("data/blocks/0000/block_00000001.db", [0x11])] }

/-- A header at height 1 with hash `11`, signed by `aa`, whose
`PreviousBlockHash` is `ff`, not the hash `00` of the test genesis. -/
def testHeaderUnlinked : DbBlockchainBlock :=
  { Hash := "11", Height := 1, PreviousBlockHash := "ff", SignaturePublicKeyHash := "aa",
    PreviousBlockHashSignature := [0xaa, 0xff], HashSignature := [0xaa, 0x11], Version := 1,
    TimeAccepted := 0 }

/-- A main database with the test genesis at height 0 and `testHeaderUnlinked`
at height 1. -/
def testDbUnlinked : Db :=
  { blockchain := [testGenesis, testHeaderUnlinked], pubkeys := [testKeyA] }

/-! ## Further test data -/

/-- A data directory whose block directory `data/blocks/0000` is missing. -/
def testFsNoBlockDir : FileSys :=
  { dirs := ["data", "data/blocks"], files := [] }

/-- A block with two key-op groups: the add of `bb` co-signed by `aa`, and the
add of `cc` co-signed by `bb`, the key the first group adds. -/
def testBlockChained : Block := testBlock [testRow "A" "bb" "aa", testRow "A" "cc" "bb"]

/-- A block whose two rows for `bb` carry different ops. -/
def testBlockMixed : Block := testBlock [testRow "A" "bb" "aa", testRow "R" "bb" "aa"]

/-- A block whose only row stores the hash `bb` for the public key `cc`. -/
def testBlockBadHash : Block :=
  testBlock [{ op := "A", pubkey_hash := "bb", pubkey := "cc", sigkey_hash := "aa",
               signature := "aabb", metadata := "" }]


/-- A main database whose only header sits at the height `2^63 - 1`, the
largest Go `int`. -/
def testDbMaxHeight : Db :=
  { blockchain := [{ testGenesis with Height := 9223372036854775807 }], pubkeys := [testKeyA] }

/-- A block with two key-op groups that do not depend on each other: the add
of `bb` and the add of `cc`, both co-signed by `aa`. -/
def testBlockIndependent : Block := testBlock [testRow "A" "bb" "aa", testRow "A" "cc" "aa"]

/-- A block that revokes the key `aa`, co-signed by `aa`. -/
def testBlockRevoke : Block := testBlock [testRow "R" "aa" "aa"]
/-! ## Further specification predicates -/

/-- The slice a Go map holds under the key `k`; empty when `k` is no key. -/
def keyOpsLookup (m : KeyOpsMap) (k : String) : List BlockKeyOp :=
  match m.find? (fun g => decide (g.1 = k)) with
  | some g => g.2
  | none => []

/-- The registry entry of `key` after the op of the group `keyOps` of a block
at height `thisBlockHeight` has been applied, given the entry `prior` before:
an `"A"` writes a new entry, an `"R"` turns the entry into a revoked one. -/
def keyOpEffect (thisBlockHeight : Int) (key : String) (keyOps : List BlockKeyOp)
    (prior : Option DbPubKey) : Option DbPubKey :=
  match keyOps with
  | [] => prior
  | first :: _ =>
    if first.op = "A" then
      some { publicKeyHash := key, publicKeyBytes := first.publicKeyBytes,
             addedAtHeight := thisBlockHeight, isRevoked := false }
    else if first.op = "R" then prior.map (fun e => { e with isRevoked := true })
    else prior

/-! ## Block file path, as the spec words it -/

/-- The `digits`-digit zero-padded lowercase hexadecimal numeral of `n`
(the digits of `n` modulo `16 ^ digits`, most significant first). -/
def hexFixed : Nat → Nat → List Char
  | 0, _ => []
  | digits + 1, n => hexFixed digits (n / 16) ++ [Nat.digitChar (n % 16)]

/-! ## Bootstrap -/

/-- The ways `blockchainInit` ends the process (`log.Fatal`, `log.Panic`),
one constructor per site; `keyOps` and `verify` carry the error they report. -/
inductive Fatal where
  | mkdirBlockchainSubdirectory
  | cryptoSelfTest
  | genesisAsset
  | genesisHash
  | ensureBlockDir
  | writeGenesis
  | openGenesis
  | genesisTimestamp
  | genesisHashSignature
  | keyOps (e : Err)
  | insertBlock
  | readChainParams
  | decodeChainParams
  | verify (e : Err)
  deriving DecidableEq, Repr

/-- The black boxes `blockchainInit` calls besides those of `Env`:
`cryptoSelfTest` is the outcome of the key generation, signing and
verification with which the bootstrap branch opens ("basically testing the
crypto code"); `mustAsset` is `MustAsset` of `bindata.go` (`none` for its
panic); `strconvAtoi`, `timeParse` are `strconv.Atoi` and
`time.Parse(time.RFC3339, _)`; `osStatModTime` is the modification time
`os.Stat` reports; `jsonUnmarshalChainParams` is `json.Unmarshal` into the
current chain parameters. -/
structure InitEnv where
  cryptoSelfTest : Bool
  mustAsset : String → Option Bytes
  strconvAtoi : String → Option Int
  timeParse : String → Option Int
  osStatModTime : String → Option Int
  jsonUnmarshalChainParams : Bytes → ChainParams → Option ChainParams

/-- The directory that holds `path`: the last directory above it, if any. -/
def parentDir (path : String) : Option String :=
  (pathAncestors [] path.data).dropLast.getLast?

/-- Whether `os.Stat` finds `path`: as a directory or as a regular file. -/
def osStatExists (fs : FileSys) (path : String) : Bool :=
  decide (path ∈ fs.dirs) || (readFile fs path).isSome

/-- Whether the directory that holds `path` exists (a path without a `/` is
held by the working directory). -/
def parentExists (fs : FileSys) (path : String) : Bool :=
  match parentDir path with
  | some p => decide (p ∈ fs.dirs)
  | none => true

/-- The function `os.Mkdir`: an error when `path` exists or the directory
that holds it does not. -/
def osMkdir (fs : FileSys) (path : String) : Except Err FileSys :=
  if osStatExists fs path then .error .mkdir
  else if !parentExists fs path then .error .mkdir
  else .ok { fs with dirs := fs.dirs ++ [path] }

/-- The function `ioutil.WriteFile`: the file at `path` is created or
replaced; an error when `path` is a directory or the directory that holds it
does not exist. -/
def osWriteFile (fs : FileSys) (path : String) (data : Bytes) : Except Err FileSys :=
  if path ∈ fs.dirs then .error .fileRead
  else if !parentExists fs path then .error .fileRead
  else .ok { fs with
    files := (path, data) :: fs.files.filter (fun f => decide (f.1 ≠ path)) }

/-- The function `ensureBlockchainSubdirectoryExists`: it sets the global
`blockchainSubdirectory` to `cfg.DataDir + "/" + "blocks"` and creates that
directory when `os.Stat` does not find it. -/
def ensureBlockchainSubdirectoryExists (g : Globals) (fs : FileSys) :
    Except Fatal (Globals × FileSys) :=
  let g1 := { g with blockchainSubdirectory := g.cfg.DataDir ++ "/" ++ "blocks" }
  if osStatExists fs g1.blockchainSubdirectory then .ok (g1, fs)
  else
    match osMkdir fs g1.blockchainSubdirectory with
    | .error _ => .error .mkdirBlockchainSubdirectory
    | .ok fs1 => .ok (g1, fs1)

/-- The value stored under `key` in the `_meta` table of a block file
(`SELECT value FROM _meta WHERE key=?`). -/
def dbGetMetaString (bdb : BlockDb) (key : String) : Option String :=
  (bdb.metaRows.find? (fun r => decide (r.1 = key))).map Prod.snd

/-- The function `OpenBlockFile`: the block read from the file `fileName`;
`Height` and `HashSignature` keep their zero values. -/
def OpenBlockFile {PK : Type} (env : Env PK) (ienv : InitEnv) (fs : FileSys)
    (fileName : String) : Option Block :=
  match hashFileToHexString env fs fileName with
  | none => none
  | some hash =>
    match dbOpen env fs fileName with
    | none => none
    | some bdb =>
      match (dbGetMetaString bdb "Version").bind ienv.strconvAtoi with
      | none => none
      | some version =>
        match dbGetMetaString bdb "PreviousBlockHash" with
        | none => none
        | some previousBlockHash =>
          match dbGetMetaString bdb "CreatorPublicKey" with
          | none => none
          | some creator =>
            match (dbGetMetaString bdb "PreviousBlockHashSignature").bind hexDecodeString with
            | none => none
            | some previousSig =>
              match (dbGetMetaString bdb "Timestamp").bind ienv.timeParse with
              | some t =>
                some { Hash := hash, Height := 0, PreviousBlockHash := previousBlockHash,
                       SignaturePublicKeyHash := creator,
                       PreviousBlockHashSignature := previousSig, HashSignature := [],
                       Version := version, TimeAccepted := t, db := bdb }
              | none =>
                match ienv.osStatModTime fileName with
                | none => none
                | some t =>
                  some { Hash := hash, Height := 0, PreviousBlockHash := previousBlockHash,
                         SignaturePublicKeyHash := creator,
                         PreviousBlockHashSignature := previousSig, HashSignature := [],
                         Version := version, TimeAccepted := t, db := bdb }

/-- The inner loop `for _, keyOp := range keyOps` of the bootstrap branch of
`blockchainInit`: a key whose hash is in the registry is skipped, any other
is written with height 0. -/
def registerGenesisKeyOps (db : Db) : List BlockKeyOp → Db
  | [] => db
  | keyOp :: rest =>
    if dbPublicKeyExists db keyOp.publicKeyHash then registerGenesisKeyOps db rest
    else
      registerGenesisKeyOps
        (dbWritePublicKey db keyOp.publicKeyBytes keyOp.publicKeyHash 0) rest

/-- The loop `for _, keyOps := range blockKeyOps` of the bootstrap branch of
`blockchainInit`, over the groups in visiting order. -/
def registerGenesisKeys (db : Db) : List (String × List BlockKeyOp) → Db
  | [] => db
  | (_, keyOps) :: rest => registerGenesisKeys (registerGenesisKeyOps db keyOps) rest

/-- The bootstrap branch of `blockchainInit` (the body of
`if dbGetBlockchainHeight() == -1 && createDefault`): the panic that ends it,
if any, with the main database and the file system as they are then. -/
def bootstrapGenesis {PK : Type} (env : Env PK) (ienv : InitEnv) (order : List Nat)
    (g : Globals) (db : Db) (fs : FileSys) : Option Fatal × Db × FileSys :=
  if !ienv.cryptoSelfTest then (some .cryptoSelfTest, db, fs)
  else
    match ienv.mustAsset "bindata/genesis.db" with
    | none => (some .genesisAsset, db, fs)
    | some genesisBlock =>
      if env.hashBytesToHexString genesisBlock ≠ g.chainParams.GenesisBlockHash then
        (some .genesisHash, db, fs)
      else
        match blockchainEnsureBlockDir g fs 0 with
        | .error _ => (some .ensureBlockDir, db, fs)
        | .ok fs1 =>
          let genesisBlockFilename := blockchainGetFilename g 0
          match osWriteFile fs1 genesisBlockFilename genesisBlock with
          | .error _ => (some .writeGenesis, db, fs1)
          | .ok fs2 =>
            match OpenBlockFile env ienv fs2 genesisBlockFilename with
            | none => (some .openGenesis, db, fs2)
            | some b0 =>
              match ienv.timeParse g.chainParams.GenesisBlockTimestamp with
              | none => (some .genesisTimestamp, db, fs2)
              | some timeAccepted =>
                match hexDecodeString g.chainParams.GenesisBlockHashSignature with
                | none => (some .genesisHashSignature, db, fs2)
                | some hashSignature =>
                  let b : Block :=
                    { b0 with
                      Height := 0
                      TimeAccepted := timeAccepted
                      HashSignature := hashSignature }
                  match dbGetKeyOps env b with
                  | .error e => (some (.keyOps e), db, fs2)
                  | .ok blockKeyOps =>
                    let db1 := registerGenesisKeys db (mapRange order blockKeyOps)
                    match dbInsertBlock db1 b.toDbBlockchainBlock with
                    | none => (some .insertBlock, db1, fs2)
                    | some db2 => (none, db2, fs2)

/-- The other branch of `blockchainInit`: when the file `chainparams.json`
exists in the data directory, the chain parameters are replaced by what it
holds.  (The peer list, opaque to the core, is left out.) -/
def loadChainParams (ienv : InitEnv) (g : Globals) (fs : FileSys) : Except Fatal Globals :=
  match readFile fs (g.cfg.DataDir ++ "/" ++ "chainparams.json") with
  | none => .ok g
  | some cpJSON =>
    match ienv.jsonUnmarshalChainParams cpJSON g.chainParams with
    | none => .error .decodeChainParams
    | some cp => .ok { g with chainParams := cp }

/-- The function `blockchainInit`: the fatal error that ends the process, if
any, and the globals, the main database and the file system it leaves
behind.  `order` fixes the visiting order of the genesis key-op groups,
`orders` those of the final `blockchainVerifyEverything`. -/
def blockchainInit {PK : Type} (env : Env PK) (ienv : InitEnv) (order : List Nat)
    (orders : Int → List Nat) (createDefault : Bool) (g : Globals) (db : Db) (fs : FileSys) :
    Option Fatal × Globals × Db × FileSys :=
  match ensureBlockchainSubdirectoryExists g fs with
  | .error f => (some f, g, db, fs)
  | .ok (g1, fs1) =>
    if dbGetBlockchainHeight db = -1 ∧ createDefault = true then
      match bootstrapGenesis env ienv order g1 db fs1 with
      | (some f, db2, fs2) => (some f, g1, db2, fs2)
      | (none, db2, fs2) =>
        match blockchainVerifyEverything env g1 orders db2 fs2 with
        | (some e, fs3) => (some (.verify e), g1, db2, fs3)
        | (none, fs3) => (none, g1, db2, fs3)
    else
      match loadChainParams ienv g1 fs1 with
      | .error f => (some f, g1, db, fs1)
      | .ok g2 =>
        match blockchainVerifyEverything env g2 orders db fs1 with
        | (some e, fs3) => (some (.verify e), g2, db, fs3)
        | (none, fs3) => (none, g2, db, fs3)

/-- The black boxes of `blockchainInit` for the test data: the self-test
passes, the embedded genesis blob is the file with content `00`, the only
number read is the version `1`, and every time stamp is read as `0`. -/
def testInitEnv : InitEnv where
  cryptoSelfTest := true
  mustAsset := fun name => if name = "bindata/genesis.db" then some [0x00] else none
  strconvAtoi := fun s => if s = "1" then some 1 else none
  timeParse := fun _ => some 0
  osStatModTime := fun _ => some 0
  jsonUnmarshalChainParams := fun _ cp => some cp

/-- The test instance of the black boxes with a genesis file (content `00`)
that carries the `_meta` table of a block and the given `_keys` rows. -/
def testEnvInit (rows : List KeyRow) : Env Bytes :=
  { testEnv with
    dbOpen := fun content =>
      if content = [0x00] then
        some { metaRows := [("Version", "1"), ("PreviousBlockHash", "01"),
                            ("CreatorPublicKey", "aa"),
                            ("PreviousBlockHashSignature", "aa01")],
               keys := some rows }
      else none }

/-- An empty main database. -/
def testDbEmpty : Db := { blockchain := [], pubkeys := [] }

/-- A file system that holds only the data directory. -/
def testFsFresh : FileSys := { dirs := ["data"], files := [] }

/-! ## Quorum rule, as the spec words it -/

/-- The quorum rule of the spec (§4.6) at a real argument: `q` is `Q(x)` when
`x < 149` and `q = 1`, or `x >= 149` and `q` is the floor of `ln(x) * 2`. -/
def specQuorum (x : ℝ) (q : Int) : Prop :=
  (x < 149 ∧ q = 1) ∨ (149 ≤ x ∧ q = ⌊Real.log x * 2⌋)

/-- The accuracy asked of the floating-point black box at the height `h`:
`int(math.Log(float64(h)) * 2)` is the integer part of a real number that
differs from `ln(h) * 2` by at most `2^-40`. -/
def logTimes2Accurate {PK : Type} (env : Env PK) (h : Int) : Prop :=
  ∃ x : ℝ, |x - Real.log (h : ℝ) * 2| ≤ 1 / 2 ^ 40 ∧ env.mathLogTimes2 h = ⌊x⌋

/-- Test environment for the quorum rule: the floating-point part returns 13
at the height 1000 and 10 elsewhere. -/
def testEnvQuorum : Env Bytes :=
  { testEnv with
    mathLogTimes2 := fun h => if h = 1000 then 13 else 10 }

/-- Test environment for the height `214643579785916`, the integer part of
`e^33`: the height is below `2^53`, so `float64(h)` is exact; `ln(h)` lies less
than `2^-51` below 33, far nearer to the `float64` value 33 than to its
neighbours (`2^-47` apart), so `math.Log` returns 33 and the floating-point
part is 66. -/
def testEnvExp33 : Env Bytes :=
  { testEnv with
    mathLogTimes2 := fun _ => 66 }

/-! # Lemmas -/

/-! ## Map iteration order -/

theorem get?_cons_eraseIdx_perm {α : Type} :
    ∀ (l : List α) (i : Nat) (y : α), l.get? i = some y → (y :: l.eraseIdx i).Perm l
  | [], _, _, h => by simp at h
  | x :: xs, 0, y, h => by
    simp at h
    subst h
    simp
  | x :: xs, i + 1, y, h => by
    have ih := get?_cons_eraseIdx_perm xs i y (by simpa using h)
    simp only [List.eraseIdx_cons_succ]
    exact (List.Perm.swap x y _).trans (ih.cons x)

theorem mapRange_perm {α : Type} : ∀ (order : List Nat) (m : List α), (mapRange order m).Perm m
  | [], [] => by simp [mapRange]
  | [], x :: xs => by simp [mapRange]
  | c :: cs, [] => by simp [mapRange]
  | c :: cs, x :: xs => by
    unfold mapRange
    split
    · next y hy =>
      exact ((mapRange_perm cs _).cons y).trans (get?_cons_eraseIdx_perm _ _ _ hy)
    · exact List.Perm.refl _

theorem mem_mapRange {α : Type} (order : List Nat) (m : List α) (a : α) :
    a ∈ mapRange order m ↔ a ∈ m :=
  (mapRange_perm order m).mem_iff

theorem mapRange_length {α : Type} (order : List Nat) (m : List α) :
    (mapRange order m).length = m.length :=
  (mapRange_perm order m).length_eq

/-! ## Registry lemmas -/

theorem dbWritePublicKey_blockchain (db : Db) (b : Bytes) (k : String) (h : Int) :
    (dbWritePublicKey db b k h).blockchain = db.blockchain := rfl

theorem dbRevokePublicKey_blockchain (db : Db) (k : String) :
    (dbRevokePublicKey db k).blockchain = db.blockchain := rfl

theorem applyKeyOp_blockchain {h : Int} {db db1 : Db} {key : String} {keyOps : List BlockKeyOp}
    (hok : applyKeyOp h db key keyOps = .ok db1) : db1.blockchain = db.blockchain := by
  unfold applyKeyOp at hok
  split at hok
  · simp at hok
  · split at hok
    · split at hok
      · simp at hok
      · simp only [Except.ok.injEq] at hok
        subst hok; rfl
    · split at hok
      · split at hok
        · simp at hok
        · split at hok
          · simp at hok
          · simp only [Except.ok.injEq] at hok
            subst hok; rfl
      · simp at hok

theorem acceptKeyOpGroup_ok {PK : Type} {env : Env PK} {h Q : Int} {db db1 : Db} {key : String}
    {keyOps : List BlockKeyOp} (hok : acceptKeyOpGroup env h Q db key keyOps = .ok db1) :
    Q ≤ (keyOps.length : Int) ∧ verifyKeyOpSignatures env db key keyOps = .ok () ∧
      applyKeyOp h db key keyOps = .ok db1 := by
  unfold acceptKeyOpGroup at hok
  split at hok
  · simp at hok
  · next hq =>
    split at hok
    · simp at hok
    · next hv => exact ⟨not_lt.mp hq, hv, hok⟩

theorem acceptKeyOps_blockchain {PK : Type} (env : Env PK) (h Q : Int) :
    ∀ (l : List (String × List BlockKeyOp)) (db : Db),
      (acceptKeyOps env h Q l db).2.blockchain = db.blockchain
  | [], db => rfl
  | (key, keyOps) :: rest, db => by
    unfold acceptKeyOps
    split
    · rfl
    · next db1 hg =>
      rw [acceptKeyOps_blockchain env h Q rest db1]
      exact applyKeyOp_blockchain (acceptKeyOpGroup_ok hg).2.2

theorem wrapInt_of_range {x : Int} (hlo : -9223372036854775808 ≤ x)
    (hhi : x < 9223372036854775808) : wrapInt x = x := by
  unfold wrapInt
  omega

theorem checkAcceptBlockHeader_ok {PK : Type} {env : Env PK} {db : Db} {blk : Block} {h : Int}
    (hok : checkAcceptBlockHeader env db blk = .ok h) :
    blk.Version = 1 ∧ ∃ prevBlk signatoryPubKey sigPubKey,
      dbGetBlock db blk.PreviousBlockHash = some prevBlk ∧
      h = wrapInt (prevBlk.Height + 1) ∧
      dbGetBlockByHeight db h = none ∧
      dbGetPublicKey db blk.SignaturePublicKeyHash = some signatoryPubKey ∧
      signatoryPubKey.isRevoked = false ∧
      env.cryptoDecodePublicKeyBytes signatoryPubKey.publicKeyBytes = some sigPubKey ∧
      cryptoVerifyHexBytes env sigPubKey blk.PreviousBlockHash
        blk.PreviousBlockHashSignature = true ∧
      cryptoVerifyHexBytes env sigPubKey blk.Hash blk.HashSignature = true := by
  unfold checkAcceptBlockHeader at hok
  split at hok
  · simp at hok
  · next hv =>
    split at hok
    · simp at hok
    · next prevBlk hprev =>
      simp only at hok
      split at hok
      · simp at hok
      · next hocc =>
        split at hok
        · simp at hok
        · next signatoryPubKey hsig =>
          split at hok
          · simp at hok
          · next hrev =>
            split at hok
            · simp at hok
            · next sigPubKey hdec =>
              split at hok
              · simp at hok
              · next hp =>
                split at hok
                · simp at hok
                · next hh =>
                  simp only [Except.ok.injEq] at hok
                  subst hok
                  refine ⟨not_not.mp hv, prevBlk, signatoryPubKey, sigPubKey, hprev, rfl, ?_, hsig,
                    ?_, hdec, ?_, ?_⟩
                  · simpa using hocc
                  · simpa using hrev
                  · simpa using hp
                  · simpa using hh

theorem checkAcceptBlock_ok {PK : Type} {env : Env PK} {order : List Nat} {db : Db} {blk : Block}
    {h : Int} (hok : (checkAcceptBlock env order db blk).1 = .ok h) :
    checkAcceptBlockHeader env db blk = .ok h ∧ ∃ allKeyOps,
      dbGetKeyOps env blk = .ok allKeyOps ∧
      acceptKeyOps env h (QuorumForHeight env h) (mapRange order allKeyOps) db =
        (none, (checkAcceptBlock env order db blk).2) := by
  unfold checkAcceptBlock at hok ⊢
  split at hok
  · simp at hok
  · next h0 hhdr =>
    split at hok
    · simp at hok
    · next allKeyOps hops =>
      simp only at hok
      split at hok
      · simp at hok
      · next db1 hloop =>
        simp only [Except.ok.injEq] at hok
        subst hok
        refine ⟨hhdr, allKeyOps, ?_, ?_⟩
        · simp [hops]
        · simp [hhdr, hops, hloop]

theorem checkAcceptBlock_unfold {PK : Type} {env : Env PK} (order : List Nat) {db : Db}
    {blk : Block} {h : Int} {allKeyOps : KeyOpsMap}
    (hhdr : checkAcceptBlockHeader env db blk = .ok h)
    (hops : dbGetKeyOps env blk = .ok allKeyOps) :
    checkAcceptBlock env order db blk =
      match acceptKeyOps env h (QuorumForHeight env h) (mapRange order allKeyOps) db with
      | (some e, db1) => (.error e, db1)
      | (none, db1) => (.ok h, db1) := by
  unfold checkAcceptBlock
  simp only [hhdr, hops]

theorem find?_mem_of_some {α : Type} {p : α → Bool} {l : List α} {a : α}
    (h : l.find? p = some a) : a ∈ l ∧ p a = true :=
  ⟨List.mem_of_find?_eq_some h, List.find?_some h⟩

/-! ## Registry monotonicity -/

theorem RegistryKept.refl (db : Db) : RegistryKept db db :=
  fun _ e he => ⟨e, he, rfl, rfl, rfl, id, rfl⟩

theorem RegistryKept.trans {db db1 db2 : Db} (h1 : RegistryKept db db1)
    (h2 : RegistryKept db1 db2) : RegistryKept db db2 := by
  intro k e he
  obtain ⟨e1, he1, a1, b1, c1, d1, n1⟩ := h1 k e he
  obtain ⟨e2, he2, a2, b2, c2, d2, n2⟩ := h2 k e1 he1
  exact ⟨e2, he2, a2.trans a1, b2.trans b1, c2.trans c1, fun hr => d2 (d1 hr), n2.trans n1⟩

theorem dbGetPublicKey_write_new {db : Db} {key : String} (bytes : Bytes) (h : Int)
    (hnone : dbGetPublicKey db key = none) :
    dbGetPublicKey (dbWritePublicKey db bytes key h) key =
      some { publicKeyHash := key, publicKeyBytes := bytes, addedAtHeight := h,
             isRevoked := false } := by
  unfold dbGetPublicKey at hnone ⊢
  simp only [dbWritePublicKey, List.find?_append, hnone]
  simp

theorem dbGetPublicKey_revoke {db : Db} {key : String} {e : DbPubKey}
    (hsome : dbGetPublicKey db key = some e) :
    dbGetPublicKey (dbRevokePublicKey db key) key = some { e with isRevoked := true } := by
  have hk : e.publicKeyHash = key := by
    have := List.find?_some hsome
    simpa using this
  unfold dbGetPublicKey at hsome ⊢
  simp only [dbRevokePublicKey, List.find?_map]
  have hfun : ((fun k : DbPubKey => decide (k.publicKeyHash = key)) ∘
      fun k : DbPubKey => if k.publicKeyHash = key then { k with isRevoked := true } else k) =
      fun k : DbPubKey => decide (k.publicKeyHash = key) := by
    funext k
    by_cases hkk : k.publicKeyHash = key <;> simp [hkk]
  rw [hfun, hsome]
  simp [hk]

theorem RegistryKept.write {db : Db} {key : String} (bytes : Bytes) (h : Int)
    (hnone : dbGetPublicKey db key = none) :
    RegistryKept db (dbWritePublicKey db bytes key h) := by
  intro k e he
  have hne : key ≠ k := by
    rintro rfl
    rw [hnone] at he
    exact absurd he (by simp)
  refine ⟨e, ?_, rfl, rfl, rfl, id, ?_⟩
  · unfold dbGetPublicKey at he ⊢
    simp only [dbWritePublicKey, List.find?_append, he]
    simp
  · simp [dbWritePublicKey, List.countP_append, hne]

theorem RegistryKept.revoke (db : Db) (key : String) :
    RegistryKept db (dbRevokePublicKey db key) := by
  intro k e he
  have hfun : ((fun r : DbPubKey => decide (r.publicKeyHash = k)) ∘
      fun r : DbPubKey => if r.publicKeyHash = key then { r with isRevoked := true } else r) =
      fun r : DbPubKey => decide (r.publicKeyHash = k) := by
    funext r
    by_cases hkk : r.publicKeyHash = key <;> simp [hkk]
  refine ⟨if e.publicKeyHash = key then { e with isRevoked := true } else e, ?_, ?_, ?_, ?_, ?_, ?_⟩
  · unfold dbGetPublicKey at he ⊢
    simp only [dbRevokePublicKey, List.find?_map]
    rw [hfun, he]
    rfl
  · split <;> rfl
  · split <;> rfl
  · split <;> rfl
  · intro hr
    split
    · rfl
    · exact hr
  · simp only [dbRevokePublicKey, List.countP_map]
    rw [hfun]

theorem applyKeyOp_kept {h : Int} {db db1 : Db} {key : String} {keyOps : List BlockKeyOp}
    (hok : applyKeyOp h db key keyOps = .ok db1) : RegistryKept db db1 := by
  unfold applyKeyOp at hok
  split at hok
  · simp at hok
  · split at hok
    · split at hok
      · simp at hok
      · next hnone =>
        simp only [Except.ok.injEq] at hok
        subst hok
        exact RegistryKept.write _ _ hnone
    · split at hok
      · split at hok
        · simp at hok
        · split at hok
          · simp at hok
          · simp only [Except.ok.injEq] at hok
            subst hok
            exact RegistryKept.revoke _ _
      · simp at hok

theorem mapRange_reaches {α : Type} :
    ∀ (target m : List α), target.Perm m → ∃ order, mapRange order m = target
  | [], m, hp => by
    have : m = [] := hp.symm.eq_nil
    subst this
    exact ⟨[], rfl⟩
  | y :: ys, m, hp => by
    have hy : y ∈ m := hp.mem_iff.mp (List.mem_cons_self _ _)
    obtain ⟨i, hi, hget⟩ := List.getElem_of_mem hy
    have hget? : m.get? i = some y := by
      rw [List.get?_eq_getElem?, List.getElem?_eq_getElem hi, hget]
    have hrest : ys.Perm (m.eraseIdx i) :=
      List.Perm.cons_inv (hp.trans (get?_cons_eraseIdx_perm m i y hget?).symm)
    obtain ⟨cs, hcs⟩ := mapRange_reaches ys (m.eraseIdx i) hrest
    refine ⟨i :: cs, ?_⟩
    match m, hi, hget?, hcs with
    | x :: xs, hi, hget?, hcs =>
      have hmod : i % (xs.length + 1) = i := Nat.mod_eq_of_lt (by simpa using hi)
      unfold mapRange
      rw [hmod, hget?]
      simp only
      rw [hcs]

/-! # Acceptance: rejection and state -/

theorem checkAcceptBlock_blockchain {PK : Type} (env : Env PK) (order : List Nat) (db : Db)
    (blk : Block) : (checkAcceptBlock env order db blk).2.blockchain = db.blockchain := by
  unfold checkAcceptBlock
  split
  · rfl
  · next h0 _ =>
    split
    · rfl
    · next allKeyOps _ =>
      have hb := acceptKeyOps_blockchain env h0 (QuorumForHeight env h0)
        (mapRange order allKeyOps) db
      simp only
      split
      · next e db1 hloop => rw [hloop] at hb; exact hb
      · next db1 hloop => rw [hloop] at hb; exact hb

theorem acceptKeyOps_error_single {PK : Type} {env : Env PK} {h Q : Int}
    {l : List (String × List BlockKeyOp)} {db db1 : Db} {e : Err} (hlen : l.length ≤ 1)
    (hloop : acceptKeyOps env h Q l db = (some e, db1)) : db1 = db := by
  match l, hlen with
  | [], _ =>
    simp [acceptKeyOps] at hloop
  | [(key, keyOps)], _ =>
    unfold acceptKeyOps at hloop
    split at hloop
    · simp only [Prod.mk.injEq] at hloop
      exact hloop.2.symm
    · simp [acceptKeyOps] at hloop

/-- C1 (as stated, refuted): when the key-op loop visits the group of `bb`
before the group of `cc`, the block `testBlockTwoGroups` is rejected (the
group of `cc` is co-signed by a key that is not in the registry), yet the
registry after the call holds the key `bb` that the first group added: the
main database is not as it was before the call. -/
theorem checkAcceptBlock_rejection_not_atomic :
    (checkAcceptBlock testEnv [] testDb testBlockTwoGroups).1 = .error .unknownOpSigner ∧
    (checkAcceptBlock testEnv [] testDb testBlockTwoGroups).2 ≠ testDb ∧
    dbGetPublicKey testDb "bb" = none ∧
    dbGetPublicKey (checkAcceptBlock testEnv [] testDb testBlockTwoGroups).2 "bb" =
      some { publicKeyHash := "bb", publicKeyBytes := [0xbb], addedAtHeight := 1,
             isRevoked := false } :=
  ⟨by rfl, by decide, by rfl, by rfl⟩

/-- C1 (amended): if `checkAcceptBlock` returns an error then the header index
is exactly as it was before the call, and the whole main database (index and
registry) is exactly as it was unless the block passed every check before the
key-op loop and has two or more key-op groups: a rejection raised by the
version, parent, height, signer, block-signature or `dbGetKeyOps` checks, or
by the only key-op group of the block, leaves no trace. -/
theorem checkAcceptBlock_rejection_state {PK : Type} (env : Env PK) (order : List Nat) (db : Db)
    (blk : Block) (e : Err) (herr : (checkAcceptBlock env order db blk).1 = .error e) :
    (checkAcceptBlock env order db blk).2.blockchain = db.blockchain ∧
    ((∀ h allKeyOps, checkAcceptBlockHeader env db blk = .ok h →
        dbGetKeyOps env blk = .ok allKeyOps → allKeyOps.length ≤ 1) →
      (checkAcceptBlock env order db blk).2 = db) := by
  refine ⟨checkAcceptBlock_blockchain env order db blk, fun hsingle => ?_⟩
  unfold checkAcceptBlock at herr ⊢
  split
  · rfl
  · next h0 hhdr =>
    split
    · rfl
    · next allKeyOps hops =>
      have hlen : (mapRange order allKeyOps).length ≤ 1 := by
        rw [mapRange_length]
        exact hsingle h0 allKeyOps hhdr hops
      simp only [hhdr, hops] at herr
      simp only
      split
      · next e1 db1 hloop => exact acceptKeyOps_error_single hlen hloop
      · next db1 hloop =>
        rw [hloop] at herr
        simp at herr

/-- C1 (amended), at a concrete input: the block `testBlockAdd` presented to
a chain whose only header sits at height 148 has one key-op group of one row,
short of the quorum 10 at height 149; it is rejected and the main database is
unchanged. -/
theorem checkAcceptBlock_rejection_state_witness :
    (checkAcceptBlock testEnv [] testDb148 testBlockAdd).1 = .error .quorumShort ∧
    (checkAcceptBlock testEnv [] testDb148 testBlockAdd).2.blockchain = testDb148.blockchain ∧
    (checkAcceptBlock testEnv [] testDb148 testBlockAdd).2 = testDb148 :=
  have h := checkAcceptBlock_rejection_state testEnv [] testDb148 testBlockAdd .quorumShort
    (by rfl)
  ⟨by rfl, h.1, h.2 (fun _ allKeyOps _ hops => by
    have hk : dbGetKeyOps testEnv testBlockAdd =
        .ok [("bb", [{ op := "A", publicKeyHash := "bb", publicKeyBytes := [0xbb],
                       signatureKeyHash := "aa", signature := [0xaa, 0xbb],
                       metadata := [] }])] := by rfl
    rw [hk] at hops
    simp only [Except.ok.injEq] at hops
    subst hops
    decide)⟩

/-! # Acceptance: the block extends the chain -/

/-- C2 (as stated, refuted): the index `testDbMaxHeight` holds the parent
header at the height `2^63 - 1`, the largest Go `int`.  The block
`testBlockAdd` on top of it is accepted, and the height returned is `-2^63`,
not `prev.Height + 1`: the addition `prevBlk.Height + 1` wraps around. -/
theorem checkAcceptBlock_height_wraps :
    dbGetBlock testDbMaxHeight testBlockAdd.PreviousBlockHash =
      some { testGenesis with Height := 9223372036854775807 } ∧
    (checkAcceptBlock testEnv [] testDbMaxHeight testBlockAdd).1 =
      .ok (-9223372036854775808) ∧
    (-9223372036854775808 : Int) ≠ 9223372036854775807 + 1 :=
  ⟨by rfl, by rfl, by decide⟩

/-- C2 (amended): whenever `checkAcceptBlock` returns `(h, nil)`, the block's
`Version` is 1, the index holds a header `prev` whose hash equals the block's
`PreviousBlockHash`, `h` is `prev.Height + 1` in Go `int` arithmetic, which is
`prev.Height + 1` whenever `prev.Height` is a Go `int` below the largest one,
`2^63 - 1`, and the index holds no header at height `h`.  Equivalently: a block
with another version, a block whose parent hash is not in the index, and a
block whose height, so computed, is occupied are rejected, whatever else they
contain. -/
theorem checkAcceptBlock_extends_chain {PK : Type} (env : Env PK) (order : List Nat) (db : Db)
    (blk : Block) :
    (∀ h, (checkAcceptBlock env order db blk).1 = .ok h →
      blk.Version = 1 ∧
      ∃ prev, prev ∈ db.blockchain ∧ dbGetBlock db blk.PreviousBlockHash = some prev ∧
        prev.Hash = blk.PreviousBlockHash ∧ h = wrapInt (prev.Height + 1) ∧
        (-2 ^ 63 ≤ prev.Height → prev.Height < 2 ^ 63 - 1 → h = prev.Height + 1) ∧
        dbGetBlockByHeight db h = none ∧ ∀ b ∈ db.blockchain, b.Height ≠ h) ∧
    (blk.Version ≠ 1 → ∃ e, (checkAcceptBlock env order db blk).1 = .error e) ∧
    ((∀ b ∈ db.blockchain, b.Hash ≠ blk.PreviousBlockHash) →
      ∃ e, (checkAcceptBlock env order db blk).1 = .error e) ∧
    (∀ prev, dbGetBlock db blk.PreviousBlockHash = some prev →
      (∃ b ∈ db.blockchain, b.Height = wrapInt (prev.Height + 1)) →
      ∃ e, (checkAcceptBlock env order db blk).1 = .error e) ∧
    (∀ prev, dbGetBlock db blk.PreviousBlockHash = some prev →
      -2 ^ 63 ≤ prev.Height → prev.Height < 2 ^ 63 - 1 →
      (∃ b ∈ db.blockchain, b.Height = prev.Height + 1) →
      ∃ e, (checkAcceptBlock env order db blk).1 = .error e) := by
  have hpow : (2 : Int) ^ 63 = 9223372036854775808 := by norm_num
  have key : ∀ h, (checkAcceptBlock env order db blk).1 = .ok h →
      blk.Version = 1 ∧
      ∃ prev, prev ∈ db.blockchain ∧ dbGetBlock db blk.PreviousBlockHash = some prev ∧
        prev.Hash = blk.PreviousBlockHash ∧ h = wrapInt (prev.Height + 1) ∧
        (-2 ^ 63 ≤ prev.Height → prev.Height < 2 ^ 63 - 1 → h = prev.Height + 1) ∧
        dbGetBlockByHeight db h = none ∧ ∀ b ∈ db.blockchain, b.Height ≠ h := by
    intro h hok
    obtain ⟨hv, prev, _, _, hprev, hh, hfree, _⟩ :=
      checkAcceptBlockHeader_ok (checkAcceptBlock_ok hok).1
    have hp := find?_mem_of_some hprev
    refine ⟨hv, prev, hp.1, hprev, by simpa using hp.2, hh, ?_, hfree, ?_⟩
    · intro hlo hhi
      rw [hh]
      exact wrapInt_of_range (by omega) (by omega)
    · intro b hb
      have := List.find?_eq_none.mp hfree b hb
      simpa using this
  have rejected : ∀ r : Except Err Int, (∀ h, r ≠ .ok h) → ∃ e, r = .error e := by
    intro r hr
    cases r with
    | error e => exact ⟨e, rfl⟩
    | ok h => exact absurd rfl (hr h)
  have occupied : ∀ prev, dbGetBlock db blk.PreviousBlockHash = some prev →
      (∃ b ∈ db.blockchain, b.Height = wrapInt (prev.Height + 1)) →
      ∃ e, (checkAcceptBlock env order db blk).1 = .error e := by
    intro prev hprev hocc
    refine rejected _ fun h hok => ?_
    obtain ⟨_, prev1, _, hprev1, _, hh, _, _, hfree⟩ := key h hok
    rw [hprev] at hprev1
    simp only [Option.some.injEq] at hprev1
    subst hprev1
    obtain ⟨b, hb, hbh⟩ := hocc
    exact hfree b hb (hbh.trans hh.symm)
  refine ⟨key, fun hv => rejected _ fun h hok => hv (key h hok).1,
    fun hno => rejected _ fun h hok => ?_, occupied, fun prev hprev hlo hhi hocc => ?_⟩
  · obtain ⟨_, prev, hmem, _, hhash, _⟩ := key h hok
    exact hno prev hmem hhash
  · refine occupied prev hprev ?_
    rw [wrapInt_of_range (by omega) (by omega)]
    exact hocc

/-- C2 (amended), at concrete inputs: `testBlockAdd` is accepted at height 1
on top of the test genesis, found by its hash `00` at height 0, with height 1
free; the same block with `Version = 2`, with an unknown parent hash, or
presented when height 1 is occupied, is rejected. -/
theorem checkAcceptBlock_extends_chain_witness :
    (checkAcceptBlock testEnv [] testDb testBlockAdd).1 = .ok 1 ∧
    (testBlockAdd.Version = 1 ∧
      ∃ prev, prev ∈ testDb.blockchain ∧ dbGetBlock testDb testBlockAdd.PreviousBlockHash = some prev ∧
        prev.Hash = testBlockAdd.PreviousBlockHash ∧ (1 : Int) = wrapInt (prev.Height + 1) ∧
        (-2 ^ 63 ≤ prev.Height → prev.Height < 2 ^ 63 - 1 → (1 : Int) = prev.Height + 1) ∧
        dbGetBlockByHeight testDb 1 = none ∧ ∀ b ∈ testDb.blockchain, b.Height ≠ 1) ∧
    (∃ e, (checkAcceptBlock testEnv [] testDb { testBlockAdd with Version := 2 }).1 = .error e) ∧
    (∃ e, (checkAcceptBlock testEnv [] testDb
        { testBlockAdd with PreviousBlockHash := "77" }).1 = .error e) ∧
    (∃ e, (checkAcceptBlock testEnv []
        { testDb with blockchain := [testGenesis, { testGenesis with Hash := "11", Height := 1 }] }
        testBlockAdd).1 = .error e) :=
  ⟨by rfl,
   (checkAcceptBlock_extends_chain testEnv [] testDb testBlockAdd).1 1 (by rfl),
   (checkAcceptBlock_extends_chain testEnv [] testDb { testBlockAdd with Version := 2 }).2.1
     (by decide),
   (checkAcceptBlock_extends_chain testEnv [] testDb
     { testBlockAdd with PreviousBlockHash := "77" }).2.2.1 (by decide),
   (checkAcceptBlock_extends_chain testEnv []
     { testDb with blockchain := [testGenesis, { testGenesis with Hash := "11", Height := 1 }] }
     testBlockAdd).2.2.2.2 testGenesis (by rfl) (by decide) (by decide) (by decide)⟩

/-! # Acceptance: the block signer -/

/-- C3: whenever `checkAcceptBlock` succeeds, the registry as it was before
the call holds an entry for the block's `SignaturePublicKeyHash`, the entry is
not revoked, its bytes decode to a public key, and both the
previous-block-hash signature and the block-hash signature verify under that
key.  A block whose signer is missing from the registry, or is revoked, is
rejected. -/
theorem checkAcceptBlock_signer_valid {PK : Type} (env : Env PK) (order : List Nat) (db : Db)
    (blk : Block) :
    (∀ h, (checkAcceptBlock env order db blk).1 = .ok h →
      ∃ entry sigPubKey, dbGetPublicKey db blk.SignaturePublicKeyHash = some entry ∧
        entry ∈ db.pubkeys ∧ entry.publicKeyHash = blk.SignaturePublicKeyHash ∧
        entry.isRevoked = false ∧
        env.cryptoDecodePublicKeyBytes entry.publicKeyBytes = some sigPubKey ∧
        cryptoVerifyHexBytes env sigPubKey blk.PreviousBlockHash
          blk.PreviousBlockHashSignature = true ∧
        cryptoVerifyHexBytes env sigPubKey blk.Hash blk.HashSignature = true) ∧
    (dbGetPublicKey db blk.SignaturePublicKeyHash = none →
      ∃ e, (checkAcceptBlock env order db blk).1 = .error e) ∧
    (∀ entry, dbGetPublicKey db blk.SignaturePublicKeyHash = some entry →
      entry.isRevoked = true → ∃ e, (checkAcceptBlock env order db blk).1 = .error e) := by
  have key : ∀ h, (checkAcceptBlock env order db blk).1 = .ok h →
      ∃ entry sigPubKey, dbGetPublicKey db blk.SignaturePublicKeyHash = some entry ∧
        entry ∈ db.pubkeys ∧ entry.publicKeyHash = blk.SignaturePublicKeyHash ∧
        entry.isRevoked = false ∧
        env.cryptoDecodePublicKeyBytes entry.publicKeyBytes = some sigPubKey ∧
        cryptoVerifyHexBytes env sigPubKey blk.PreviousBlockHash
          blk.PreviousBlockHashSignature = true ∧
        cryptoVerifyHexBytes env sigPubKey blk.Hash blk.HashSignature = true := by
    intro h hok
    obtain ⟨_, _, entry, sigPubKey, _, _, _, hsig, hrev, hdec, hp, hh⟩ :=
      checkAcceptBlockHeader_ok (checkAcceptBlock_ok hok).1
    have hm := find?_mem_of_some hsig
    exact ⟨entry, sigPubKey, hsig, hm.1, by simpa using hm.2, hrev, hdec, hp, hh⟩
  have rejected : ∀ r : Except Err Int, (∀ h, r ≠ .ok h) → ∃ e, r = .error e := by
    intro r hr
    cases r with
    | error e => exact ⟨e, rfl⟩
    | ok h => exact absurd rfl (hr h)
  refine ⟨key, fun hnone => rejected _ fun h hok => ?_,
    fun entry hsome hrev => rejected _ fun h hok => ?_⟩
  · obtain ⟨entry, _, hsig, _⟩ := key h hok
    rw [hnone] at hsig
    exact absurd hsig (by simp)
  · obtain ⟨entry1, _, hsig, _, _, hrev1, _⟩ := key h hok
    rw [hsome] at hsig
    simp only [Option.some.injEq] at hsig
    subst hsig
    rw [hrev] at hrev1
    exact absurd hrev1 (by simp)

/-- C3 at concrete inputs: `testBlockAdd`, signed by the registered key `aa`,
is accepted; signed by the unregistered key `dd` it is rejected; signed by the
revoked key `ee` it is rejected. -/
theorem checkAcceptBlock_signer_valid_witness :
    (checkAcceptBlock testEnv [] testDb testBlockAdd).1 = .ok 1 ∧
    (∃ entry sigPubKey, dbGetPublicKey testDb testBlockAdd.SignaturePublicKeyHash = some entry ∧
        entry ∈ testDb.pubkeys ∧ entry.publicKeyHash = testBlockAdd.SignaturePublicKeyHash ∧
        entry.isRevoked = false ∧
        testEnv.cryptoDecodePublicKeyBytes entry.publicKeyBytes = some sigPubKey ∧
        cryptoVerifyHexBytes testEnv sigPubKey testBlockAdd.PreviousBlockHash
          testBlockAdd.PreviousBlockHashSignature = true ∧
        cryptoVerifyHexBytes testEnv sigPubKey testBlockAdd.Hash
          testBlockAdd.HashSignature = true) ∧
    (∃ e, (checkAcceptBlock testEnv [] testDb
        { testBlockAdd with SignaturePublicKeyHash := "dd" }).1 = .error e) ∧
    (∃ e, (checkAcceptBlock testEnv [] testDbRevoked
        { testBlockAdd with SignaturePublicKeyHash := "ee" }).1 = .error e) :=
  ⟨by rfl,
   (checkAcceptBlock_signer_valid testEnv [] testDb testBlockAdd).1 1 (by rfl),
   (checkAcceptBlock_signer_valid testEnv [] testDb
     { testBlockAdd with SignaturePublicKeyHash := "dd" }).2.1 (by rfl),
   (checkAcceptBlock_signer_valid testEnv [] testDbRevoked
     { testBlockAdd with SignaturePublicKeyHash := "ee" }).2.2
     { publicKeyHash := "ee", publicKeyBytes := [0xee], addedAtHeight := 0, isRevoked := true }
     (by rfl) (by rfl)⟩

/-! # Acceptance: quorum -/

theorem verifyKeyOpSignatures_error {PK : Type} (env : Env PK) (db : Db) (key : String) :
    ∀ (keyOps : List BlockKeyOp) (e : Err),
      verifyKeyOpSignatures env db key keyOps = .error e →
      e = .unknownOpSigner ∨ e = .decodeKey ∨ e = .badOpSig
  | [], e, h => by simp [verifyKeyOpSignatures] at h
  | keyOp :: rest, e, h => by
    unfold verifyKeyOpSignatures at h
    split at h
    · simp only [Except.error.injEq] at h
      exact Or.inl h.symm
    · split at h
      · simp only [Except.error.injEq] at h
        exact Or.inr (Or.inl h.symm)
      · split at h
        · exact verifyKeyOpSignatures_error env db key rest e h
        · simp only [Except.error.injEq] at h
          exact Or.inr (Or.inr h.symm)

theorem applyKeyOp_error {h : Int} {db : Db} {key : String} {keyOps : List BlockKeyOp} {e : Err}
    (herr : applyKeyOp h db key keyOps = .error e) :
    e = .indexOutOfRange ∨ e = .duplicateAdd ∨ e = .unknownRevokeTarget ∨ e = .doubleRevoke ∨
      e = .badOp := by
  unfold applyKeyOp at herr
  split at herr
  · simp only [Except.error.injEq] at herr
    exact Or.inl herr.symm
  · split at herr
    · split at herr
      · simp only [Except.error.injEq] at herr
        exact Or.inr (Or.inl herr.symm)
      · simp at herr
    · split at herr
      · split at herr
        · simp only [Except.error.injEq] at herr
          exact Or.inr (Or.inr (Or.inl herr.symm))
        · split at herr
          · simp only [Except.error.injEq] at herr
            exact Or.inr (Or.inr (Or.inr (Or.inl herr.symm)))
          · simp at herr
      · simp only [Except.error.injEq] at herr
        exact Or.inr (Or.inr (Or.inr (Or.inr herr.symm)))

theorem acceptKeyOpGroup_quorumShort_iff {PK : Type} (env : Env PK) (h Q : Int) (db : Db)
    (key : String) (keyOps : List BlockKeyOp) :
    acceptKeyOpGroup env h Q db key keyOps = .error .quorumShort ↔ (keyOps.length : Int) < Q := by
  unfold acceptKeyOpGroup
  constructor
  · intro herr
    split at herr
    · assumption
    · split at herr
      · next e hv =>
        simp only [Except.error.injEq] at herr
        subst herr
        rcases verifyKeyOpSignatures_error env db key keyOps _ hv with h1 | h1 | h1 <;> cases h1
      · rcases applyKeyOp_error herr with h1 | h1 | h1 | h1 | h1 <;> cases h1
  · intro hlt
    simp [hlt]

theorem acceptKeyOps_short {PK : Type} (env : Env PK) (h Q : Int) :
    ∀ (l : List (String × List BlockKeyOp)) (db : Db),
      (∃ g ∈ l, (g.2.length : Int) < Q) → ∃ e, (acceptKeyOps env h Q l db).1 = some e
  | [], _, hex => by simp at hex
  | (key, keyOps) :: rest, db, hex => by
    unfold acceptKeyOps
    split
    · next e _ => exact ⟨e, rfl⟩
    · next db1 hg =>
      obtain ⟨g, hmem, hlt⟩ := hex
      rcases List.mem_cons.mp hmem with rfl | hrest
      · exact absurd hlt (not_lt.mpr (acceptKeyOpGroup_ok hg).1)
      · exact acceptKeyOps_short env h Q rest db1 ⟨g, hrest, hlt⟩

theorem acceptKeyOps_not_short {PK : Type} (env : Env PK) (h Q : Int) :
    ∀ (l : List (String × List BlockKeyOp)) (db : Db),
      (∀ g ∈ l, Q ≤ (g.2.length : Int)) → (acceptKeyOps env h Q l db).1 ≠ some .quorumShort
  | [], _, _ => by simp [acceptKeyOps]
  | (key, keyOps) :: rest, db, hall => by
    unfold acceptKeyOps
    split
    · next e hg =>
      intro he
      simp only [Option.some.injEq] at he
      subst he
      have := (acceptKeyOpGroup_quorumShort_iff env h Q db key keyOps).mp hg
      exact absurd this (not_lt.mpr (hall (key, keyOps) (List.mem_cons_self _ _)))
    · next db1 _ =>
      exact acceptKeyOps_not_short env h Q rest db1
        (fun g hgm => hall g (List.mem_cons_of_mem _ hgm))

/-- C4: for a candidate block that passes the version, parent, height, signer
and block-signature checks with height `h` and whose key ops are read as
`allKeyOps`: a key-op group of `n` rows fails the quorum test of the loop of
`checkAcceptBlock` exactly when `n < QuorumForHeight(h)`; a block with a group
of fewer than `Q(h)` rows is rejected; and when every group has `Q(h)` rows or
more (exactly `Q(h)` or more than `Q(h)`), the block is not rejected for
quorum. -/
theorem checkAcceptBlock_quorum {PK : Type} (env : Env PK) (order : List Nat) (db : Db)
    (blk : Block) (h : Int) (allKeyOps : KeyOpsMap)
    (hhdr : checkAcceptBlockHeader env db blk = .ok h)
    (hops : dbGetKeyOps env blk = .ok allKeyOps) :
    (∀ (d : Db) (key : String) (keyOps : List BlockKeyOp),
      acceptKeyOpGroup env h (QuorumForHeight env h) d key keyOps = .error .quorumShort ↔
        (keyOps.length : Int) < QuorumForHeight env h) ∧
    ((∃ g ∈ allKeyOps, (g.2.length : Int) < QuorumForHeight env h) →
      ∃ e, (checkAcceptBlock env order db blk).1 = .error e) ∧
    ((∀ g ∈ allKeyOps, QuorumForHeight env h ≤ (g.2.length : Int)) →
      (checkAcceptBlock env order db blk).1 ≠ .error .quorumShort) := by
  refine ⟨fun d key keyOps => acceptKeyOpGroup_quorumShort_iff env h _ d key keyOps, ?_, ?_⟩
  · rintro ⟨g, hg, hlt⟩
    obtain ⟨e, he⟩ := acceptKeyOps_short env h (QuorumForHeight env h)
      (mapRange order allKeyOps) db ⟨g, (mem_mapRange order allKeyOps g).mpr hg, hlt⟩
    rw [checkAcceptBlock_unfold order hhdr hops]
    split
    · next e1 db1 _ => exact ⟨e1, rfl⟩
    · next db1 hloop =>
      rw [hloop] at he
      simp at he
  · intro hall
    have hns := acceptKeyOps_not_short env h (QuorumForHeight env h)
      (mapRange order allKeyOps) db
      (fun g hg => hall g ((mem_mapRange order allKeyOps g).mp hg))
    rw [checkAcceptBlock_unfold order hhdr hops]
    split
    · next e1 db1 hloop =>
      rw [hloop] at hns
      intro he
      simp only [Except.error.injEq] at he
      subst he
      exact hns rfl
    · simp

/-- C4 at concrete inputs.  On top of a header at height 148 the block
`testBlockAdd` has height 149, where the quorum is 10: the group with one row is short
and the block is rejected.  On top of the test genesis (height 1, quorum 1)
the block with one row for `bb` (exactly the quorum) and the block with two
rows for `bb` (more than the quorum) are both accepted. -/
theorem checkAcceptBlock_quorum_witness :
    QuorumForHeight testEnv 149 = 10 ∧
    (∃ e, (checkAcceptBlock testEnv [] testDb148 testBlockAdd).1 = .error e) ∧
    (checkAcceptBlock testEnv [] testDb148 testBlockAdd).1 = .error .quorumShort ∧
    QuorumForHeight testEnv 1 = 1 ∧
    (checkAcceptBlock testEnv [] testDb testBlockExcess).1 ≠ .error .quorumShort ∧
    (checkAcceptBlock testEnv [] testDb testBlockAdd).1 = .ok 1 ∧
    (checkAcceptBlock testEnv [] testDb testBlockExcess).1 = .ok 1 :=
  ⟨by rfl,
   (checkAcceptBlock_quorum testEnv [] testDb148 testBlockAdd 149
      [("bb", [{ op := "A", publicKeyHash := "bb", publicKeyBytes := [0xbb],
                 signatureKeyHash := "aa", signature := [0xaa, 0xbb], metadata := [] }])]
      (by rfl) (by rfl)).2.1 ⟨_, List.mem_singleton.mpr rfl, by decide⟩,
   by rfl, by rfl,
   (checkAcceptBlock_quorum testEnv [] testDb testBlockExcess 1
      [("bb", [{ op := "A", publicKeyHash := "bb", publicKeyBytes := [0xbb],
                 signatureKeyHash := "aa", signature := [0xaa, 0xbb], metadata := [] },
               { op := "A", publicKeyHash := "bb", publicKeyBytes := [0xbb],
                 signatureKeyHash := "aa", signature := [0xaa, 0xbb], metadata := [] }])]
      (by rfl) (by rfl)).2.2 (by decide),
   by rfl, by rfl⟩

/-! # Key-op loop: one iteration -/

/-- One iteration of the key-op loop of `checkAcceptBlock`, for a block at
height `h`, on a group `(target, ops)` that passed the quorum and signature
checks in the registry state `db` reached so far, with `o` the op of the first
row.  If `o` is `"A"` and the registry has an entry for `target` the loop ends
with an error, otherwise the entry `(target, pubkey bytes, h, not revoked)` is
written and the loop goes on; if `o` is `"R"` and the registry has no entry
for `target`, or the entry is revoked, the loop ends with an error, otherwise
the entry becomes revoked and the loop goes on; for any other `o` the loop
ends with an error.  An error of the loop is the rejection of the block. -/
theorem acceptKeyOps_group_step {PK : Type} (env : Env PK) (h : Int) (db : Db)
    (target : String) (first : BlockKeyOp) (more : List BlockKeyOp)
    (rest : List (String × List BlockKeyOp))
    (hq : QuorumForHeight env h ≤ ((first :: more).length : Int))
    (hsig : verifyKeyOpSignatures env db target (first :: more) = .ok ()) :
    (first.op = "A" → ∀ entry, dbGetPublicKey db target = some entry →
      acceptKeyOps env h (QuorumForHeight env h) ((target, first :: more) :: rest) db =
        (some .duplicateAdd, db)) ∧
    (first.op = "A" → dbGetPublicKey db target = none →
      acceptKeyOps env h (QuorumForHeight env h) ((target, first :: more) :: rest) db =
        acceptKeyOps env h (QuorumForHeight env h) rest
          (dbWritePublicKey db first.publicKeyBytes target h) ∧
      dbGetPublicKey (dbWritePublicKey db first.publicKeyBytes target h) target =
        some { publicKeyHash := target, publicKeyBytes := first.publicKeyBytes,
               addedAtHeight := h, isRevoked := false }) ∧
    (first.op = "R" → dbGetPublicKey db target = none →
      acceptKeyOps env h (QuorumForHeight env h) ((target, first :: more) :: rest) db =
        (some .unknownRevokeTarget, db)) ∧
    (first.op = "R" → ∀ entry, dbGetPublicKey db target = some entry → entry.isRevoked = true →
      acceptKeyOps env h (QuorumForHeight env h) ((target, first :: more) :: rest) db =
        (some .doubleRevoke, db)) ∧
    (first.op = "R" → ∀ entry, dbGetPublicKey db target = some entry → entry.isRevoked = false →
      acceptKeyOps env h (QuorumForHeight env h) ((target, first :: more) :: rest) db =
        acceptKeyOps env h (QuorumForHeight env h) rest (dbRevokePublicKey db target) ∧
      dbGetPublicKey (dbRevokePublicKey db target) target =
        some { entry with isRevoked := true }) ∧
    (first.op ≠ "A" → first.op ≠ "R" →
      acceptKeyOps env h (QuorumForHeight env h) ((target, first :: more) :: rest) db =
        (some .badOp, db)) ∧
    (∀ (order : List Nat) (db0 : Db) (blk : Block) (allKeyOps : KeyOpsMap) (e : Err) (db1 : Db),
      checkAcceptBlockHeader env db0 blk = .ok h → dbGetKeyOps env blk = .ok allKeyOps →
      acceptKeyOps env h (QuorumForHeight env h) (mapRange order allKeyOps) db0 = (some e, db1) →
      checkAcceptBlock env order db0 blk = (.error e, db1)) := by
  have hnq : ¬ ((first :: more).length : Int) < QuorumForHeight env h := not_lt.mpr hq
  have hstep : acceptKeyOpGroup env h (QuorumForHeight env h) db target (first :: more) =
      applyKeyOp h db target (first :: more) := by
    unfold acceptKeyOpGroup
    rw [if_neg hnq, hsig]
  have hR : "R" ≠ "A" := by decide
  refine ⟨?_, ?_, ?_, ?_, ?_, ?_, ?_⟩
  · intro ho entry hent
    simp [acceptKeyOps, hstep, applyKeyOp, ho, hent]
  · intro ho hnone
    refine ⟨?_, dbGetPublicKey_write_new _ _ hnone⟩
    simp [acceptKeyOps, hstep, applyKeyOp, ho, hnone]
  · intro ho hnone
    simp [acceptKeyOps, hstep, applyKeyOp, ho, hnone]
  · intro ho entry hent hrev
    simp [acceptKeyOps, hstep, applyKeyOp, ho, hent, hrev]
  · intro ho entry hent hrev
    refine ⟨?_, dbGetPublicKey_revoke hent⟩
    simp [acceptKeyOps, hstep, applyKeyOp, ho, hent, hrev]
  · intro hA hRr
    simp [acceptKeyOps, hstep, applyKeyOp, hA, hRr]
  · intro order db0 blk allKeyOps e db1 hhdr hops hloop
    rw [checkAcceptBlock_unfold order hhdr hops, hloop]

/-! # Acceptance: the registry is monotone -/

theorem acceptKeyOps_kept {PK : Type} (env : Env PK) (h Q : Int) :
    ∀ (l : List (String × List BlockKeyOp)) (db : Db),
      RegistryKept db (acceptKeyOps env h Q l db).2
  | [], db => RegistryKept.refl db
  | (key, keyOps) :: rest, db => by
    unfold acceptKeyOps
    split
    · exact RegistryKept.refl db
    · next db1 hg =>
      exact (applyKeyOp_kept (acceptKeyOpGroup_ok hg).2.2).trans
        (acceptKeyOps_kept env h Q rest db1)

theorem checkAcceptBlock_kept {PK : Type} (env : Env PK) (order : List Nat) (db : Db)
    (blk : Block) : RegistryKept db (checkAcceptBlock env order db blk).2 := by
  unfold checkAcceptBlock
  split
  · exact RegistryKept.refl db
  · next h0 _ =>
    split
    · exact RegistryKept.refl db
    · next allKeyOps _ =>
      have hk := acceptKeyOps_kept env h0 (QuorumForHeight env h0) (mapRange order allKeyOps) db
      simp only
      split
      · next e db1 hloop => rw [hloop] at hk; exact hk
      · next db1 hloop => rw [hloop] at hk; exact hk

/-- C6: for every call of `checkAcceptBlock`, successful or not, and every key
hash `k`: if the registry holds an entry for `k` before the call, it holds an
entry for `k` after the call with the same hash, the same public-key bytes and
the same `added_at_height`; if the entry was revoked before, it is revoked
after; and the registry has as many rows of hash `k` after the call as before
(the key is neither deleted nor added a second time). -/
theorem checkAcceptBlock_registry_monotone {PK : Type} (env : Env PK) (order : List Nat) (db : Db)
    (blk : Block) (k : String) (entry : DbPubKey) (hk : dbGetPublicKey db k = some entry) :
    ∃ entry1, dbGetPublicKey (checkAcceptBlock env order db blk).2 k = some entry1 ∧
      entry1.publicKeyHash = entry.publicKeyHash ∧
      entry1.publicKeyBytes = entry.publicKeyBytes ∧
      entry1.addedAtHeight = entry.addedAtHeight ∧
      (entry.isRevoked = true → entry1.isRevoked = true) ∧
      (checkAcceptBlock env order db blk).2.pubkeys.countP
          (fun r => decide (r.publicKeyHash = k)) =
        db.pubkeys.countP (fun r => decide (r.publicKeyHash = k)) :=
  checkAcceptBlock_kept env order db blk k entry hk

/-- C6 at a concrete input: the revoked key `ee` is still in the registry, with
the same bytes and height and still revoked, after `checkAcceptBlock` accepted
the block that adds `bb`. -/
theorem checkAcceptBlock_registry_monotone_witness :
    dbGetPublicKey testDbRevoked "ee" =
      some { publicKeyHash := "ee", publicKeyBytes := [0xee], addedAtHeight := 0,
             isRevoked := true } ∧
    ∃ entry1, dbGetPublicKey (checkAcceptBlock testEnv [] testDbRevoked testBlockAdd).2 "ee" =
        some entry1 ∧
      entry1.publicKeyHash = "ee" ∧ entry1.publicKeyBytes = [0xee] ∧ entry1.addedAtHeight = 0 ∧
      (true = true → entry1.isRevoked = true) ∧
      (checkAcceptBlock testEnv [] testDbRevoked testBlockAdd).2.pubkeys.countP
          (fun r => decide (r.publicKeyHash = "ee")) =
        testDbRevoked.pubkeys.countP (fun r => decide (r.publicKeyHash = "ee")) :=
  ⟨by rfl,
   checkAcceptBlock_registry_monotone testEnv [] testDbRevoked testBlockAdd "ee"
     { publicKeyHash := "ee", publicKeyBytes := [0xee], addedAtHeight := 0, isRevoked := true }
     (by rfl)⟩

/-! # Acceptance: heights stay dense -/

theorem mem_heightsUpTo (tip x : Int) : x ∈ heightsUpTo tip ↔ 0 ≤ x ∧ x ≤ tip := by
  unfold heightsUpTo
  simp only [List.mem_map, List.mem_range]
  constructor
  · rintro ⟨n, hn, rfl⟩
    have : (Int.ofNat n : Int) = (n : Int) := rfl
    omega
  · rintro ⟨h0, h1⟩
    refine ⟨x.toNat, by omega, ?_⟩
    have : (Int.ofNat x.toNat : Int) = (x.toNat : Int) := rfl
    omega

theorem heightsUpTo_succ (tip : Int) (h0 : 0 ≤ tip) :
    heightsUpTo (tip + 1) = heightsUpTo tip ++ [tip + 1] := by
  unfold heightsUpTo
  have h1 : (tip + 1 + 1).toNat = (tip + 1).toNat + 1 := by omega
  rw [h1, List.range_succ, List.map_append]
  have h2 : Int.ofNat (tip + 1).toNat = tip + 1 := by
    have : (Int.ofNat (tip + 1).toNat : Int) = ((tip + 1).toNat : Int) := rfl
    omega
  simp only [List.map_cons, List.map_nil, h2]

/-- C7: if the header index holds exactly one header at each height `0..tip`
(`tip >= 0`) and none elsewhere, every successful `checkAcceptBlock` returns
the height `tip + 1`; and when the accepted block's header is then inserted at
the returned height, the index holds exactly the heights `0..tip+1`.  The
insertion is not refused for its height (it goes through whenever the block's
hash is new to the index).  The index is taken to hold fewer than `2^63`
headers, so that `tip + 1` is a Go `int`. -/
theorem checkAcceptBlock_heights_dense {PK : Type} (env : Env PK) (order : List Nat) (db : Db)
    (blk : Block) (tip h : Int) (hdense : heightsDense db.blockchain tip)
    (hlen : db.blockchain.length < 2 ^ 63)
    (hok : (checkAcceptBlock env order db blk).1 = .ok h) :
    h = tip + 1 ∧
    (∀ db2, dbInsertBlock (checkAcceptBlock env order db blk).2
        { blk.toDbBlockchainBlock with Height := h } = some db2 →
      heightsDense db2.blockchain (tip + 1)) ∧
    (dbGetBlock db blk.Hash = none →
      ∃ db2, dbInsertBlock (checkAcceptBlock env order db blk).2
        { blk.toDbBlockchainBlock with Height := h } = some db2) := by
  obtain ⟨htip, hperm⟩ := hdense
  obtain ⟨_, prev, _, _, hprev, hh, hfree, _⟩ :=
    checkAcceptBlockHeader_ok (checkAcceptBlock_ok hok).1
  have hprevmem : prev.Height ∈ heightsUpTo tip :=
    hperm.mem_iff.mp (List.mem_map_of_mem _ (find?_mem_of_some hprev).1)
  have hnot : h ∉ heightsUpTo tip := by
    intro hmem
    obtain ⟨b, hb, hbh⟩ := List.mem_map.mp (hperm.mem_iff.mpr hmem)
    have := List.find?_eq_none.mp hfree b hb
    simp only [decide_eq_true_eq] at this
    exact this hbh
  rw [mem_heightsUpTo] at hprevmem hnot
  have hcount : db.blockchain.length = (tip + 1).toNat := by
    have := hperm.length_eq
    simpa [heightsUpTo] using this
  have hpow : (2 : Nat) ^ 63 = 9223372036854775808 := by norm_num
  rw [wrapInt_of_range (by omega) (by omega)] at hh
  have hval : h = tip + 1 := by omega
  have hbc := checkAcceptBlock_blockchain env order db blk
  have hfree1 : dbGetBlockByHeight (checkAcceptBlock env order db blk).2 h = none := by
    unfold dbGetBlockByHeight at hfree ⊢
    rw [hbc]
    exact hfree
  refine ⟨hval, ?_, ?_⟩
  · intro db2 hins
    unfold dbInsertBlock at hins
    split at hins
    · simp at hins
    · split at hins
      · simp at hins
      · simp only [Option.some.injEq] at hins
        subst hins
        refine ⟨by omega, ?_⟩
        rw [heightsUpTo_succ tip htip]
        simp only [hbc, List.map_append, List.map_cons, List.map_nil]
        rw [hval]
        exact hperm.append_right _
  · intro hnew
    have hnew1 : dbGetBlock (checkAcceptBlock env order db blk).2 blk.Hash = none := by
      unfold dbGetBlock at hnew ⊢
      rw [hbc]
      exact hnew
    unfold dbInsertBlock
    simp [hfree1, hnew1]

/-- C7 at a concrete input: the test index holds exactly the height 0; the
block `testBlockAdd` is accepted at height 1, and inserting its header leaves
an index with exactly the heights 0 and 1. -/
theorem checkAcceptBlock_heights_dense_witness :
    heightsDense testDb.blockchain 0 ∧
    testDb.blockchain.length < 2 ^ 63 ∧
    (checkAcceptBlock testEnv [] testDb testBlockAdd).1 = .ok 1 ∧
    (1 : Int) = 0 + 1 ∧
    ∃ db2, dbInsertBlock (checkAcceptBlock testEnv [] testDb testBlockAdd).2
        { testBlockAdd.toDbBlockchainBlock with Height := 1 } = some db2 ∧
      heightsDense db2.blockchain (0 + 1) :=
  have hd : heightsDense testDb.blockchain 0 := by decide
  have hl : testDb.blockchain.length < 2 ^ 63 := by
    show 1 < 2 ^ 63
    norm_num
  have h := checkAcceptBlock_heights_dense testEnv [] testDb testBlockAdd 0 1 hd hl (by rfl)
  ⟨hd, hl, by rfl, h.1, (h.2.2 (by rfl)).elim fun db2 hins => ⟨db2, hins, h.2.1 db2 hins⟩⟩

/-! # Acceptance: co-signers of key ops -/

/-- C8 (the code at the failing input): the registry `testDbRevoked` holds the
key `ee` as revoked; the block `testBlockRevokedCosigner`, whose only key-op
row adds `bb` and is co-signed by `ee`, is accepted by `checkAcceptBlock` at
height 1, and `bb` enters the registry. -/
theorem checkAcceptBlock_accepts_revoked_cosigner :
    dbGetPublicKey testDbRevoked "ee" =
      some { publicKeyHash := "ee", publicKeyBytes := [0xee], addedAtHeight := 0,
             isRevoked := true } ∧
    dbGetKeyOps testEnv testBlockRevokedCosigner =
      .ok [("bb", [{ op := "A", publicKeyHash := "bb", publicKeyBytes := [0xbb],
                     signatureKeyHash := "ee", signature := [0xee, 0xbb], metadata := [] }])] ∧
    (checkAcceptBlock testEnv [] testDbRevoked testBlockRevokedCosigner).1 = .ok 1 ∧
    dbGetPublicKey (checkAcceptBlock testEnv [] testDbRevoked testBlockRevokedCosigner).2 "bb" =
      some { publicKeyHash := "bb", publicKeyBytes := [0xbb], addedAtHeight := 1,
             isRevoked := false } ∧
    (checkAcceptBlock testEnv [] testDbRevoked
      { testBlockRevokedCosigner with
        SignaturePublicKeyHash := "ee"
        PreviousBlockHashSignature := [0xee, 0x00]
        HashSignature := [0xee, 0x11] }).1 =
      .error .revokedSigner :=
  ⟨by rfl, by rfl, by rfl, by rfl, by rfl⟩

theorem keyOpsInsert_grouped (m : KeyOpsMap) (keyOp : BlockKeyOp)
    (hm : ∀ g ∈ m, ∀ row ∈ g.2, row.publicKeyHash = g.1) :
    ∀ g ∈ keyOpsInsert m keyOp, ∀ row ∈ g.2, row.publicKeyHash = g.1 := by
  induction m with
  | nil =>
    intro g hg row hrow
    simp only [keyOpsInsert, List.mem_singleton] at hg
    subst hg
    simp only [List.mem_singleton] at hrow
    subst hrow
    rfl
  | cons head rest ih =>
    obtain ⟨k, ops⟩ := head
    intro g hg row hrow
    unfold keyOpsInsert at hg
    split at hg
    · next hk =>
      rcases List.mem_cons.mp hg with rfl | hrest
      · rcases List.mem_append.mp hrow with hold | hnew
        · exact hm (k, ops) (List.mem_cons_self _ _) row hold
        · simp only [List.mem_singleton] at hnew
          subst hnew
          exact hk.symm
      · exact hm g (List.mem_cons_of_mem _ hrest) row hrow
    · rcases List.mem_cons.mp hg with rfl | hrest
      · exact hm (k, ops) (List.mem_cons_self _ _) row hrow
      · exact ih (fun g1 hg1 => hm g1 (List.mem_cons_of_mem _ hg1)) g hrest row hrow

theorem readKeyRows_grouped {PK : Type} (env : Env PK) :
    ∀ (rows : List KeyRow) (m out : KeyOpsMap),
      (∀ g ∈ m, ∀ row ∈ g.2, row.publicKeyHash = g.1) → readKeyRows env rows m = .ok out →
      ∀ g ∈ out, ∀ row ∈ g.2, row.publicKeyHash = g.1
  | [], m, out, hm, h => by
    simp only [readKeyRows, Except.ok.injEq] at h
    subst h
    exact hm
  | r :: rows, m, out, hm, h => by
    unfold readKeyRows at h
    split at h
    · simp at h
    · next keyOp _ =>
      exact readKeyRows_grouped env rows _ out (keyOpsInsert_grouped m keyOp hm) h

theorem dbGetKeyOps_grouped {PK : Type} {env : Env PK} {b : Block} {allKeyOps : KeyOpsMap}
    (h : dbGetKeyOps env b = .ok allKeyOps) :
    ∀ g ∈ allKeyOps, ∀ row ∈ g.2, row.publicKeyHash = g.1 := by
  unfold dbGetKeyOps at h
  split at h
  · simp at h
  · next rows _ =>
    split at h
    · simp at h
    · next keyOps hread =>
      split at h
      · simp only [Except.ok.injEq] at h
        subst h
        exact readKeyRows_grouped env rows [] keyOps (by simp) hread
      · simp at h

theorem verifyKeyOpSignatures_ok {PK : Type} (env : Env PK) (db : Db) (key : String) :
    ∀ keyOps : List BlockKeyOp, verifyKeyOpSignatures env db key keyOps = .ok () →
      ∀ row ∈ keyOps, ∃ (signer : DbPubKey) (signerKey : PK),
        dbGetPublicKey db row.signatureKeyHash = some signer ∧
        env.cryptoDecodePublicKeyBytes signer.publicKeyBytes = some signerKey ∧
        cryptoVerifyPublicKeyHashSignature env signerKey key row.signature = true
  | [], _ => by simp
  | keyOp :: rest, h => by
    unfold verifyKeyOpSignatures at h
    split at h
    · simp at h
    · next signer hsigner =>
      split at h
      · simp at h
      · next signerKey hdec =>
        split at h
        · next hver =>
          intro row hrow
          rcases List.mem_cons.mp hrow with rfl | hrest
          · exact ⟨signer, signerKey, hsigner, hdec, hver⟩
          · exact verifyKeyOpSignatures_ok env db key rest h row hrest
        · simp at h

theorem acceptKeyOps_cosigners {PK : Type} (env : Env PK) (h Q : Int) :
    ∀ (l : List (String × List BlockKeyOp)) (db dbf : Db),
      acceptKeyOps env h Q l db = (none, dbf) →
      ∀ g ∈ l, ∀ row ∈ g.2, ∃ (signer : DbPubKey) (signerKey : PK),
        dbGetPublicKey dbf row.signatureKeyHash = some signer ∧
        env.cryptoDecodePublicKeyBytes signer.publicKeyBytes = some signerKey ∧
        cryptoVerifyPublicKeyHashSignature env signerKey g.1 row.signature = true
  | [], _, _, _ => by simp
  | (key, keyOps) :: rest, db, dbf, hloop => by
    unfold acceptKeyOps at hloop
    split at hloop
    · simp at hloop
    · next db1 hg =>
      intro g hgm row hrow
      rcases List.mem_cons.mp hgm with rfl | hrest
      · obtain ⟨_, hsig, happly⟩ := acceptKeyOpGroup_ok hg
        obtain ⟨signer, signerKey, hsigner, hdec, hver⟩ :=
          verifyKeyOpSignatures_ok env db key keyOps hsig row hrow
        have hkept : RegistryKept db dbf := by
          have h2 := acceptKeyOps_kept env h Q rest db1
          rw [hloop] at h2
          exact (applyKeyOp_kept happly).trans h2
        obtain ⟨signer1, hsigner1, _, hbytes, _⟩ := hkept _ signer hsigner
        exact ⟨signer1, signerKey, hsigner1, by rw [hbytes]; exact hdec, hver⟩
      · exact acceptKeyOps_cosigners env h Q rest db1 dbf hloop g hrest row hrow

/-- Every co-signer of an accepted key op is registered (the part of C8 that
the code does guarantee): whenever `checkAcceptBlock` accepts a block, every
key-op row of the block sits in the group of its own `publicKeyHash`, the
signer named by the row's `signatureKeyHash` has an entry in the registry the
call leaves behind, and the row's signature verifies the row's
`publicKeyHash` under that entry's key.  Whether the entry is revoked is not
examined. -/
theorem checkAcceptBlock_cosigners_registered {PK : Type} (env : Env PK) (order : List Nat)
    (db : Db) (blk : Block) (h : Int) (allKeyOps : KeyOpsMap)
    (hok : (checkAcceptBlock env order db blk).1 = .ok h)
    (hops : dbGetKeyOps env blk = .ok allKeyOps) :
    ∀ g ∈ allKeyOps, ∀ row ∈ g.2, row.publicKeyHash = g.1 ∧
      ∃ (signer : DbPubKey) (signerKey : PK),
        dbGetPublicKey (checkAcceptBlock env order db blk).2 row.signatureKeyHash = some signer ∧
        env.cryptoDecodePublicKeyBytes signer.publicKeyBytes = some signerKey ∧
        cryptoVerifyPublicKeyHashSignature env signerKey row.publicKeyHash row.signature =
          true := by
  intro g hg row hrow
  obtain ⟨_, allKeyOps1, hops1, hloop⟩ := checkAcceptBlock_ok hok
  rw [hops] at hops1
  simp only [Except.ok.injEq] at hops1
  subst hops1
  have hgrp := dbGetKeyOps_grouped hops g hg row hrow
  refine ⟨hgrp, ?_⟩
  rw [hgrp]
  exact acceptKeyOps_cosigners env h _ _ db _ hloop g
    ((mem_mapRange order allKeyOps g).mpr hg) row hrow

/-- The co-signer property at a concrete input: `testBlockAdd` is accepted and
its only key-op row, co-signed by `aa`, has its signer in the registry. -/
theorem checkAcceptBlock_cosigners_registered_witness :
    (checkAcceptBlock testEnv [] testDb testBlockAdd).1 = .ok 1 ∧
    ∀ g ∈ [("bb", [({ op := "A", publicKeyHash := "bb", publicKeyBytes := [0xbb],
                      signatureKeyHash := "aa", signature := [0xaa, 0xbb],
                      metadata := [] } : BlockKeyOp)])],
      ∀ row ∈ g.2, row.publicKeyHash = g.1 ∧
        ∃ (signer : DbPubKey) (signerKey : Bytes),
          dbGetPublicKey (checkAcceptBlock testEnv [] testDb testBlockAdd).2
            row.signatureKeyHash = some signer ∧
          testEnv.cryptoDecodePublicKeyBytes signer.publicKeyBytes = some signerKey ∧
          cryptoVerifyPublicKeyHashSignature testEnv signerKey row.publicKeyHash row.signature =
            true :=
  ⟨by rfl, checkAcceptBlock_cosigners_registered testEnv [] testDb testBlockAdd 1 _ (by rfl)
    (by rfl)⟩

/-! # Full-chain verifier -/

theorem osMkdirAll_files {fs fs1 : FileSys} {path : String}
    (h : osMkdirAll fs path = .ok fs1) : fs1.files = fs.files := by
  unfold osMkdirAll at h
  split at h
  · simp only [Except.ok.injEq] at h
    subst h; rfl
  · split at h
    · simp at h
    · simp only [Except.ok.injEq] at h
      subst h; rfl

theorem blockchainEnsureBlockDir_files {g : Globals} {fs fs1 : FileSys} {h : Int}
    (hok : blockchainEnsureBlockDir g fs h = .ok fs1) : fs1.files = fs.files :=
  osMkdirAll_files hok

theorem readFile_congr {fs fs1 : FileSys} (h : fs1.files = fs.files) (path : String) :
    readFile fs1 path = readFile fs path := by
  unfold readFile
  rw [h]

theorem OpenBlockByHeight_files {PK : Type} (env : Env PK) (g : Globals) (db : Db)
    (fs : FileSys) (height : Int) :
    (OpenBlockByHeight env g db fs height).2.files = fs.files := by
  unfold OpenBlockByHeight
  split
  · rfl
  · next fs1 hdir =>
    have hf := blockchainEnsureBlockDir_files hdir
    simp only
    split
    · exact hf
    · split
      · exact hf
      · split
        · exact hf
        · split <;> exact hf

theorem OpenBlockByHeight_ok {PK : Type} {env : Env PK} {g : Globals} {db : Db} {fs fs2 : FileSys}
    {height : Int} {b : Block} (hok : OpenBlockByHeight env g db fs height = (.ok b, fs2)) :
    ∃ dbb content bdb, dbGetBlockByHeight db height = some dbb ∧
      readFile fs (blockchainGetFilename g height) = some content ∧
      env.dbOpen content = some bdb ∧ b = { toDbBlockchainBlock := dbb, db := bdb } := by
  unfold OpenBlockByHeight at hok
  split at hok
  · simp at hok
  · next fs1 hdir =>
    have hf := blockchainEnsureBlockDir_files hdir
    simp only at hok
    split at hok
    · simp at hok
    · split at hok
      · simp at hok
      · next dbb hdbb =>
        split at hok
        · simp at hok
        · split at hok
          · simp at hok
          · next bdb hopen =>
            simp only [Prod.mk.injEq, Except.ok.injEq] at hok
            unfold dbOpen at hopen
            rw [readFile_congr hf] at hopen
            split at hopen
            · simp at hopen
            · next content hread =>
              exact ⟨dbb, content, bdb, hdbb, hread, hopen, hok.1.symm⟩

theorem verifyKeyOpRows_none {PK : Type} (env : Env PK) (db : Db) (op : String) :
    ∀ rows : List BlockKeyOp, verifyKeyOpRows env db op rows = none →
      ∀ row ∈ rows, row.op = op ∧ ∃ (signer : DbPubKey) (signerKey : PK),
        dbGetPublicKey db row.signatureKeyHash = some signer ∧
        env.cryptoDecodePublicKeyBytes signer.publicKeyBytes = some signerKey ∧
        cryptoVerifyPublicKeyHashSignature env signerKey row.publicKeyHash row.signature = true
  | [], _ => by simp
  | kop :: rest, h => by
    unfold verifyKeyOpRows at h
    split at h
    · simp at h
    · next hop =>
      split at h
      · simp at h
      · next signer hsigner =>
        split at h
        · simp at h
        · next signerKey hdec =>
          split at h
          · next hver =>
            intro row hrow
            rcases List.mem_cons.mp hrow with rfl | hrest
            · exact ⟨not_not.mp hop, signer, signerKey, hsigner, hdec, hver⟩
            · exact verifyKeyOpRows_none env db op rest h row hrest
          · simp at h

theorem verifyKeyOpGroups_none {PK : Type} (env : Env PK) (db : Db) (Q : Int) :
    ∀ l : List (String × List BlockKeyOp), verifyKeyOpGroups env db Q l = none →
      ∀ grp ∈ l, (grp.2.length : Int) = Q ∧ (∃ op, ∀ row ∈ grp.2, row.op = op) ∧
        ∀ row ∈ grp.2, ∃ (signer : DbPubKey) (signerKey : PK),
          dbGetPublicKey db row.signatureKeyHash = some signer ∧
          env.cryptoDecodePublicKeyBytes signer.publicKeyBytes = some signerKey ∧
          cryptoVerifyPublicKeyHashSignature env signerKey row.publicKeyHash row.signature = true
  | [], _ => by simp
  | (key, keyOps) :: rest, h => by
    unfold verifyKeyOpGroups at h
    split at h
    · simp at h
    · next hq =>
      split at h
      · simp at h
      · next first more =>
        split at h
        · simp at h
        · next hrows =>
          intro grp hgrp
          rcases List.mem_cons.mp hgrp with rfl | hrest
          · have hr := verifyKeyOpRows_none env db first.op (first :: more) hrows
            exact ⟨not_not.mp hq, ⟨first.op, fun row hrow => (hr row hrow).1⟩,
              fun row hrow => (hr row hrow).2⟩
          · exact verifyKeyOpGroups_none env db Q rest h grp hrest

theorem verifyBlockAt_files {PK : Type} (env : Env PK) (g : Globals) (order : List Nat)
    (db : Db) (fs : FileSys) (height : Int) :
    (verifyBlockAt env g order db fs height).2.files = fs.files := by
  unfold verifyBlockAt
  split
  · rfl
  · next fs1 hdir =>
    have hf := blockchainEnsureBlockDir_files hdir
    have ho := OpenBlockByHeight_files env g db fs1 height
    generalize OpenBlockByHeight env g db fs1 height = opened at ho ⊢
    obtain ⟨res, fs2⟩ := opened
    simp only at ho ⊢
    repeat' split
    all_goals first
      | exact hf
      | exact ho.trans hf
      | simp_all

theorem verifyBlockAt_none {PK : Type} {env : Env PK} {g : Globals} {order : List Nat}
    {db : Db} {fs : FileSys} {height : Int}
    (hnone : (verifyBlockAt env g order db fs height).1 = none) :
    VerifiedAt env g db fs height := by
  unfold verifyBlockAt at hnone
  split at hnone
  · simp at hnone
  · next fs1 hdir =>
    have hf := blockchainEnsureBlockDir_files hdir
    simp only at hnone
    split at hnone
    · simp at hnone
    · next fileHash hhash =>
      split at hnone
      · simp at hnone
      · next dbb hdbb =>
        split at hnone
        · simp at hnone
        · next hhasheq =>
          split at hnone
          · simp at hnone
          · next hgen =>
            split at hnone
            · simp at hnone
            · next creator hcreator =>
              split at hnone
              · simp at hnone
              · next creatorKey hdec =>
                split at hnone
                · simp at hnone
                · next hashBytes hhex =>
                  split at hnone
                  · simp at hnone
                  · next hsig =>
                    split at hnone
                    · simp at hnone
                    · next prevBytes hphex =>
                      split at hnone
                      · simp at hnone
                      · next hpsig =>
                        split at hnone
                        · simp at hnone
                        · next b fs2 hopen =>
                          split at hnone
                          · simp at hnone
                          · next blockKeyOps hops =>
                            simp only at hnone
                            obtain ⟨dbb1, content, bdb, hdbb1, hread, hdbopen, hb⟩ :=
                              OpenBlockByHeight_ok hopen
                            rw [readFile_congr hf] at hread
                            rw [hdbb] at hdbb1
                            simp only [Option.some.injEq] at hdbb1
                            subst hdbb1
                            subst hb
                            unfold hashFileToHexString at hhash
                            rw [readFile_congr hf, hread] at hhash
                            simp only [Option.map_some', Option.some.injEq] at hhash
                            have hgroups := verifyKeyOpGroups_none env db _ _ hnone
                            refine ⟨dbb, content, bdb, blockKeyOps, creator, creatorKey,
                              hashBytes, prevBytes, hdbb, hread, ?_, ?_, hcreator, hdec, hhex,
                              by simpa using hsig, hphex, by simpa using hpsig, hdbopen, hops,
                              fun grp hgrp =>
                                hgroups grp ((mem_mapRange order blockKeyOps grp).mpr hgrp)⟩
                            · rw [hhash]
                              exact not_not.mp hhasheq
                            · intro h0
                              have := not_and.mp hgen h0
                              rw [← not_not.mp hhasheq]
                              exact not_not.mp this

theorem VerifiedAt_congr {PK : Type} {env : Env PK} {g : Globals} {db : Db} {fs fs1 : FileSys}
    {h : Int} (hf : fs1.files = fs.files) (hv : VerifiedAt env g db fs1 h) :
    VerifiedAt env g db fs h := by
  unfold VerifiedAt at hv ⊢
  simp only [readFile_congr hf] at hv
  exact hv

theorem verifyBlocks_none {PK : Type} (env : Env PK) (g : Globals) (orders : Int → List Nat)
    (db : Db) :
    ∀ (hs : List Int) (fs : FileSys), (verifyBlocks env g orders db hs fs).1 = none →
      ∀ h ∈ hs, VerifiedAt env g db fs h
  | [], _, _ => by simp
  | height :: rest, fs, hnone => by
    unfold verifyBlocks at hnone
    have hfiles := verifyBlockAt_files env g (orders height) db fs height
    split at hnone
    · simp at hnone
    · next fs1 hat =>
      rw [hat] at hfiles
      intro h hh
      rcases List.mem_cons.mp hh with rfl | hrest
      · exact verifyBlockAt_none (by rw [hat])
      · exact VerifiedAt_congr hfiles (verifyBlocks_none env g orders db rest fs1 hnone h hrest)

theorem blockchainVerifyEverything_none {PK : Type} {env : Env PK} {g : Globals}
    {orders : Int → List Nat} {db : Db} {fs : FileSys} (hfast : g.cfg.faster = false)
    (hnil : (blockchainVerifyEverything env g orders db fs).1 = none) (h : Int) (h0 : 0 ≤ h)
    (htip : h ≤ dbGetBlockchainHeight db) : VerifiedAt env g db fs h := by
  unfold blockchainVerifyEverything at hnil
  simp only [hfast] at hnil
  exact verifyBlocks_none env g orders db _ fs (by simpa using hnil) h
    ((mem_heightsUpTo _ _).mpr ⟨h0, htip⟩)

/-- C9: with fast mode off, if `blockchainVerifyEverything` returns `nil` then
for every height `h` from 0 to the index tip: the header `header(h)` exists,
the block file at the path of `h` hashes to `header(h).Hash`, at `h = 0` that
hash is the chain-params genesis hash, the block-hash signature and the
previous-block-hash signature of `header(h)` both verify under the registry
key named by `header(h).SignaturePublicKeyHash`, and every key-op group of
block `h` has exactly `QuorumForHeight(h)` rows, one common op and a valid
signature on every row.  A group whose size differs from `Q(h)` (fewer rows or
more rows) makes the verifier fail. -/
theorem blockchainVerifyEverything_sound {PK : Type} (env : Env PK) (g : Globals)
    (orders : Int → List Nat) (db : Db) (fs : FileSys) (hfast : g.cfg.faster = false) :
    ((blockchainVerifyEverything env g orders db fs).1 = none →
      ∀ h : Int, 0 ≤ h → h ≤ dbGetBlockchainHeight db →
        ∃ (hdr : DbBlockchainBlock) (content : Bytes) (bdb : BlockDb) (allKeyOps : KeyOpsMap)
          (creator : DbPubKey) (creatorKey : PK) (hashBytes prevBytes : Bytes),
          dbGetBlockByHeight db h = some hdr ∧
          readFile fs (blockchainGetFilename g h) = some content ∧
          env.hashBytesToHexString content = hdr.Hash ∧
          (h = 0 → hdr.Hash = g.chainParams.GenesisBlockHash) ∧
          dbGetPublicKey db hdr.SignaturePublicKeyHash = some creator ∧
          env.cryptoDecodePublicKeyBytes creator.publicKeyBytes = some creatorKey ∧
          hexDecodeString hdr.Hash = some hashBytes ∧
          env.cryptoVerifyBytes creatorKey hashBytes hdr.HashSignature = true ∧
          hexDecodeString hdr.PreviousBlockHash = some prevBytes ∧
          env.cryptoVerifyBytes creatorKey prevBytes hdr.PreviousBlockHashSignature = true ∧
          env.dbOpen content = some bdb ∧
          dbGetKeyOps env { toDbBlockchainBlock := hdr, db := bdb } = .ok allKeyOps ∧
          ∀ grp ∈ allKeyOps,
            (grp.2.length : Int) = QuorumForHeight env h ∧
            (∃ op, ∀ row ∈ grp.2, row.op = op) ∧
            ∀ row ∈ grp.2, ∃ (signer : DbPubKey) (signerKey : PK),
              dbGetPublicKey db row.signatureKeyHash = some signer ∧
              env.cryptoDecodePublicKeyBytes signer.publicKeyBytes = some signerKey ∧
              cryptoVerifyPublicKeyHashSignature env signerKey row.publicKeyHash
                row.signature = true) ∧
    (∀ (h : Int) (hdr : DbBlockchainBlock) (content : Bytes) (bdb : BlockDb)
        (allKeyOps : KeyOpsMap) (grp : String × List BlockKeyOp),
      0 ≤ h → h ≤ dbGetBlockchainHeight db →
      dbGetBlockByHeight db h = some hdr →
      readFile fs (blockchainGetFilename g h) = some content →
      env.dbOpen content = some bdb →
      dbGetKeyOps env { toDbBlockchainBlock := hdr, db := bdb } = .ok allKeyOps →
      grp ∈ allKeyOps → (grp.2.length : Int) ≠ QuorumForHeight env h →
      ∃ e, (blockchainVerifyEverything env g orders db fs).1 = some e) := by
  refine ⟨fun hnil h h0 htip => blockchainVerifyEverything_none hfast hnil h h0 htip, ?_⟩
  intro h hdr content bdb allKeyOps grp h0 htip hhdr hread hopen hops hgrp hne
  cases hres : (blockchainVerifyEverything env g orders db fs).1 with
  | some e => exact ⟨e, rfl⟩
  | none =>
    exfalso
    obtain ⟨hdr1, content1, bdb1, allKeyOps1, _, _, _, _, hhdr1, hread1, _, _, _, _, _, _, _, _,
      hopen1, hops1, hall⟩ := blockchainVerifyEverything_none hfast hres h h0 htip
    rw [hhdr] at hhdr1
    rw [hread] at hread1
    simp only [Option.some.injEq] at hhdr1 hread1
    subst hhdr1
    subst hread1
    rw [hopen] at hopen1
    simp only [Option.some.injEq] at hopen1
    subst hopen1
    rw [hops] at hops1
    simp only [Except.ok.injEq] at hops1
    subst hops1
    exact hne (hall grp hgrp).1

/-- C9 at a concrete input: the verifier returns `nil` on the test chain of
one block (tip 0), whose genesis file holds one key-op group of one row; the
facts of the theorem hold at height 0. -/
theorem blockchainVerifyEverything_sound_witness :
    testGlobals.cfg.faster = false ∧
    (blockchainVerifyEverything testEnv testGlobals (fun _ => []) testDb testFs).1 = none ∧
    dbGetBlockchainHeight testDb = 0 ∧
    ∃ (hdr : DbBlockchainBlock) (content : Bytes) (bdb : BlockDb) (allKeyOps : KeyOpsMap)
      (creator : DbPubKey) (creatorKey : Bytes) (hashBytes prevBytes : Bytes),
      dbGetBlockByHeight testDb 0 = some hdr ∧
      readFile testFs (blockchainGetFilename testGlobals 0) = some content ∧
      testEnv.hashBytesToHexString content = hdr.Hash ∧
      ((0 : Int) = 0 → hdr.Hash = testGlobals.chainParams.GenesisBlockHash) ∧
      dbGetPublicKey testDb hdr.SignaturePublicKeyHash = some creator ∧
      testEnv.cryptoDecodePublicKeyBytes creator.publicKeyBytes = some creatorKey ∧
      hexDecodeString hdr.Hash = some hashBytes ∧
      testEnv.cryptoVerifyBytes creatorKey hashBytes hdr.HashSignature = true ∧
      hexDecodeString hdr.PreviousBlockHash = some prevBytes ∧
      testEnv.cryptoVerifyBytes creatorKey prevBytes hdr.PreviousBlockHashSignature = true ∧
      testEnv.dbOpen content = some bdb ∧
      dbGetKeyOps testEnv { toDbBlockchainBlock := hdr, db := bdb } = .ok allKeyOps ∧
      ∀ grp ∈ allKeyOps,
        (grp.2.length : Int) = QuorumForHeight testEnv 0 ∧
        (∃ op, ∀ row ∈ grp.2, row.op = op) ∧
        ∀ row ∈ grp.2, ∃ (signer : DbPubKey) (signerKey : Bytes),
          dbGetPublicKey testDb row.signatureKeyHash = some signer ∧
          testEnv.cryptoDecodePublicKeyBytes signer.publicKeyBytes = some signerKey ∧
          cryptoVerifyPublicKeyHashSignature testEnv signerKey row.publicKeyHash
            row.signature = true :=
  ⟨by rfl, by rfl, by rfl,
   (blockchainVerifyEverything_sound testEnv testGlobals (fun _ => []) testDb testFs (by rfl)).1
     (by rfl) 0 (by decide) (by decide)⟩

/-! # Full-chain verifier: chain linkage -/

/-- C10 (as stated, refuted): with fast mode off the verifier returns `nil` on
the chain `testDbUnlinked` (tip 1), although the header at height 1 has the
`PreviousBlockHash` `ff` and the header at height 0 has the hash `00`. -/
theorem blockchainVerifyEverything_misses_linkage :
    testGlobals.cfg.faster = false ∧
    (blockchainVerifyEverything testEnv testGlobals (fun _ => []) testDbUnlinked testFs).1 =
      none ∧
    dbGetBlockchainHeight testDbUnlinked = 1 ∧
    dbGetBlockByHeight testDbUnlinked 1 = some testHeaderUnlinked ∧
    dbGetBlockByHeight testDbUnlinked 0 = some testGenesis ∧
    testHeaderUnlinked.PreviousBlockHash ≠ testGenesis.Hash :=
  ⟨by rfl, by rfl, by rfl, by rfl, by rfl, by decide⟩

/-- C10 (amended): with fast mode off, if `blockchainVerifyEverything` returns
`nil` then for every height `h` with `0 <= h <= tip` the header `header(h)`
exists, its `PreviousBlockHash` is well-formed hex, and its
`PreviousBlockHashSignature` verifies over the decoded `PreviousBlockHash`
under the registry key named by `header(h).SignaturePublicKeyHash`.  (The
verifier re-checks the signature on the previous-block hash; it does not
compare that hash with `header(h-1).Hash`.) -/
theorem blockchainVerifyEverything_prev_hash_signed {PK : Type} (env : Env PK) (g : Globals)
    (orders : Int → List Nat) (db : Db) (fs : FileSys) (hfast : g.cfg.faster = false)
    (hnil : (blockchainVerifyEverything env g orders db fs).1 = none) (h : Int) (h0 : 0 ≤ h)
    (htip : h ≤ dbGetBlockchainHeight db) :
    ∃ (hdr : DbBlockchainBlock) (creator : DbPubKey) (creatorKey : PK) (prevBytes : Bytes),
      dbGetBlockByHeight db h = some hdr ∧
      dbGetPublicKey db hdr.SignaturePublicKeyHash = some creator ∧
      env.cryptoDecodePublicKeyBytes creator.publicKeyBytes = some creatorKey ∧
      hexDecodeString hdr.PreviousBlockHash = some prevBytes ∧
      env.cryptoVerifyBytes creatorKey prevBytes hdr.PreviousBlockHashSignature = true := by
  obtain ⟨hdr, _, _, _, creator, creatorKey, _, prevBytes, hhdr, _, _, _, hcreator, hdec, _, _,
    hphex, hpsig, _⟩ := blockchainVerifyEverything_none hfast hnil h h0 htip
  exact ⟨hdr, creator, creatorKey, prevBytes, hhdr, hcreator, hdec, hphex, hpsig⟩

/-- C10 (amended), at a concrete input: on the chain `testDbUnlinked` the
verifier returns `nil`, and at height 1 the signature on the previous-block
hash `ff` verifies under the key `aa`. -/
theorem blockchainVerifyEverything_prev_hash_signed_witness :
    testGlobals.cfg.faster = false ∧
    (blockchainVerifyEverything testEnv testGlobals (fun _ => []) testDbUnlinked testFs).1 =
      none ∧
    (1 : Int) ≤ dbGetBlockchainHeight testDbUnlinked ∧
    ∃ (hdr : DbBlockchainBlock) (creator : DbPubKey) (creatorKey : Bytes) (prevBytes : Bytes),
      dbGetBlockByHeight testDbUnlinked 1 = some hdr ∧
      dbGetPublicKey testDbUnlinked hdr.SignaturePublicKeyHash = some creator ∧
      testEnv.cryptoDecodePublicKeyBytes creator.publicKeyBytes = some creatorKey ∧
      hexDecodeString hdr.PreviousBlockHash = some prevBytes ∧
      testEnv.cryptoVerifyBytes creatorKey prevBytes hdr.PreviousBlockHashSignature = true :=
  ⟨by rfl, by rfl, by decide,
   blockchainVerifyEverything_prev_hash_signed testEnv testGlobals (fun _ => []) testDbUnlinked
     testFs (by rfl) (by rfl) 1 (by decide) (by decide)⟩

/-! # Full-chain verifier: what it writes -/

theorem osMkdirAll_dirs {fs fs1 : FileSys} {path : String}
    (h : osMkdirAll fs path = .ok fs1) :
    (∃ added, fs1.dirs = fs.dirs ++ added) ∧ (path ∈ fs.dirs → fs1 = fs) := by
  unfold osMkdirAll at h
  split at h
  · simp only [Except.ok.injEq] at h
    subst h
    exact ⟨⟨[], by simp⟩, fun _ => rfl⟩
  · next hnot =>
    split at h
    · simp at h
    · simp only [Except.ok.injEq] at h
      subst h
      exact ⟨⟨_, rfl⟩, fun hin => absurd hin hnot⟩

theorem OpenBlockByHeight_dirs {PK : Type} (env : Env PK) (g : Globals) (db : Db)
    (fs : FileSys) (height : Int) :
    (∃ added, (OpenBlockByHeight env g db fs height).2.dirs = fs.dirs ++ added) ∧
    (g.blockchainSubdirectory ++ "/" ++ String.mk (fmtHex 4 (Int.tdiv height 65536)) ∈ fs.dirs →
      (OpenBlockByHeight env g db fs height).2 = fs) := by
  unfold OpenBlockByHeight
  split
  · exact ⟨⟨[], by simp⟩, fun _ => rfl⟩
  · next fs1 hdir =>
    have hd := osMkdirAll_dirs hdir
    simp only
    repeat' split
    all_goals exact ⟨hd.1, fun hin => hd.2 hin⟩

theorem verifyBlockAt_dirs {PK : Type} (env : Env PK) (g : Globals) (order : List Nat)
    (db : Db) (fs : FileSys) (height : Int) :
    (∃ added, (verifyBlockAt env g order db fs height).2.dirs = fs.dirs ++ added) ∧
    (g.blockchainSubdirectory ++ "/" ++ String.mk (fmtHex 4 (Int.tdiv height 65536)) ∈ fs.dirs →
      (verifyBlockAt env g order db fs height).2 = fs) := by
  unfold verifyBlockAt
  split
  · exact ⟨⟨[], by simp⟩, fun _ => rfl⟩
  · next fs1 hdir =>
    have hd := osMkdirAll_dirs hdir
    have ho := OpenBlockByHeight_dirs env g db fs1 height
    generalize OpenBlockByHeight env g db fs1 height = opened at ho ⊢
    obtain ⟨res, fs2⟩ := opened
    simp only at ho ⊢
    have hboth : (∃ added, fs2.dirs = fs.dirs ++ added) ∧
        (g.blockchainSubdirectory ++ "/" ++ String.mk (fmtHex 4 (Int.tdiv height 65536)) ∈
          fs.dirs → fs2 = fs) := by
      obtain ⟨a1, h1⟩ := hd.1
      obtain ⟨a2, h2⟩ := ho.1
      refine ⟨⟨a1 ++ a2, by rw [h2, h1, List.append_assoc]⟩, fun hin => ?_⟩
      have hfs1 : fs1 = fs := hd.2 hin
      subst hfs1
      exact ho.2 hin
    repeat' split
    all_goals first
      | exact ⟨hd.1, fun hin => hd.2 hin⟩
      | exact hboth
      | simp_all

theorem verifyBlocks_frame {PK : Type} (env : Env PK) (g : Globals) (orders : Int → List Nat)
    (db : Db) :
    ∀ (hs : List Int) (fs : FileSys),
      (verifyBlocks env g orders db hs fs).2.files = fs.files ∧
      (∃ added, (verifyBlocks env g orders db hs fs).2.dirs = fs.dirs ++ added) ∧
      ((∀ h ∈ hs, g.blockchainSubdirectory ++ "/" ++
          String.mk (fmtHex 4 (Int.tdiv h 65536)) ∈ fs.dirs) →
        (verifyBlocks env g orders db hs fs).2 = fs)
  | [], fs => ⟨rfl, ⟨[], by simp [verifyBlocks]⟩, fun _ => rfl⟩
  | height :: rest, fs => by
    have hfiles := verifyBlockAt_files env g (orders height) db fs height
    have hdirs := verifyBlockAt_dirs env g (orders height) db fs height
    unfold verifyBlocks
    split
    · next e fs1 hat =>
      rw [hat] at hfiles hdirs
      exact ⟨hfiles, hdirs.1, fun hall => hdirs.2 (hall height (List.mem_cons_self _ _))⟩
    · next fs1 hat =>
      rw [hat] at hfiles hdirs
      simp only at hfiles hdirs
      obtain ⟨ih1, ⟨a2, ih2⟩, ih3⟩ := verifyBlocks_frame env g orders db rest fs1
      obtain ⟨a1, h1⟩ := hdirs.1
      refine ⟨ih1.trans hfiles, ⟨a1 ++ a2, by rw [ih2, h1, List.append_assoc]⟩, fun hall => ?_⟩
      have hfs1 : fs1 = fs := hdirs.2 (hall height (List.mem_cons_self _ _))
      subst hfs1
      exact ih3 (fun h hh => hall h (List.mem_cons_of_mem _ hh))

/-- C11 (as stated, refuted): with fast mode off, on the data directory
`testFsNoBlockDir`, in which the block directory `data/blocks/0000` is
missing, `blockchainVerifyEverything` returns an error (the genesis file
cannot be read) and leaves the directory `data/blocks/0000` behind: the block
directory tree is not as it was before the call. -/
theorem blockchainVerifyEverything_creates_directory :
    testGlobals.cfg.faster = false ∧
    blockchainVerifyEverything testEnv testGlobals (fun _ => []) testDb testFsNoBlockDir =
      (some .fileRead, { dirs := ["data", "data/blocks", "data/blocks/0000"], files := [] }) ∧
    (blockchainVerifyEverything testEnv testGlobals (fun _ => []) testDb testFsNoBlockDir).2 ≠
      testFsNoBlockDir :=
  ⟨by rfl, by rfl, by decide⟩

/-- C11 (amended): `blockchainVerifyEverything` is handed the main database
to read and returns none (it writes neither the header index nor the
registry); whether it returns `nil` or an error, every regular file of the
file system is as it was before the call and every directory that existed
still exists, the only change being directories created after the existing
ones (`blockchainEnsureBlockDir`).  When the block directory of every height
`0..tip` already exists, and also in fast mode, the file system is exactly as
it was before the call. -/
theorem blockchainVerifyEverything_frame {PK : Type} (env : Env PK) (g : Globals)
    (orders : Int → List Nat) (db : Db) (fs : FileSys) :
    (blockchainVerifyEverything env g orders db fs).2.files = fs.files ∧
    (∃ added, (blockchainVerifyEverything env g orders db fs).2.dirs = fs.dirs ++ added) ∧
    ((∀ h : Int, 0 ≤ h → h ≤ dbGetBlockchainHeight db →
        g.blockchainSubdirectory ++ "/" ++ String.mk (fmtHex 4 (Int.tdiv h 65536)) ∈ fs.dirs) →
      (blockchainVerifyEverything env g orders db fs).2 = fs) ∧
    (g.cfg.faster = true → blockchainVerifyEverything env g orders db fs = (none, fs)) := by
  unfold blockchainVerifyEverything
  split
  · exact ⟨rfl, ⟨[], by simp⟩, fun _ => rfl, fun _ => rfl⟩
  · next hf =>
    obtain ⟨h1, h2, h3⟩ :=
      verifyBlocks_frame env g orders db (heightsUpTo (dbGetBlockchainHeight db)) fs
    exact ⟨h1, h2, fun hall => h3 (fun h hh =>
      hall h ((mem_heightsUpTo _ _).mp hh).1 ((mem_heightsUpTo _ _).mp hh).2),
      fun ht => absurd ht hf⟩

/-- C11 (amended), at concrete inputs: on the test chain, whose block
directory exists, the verifier leaves the file system exactly as it was; on
`testFsNoBlockDir` the files are as before and the directories that existed
are still there. -/
theorem blockchainVerifyEverything_frame_witness :
    (blockchainVerifyEverything testEnv testGlobals (fun _ => []) testDb testFs).2 = testFs ∧
    (blockchainVerifyEverything testEnv testGlobals (fun _ => []) testDb
      testFsNoBlockDir).2.files = testFsNoBlockDir.files ∧
    (∃ added, (blockchainVerifyEverything testEnv testGlobals (fun _ => []) testDb
      testFsNoBlockDir).2.dirs = testFsNoBlockDir.dirs ++ added) :=
  ⟨(blockchainVerifyEverything_frame testEnv testGlobals (fun _ => []) testDb testFs).2.2.1
      (fun h h0 htip => by
        have hh : dbGetBlockchainHeight testDb = 0 := by rfl
        rw [hh] at htip
        have h00 : h = 0 := le_antisymm htip h0
        subst h00
        decide),
   (blockchainVerifyEverything_frame testEnv testGlobals (fun _ => []) testDb
      testFsNoBlockDir).1,
   (blockchainVerifyEverything_frame testEnv testGlobals (fun _ => []) testDb
      testFsNoBlockDir).2.1⟩

/-! # Reading the key ops of a block -/

theorem scanKeyOp_ok {PK : Type} {env : Env PK} {row : KeyRow} {keyOp : BlockKeyOp}
    (h : scanKeyOp env row = .ok keyOp) :
    keyOp.op = row.op ∧ keyOp.publicKeyHash = row.pubkey_hash ∧
    keyOp.signatureKeyHash = row.sigkey_hash ∧
    hexDecodeString row.signature = some keyOp.signature ∧
    hexDecodeString row.pubkey = some keyOp.publicKeyBytes ∧
    ∃ pk, env.cryptoDecodePublicKeyBytes keyOp.publicKeyBytes = some pk ∧
      row.pubkey_hash = env.cryptoMustGetPublicKeyHash pk := by
  unfold scanKeyOp at h
  split at h
  · simp at h
  · next bytes hbytes =>
    split at h
    · simp at h
    · next pk hpk =>
      split at h
      · simp at h
      · next hhash =>
        split at h
        · simp at h
        · next sig hsig =>
          split at h
          · split at h
            · simp at h
            · simp only [Except.ok.injEq] at h
              subst h
              exact ⟨rfl, rfl, rfl, hsig, hbytes, pk, hpk, not_not.mp hhash⟩
          · simp only [Except.ok.injEq] at h
            subst h
            exact ⟨rfl, rfl, rfl, hsig, hbytes, pk, hpk, not_not.mp hhash⟩

theorem readKeyRows_ok {PK : Type} (env : Env PK) :
    ∀ (rows : List KeyRow) (m out : KeyOpsMap), readKeyRows env rows m = .ok out →
      ∃ scanned, List.Forall₂ (fun row keyOp => scanKeyOp env row = .ok keyOp) rows scanned ∧
        out = scanned.foldl keyOpsInsert m
  | [], m, out, h => by
    simp only [readKeyRows, Except.ok.injEq] at h
    exact ⟨[], List.Forall₂.nil, by simp [h]⟩
  | row :: rows, m, out, h => by
    unfold readKeyRows at h
    split at h
    · simp at h
    · next keyOp hscan =>
      obtain ⟨scanned, hall, hout⟩ := readKeyRows_ok env rows _ out h
      exact ⟨keyOp :: scanned, List.Forall₂.cons hscan hall, by simp [hout]⟩

theorem keyOpsLookup_insert (m : KeyOpsMap) (keyOp : BlockKeyOp) (k : String) :
    keyOpsLookup (keyOpsInsert m keyOp) k =
      if keyOp.publicKeyHash = k then keyOpsLookup m k ++ [keyOp] else keyOpsLookup m k := by
  induction m with
  | nil =>
    by_cases hk : keyOp.publicKeyHash = k <;> simp [keyOpsInsert, keyOpsLookup, hk]
  | cons head rest ih =>
    obtain ⟨k1, ops⟩ := head
    unfold keyOpsInsert
    by_cases h1 : k1 = keyOp.publicKeyHash
    · rw [if_pos h1]
      by_cases hk : keyOp.publicKeyHash = k
      · have hk1 : k1 = k := h1.trans hk
        simp [keyOpsLookup, hk, hk1]
      · have hk1 : ¬ k1 = k := fun h => hk (h1.symm.trans h)
        simp [keyOpsLookup, hk, hk1]
    · rw [if_neg h1]
      by_cases hk1 : k1 = k
      · have hk : ¬ keyOp.publicKeyHash = k := fun h => h1 (hk1.trans h.symm)
        simp [keyOpsLookup, hk, hk1]
      · have ih1 := ih
        unfold keyOpsLookup at ih1 ⊢
        simp only [List.find?_cons, hk1, decide_False]
        exact ih1

theorem keyOpsInsert_keys (m : KeyOpsMap) (keyOp : BlockKeyOp) :
    (keyOpsInsert m keyOp).map Prod.fst =
      if keyOp.publicKeyHash ∈ m.map Prod.fst then m.map Prod.fst
      else m.map Prod.fst ++ [keyOp.publicKeyHash] := by
  induction m with
  | nil => simp [keyOpsInsert]
  | cons head rest ih =>
    obtain ⟨k1, ops⟩ := head
    unfold keyOpsInsert
    by_cases h1 : k1 = keyOp.publicKeyHash
    · simp [h1]
    · have h2 : ¬ keyOp.publicKeyHash = k1 := fun h => h1 h.symm
      rw [if_neg h1]
      simp only [List.map_cons, List.mem_cons, h2, false_or, ih]
      split <;> simp

theorem keyOpsInsert_flatMap (m : KeyOpsMap) (keyOp : BlockKeyOp) :
    ((keyOpsInsert m keyOp).flatMap Prod.snd).Perm (m.flatMap Prod.snd ++ [keyOp]) := by
  induction m with
  | nil => simp [keyOpsInsert]
  | cons head rest ih =>
    obtain ⟨k1, ops⟩ := head
    unfold keyOpsInsert
    split
    · simp only [List.flatMap_cons, List.append_assoc]
      exact List.Perm.append_left _ List.perm_append_comm
    · simp only [List.flatMap_cons, List.append_assoc]
      exact List.Perm.append_left _ ih

theorem keyOpsInsert_nonempty (m : KeyOpsMap) (keyOp : BlockKeyOp)
    (hm : ∀ g ∈ m, g.2 ≠ []) : ∀ g ∈ keyOpsInsert m keyOp, g.2 ≠ [] := by
  induction m with
  | nil =>
    intro g hg
    simp only [keyOpsInsert, List.mem_singleton] at hg
    subst hg
    simp
  | cons head rest ih =>
    obtain ⟨k1, ops⟩ := head
    intro g hg
    unfold keyOpsInsert at hg
    split at hg
    · rcases List.mem_cons.mp hg with rfl | hrest
      · simp
      · exact hm g (List.mem_cons_of_mem _ hrest)
    · rcases List.mem_cons.mp hg with rfl | hrest
      · exact hm _ (List.mem_cons_self _ _)
      · exact ih (fun g1 hg1 => hm g1 (List.mem_cons_of_mem _ hg1)) g hrest

theorem keyOpsLookup_of_mem :
    ∀ (m : KeyOpsMap), (m.map Prod.fst).Nodup → ∀ g ∈ m, keyOpsLookup m g.1 = g.2
  | [], _, g, hg => by simp at hg
  | head :: rest, hnd, g, hg => by
    simp only [List.map_cons, List.nodup_cons] at hnd
    rcases List.mem_cons.mp hg with rfl | hrest
    · simp [keyOpsLookup]
    · have hne : ¬ head.1 = g.1 := by
        intro heq
        exact hnd.1 (heq ▸ List.mem_map_of_mem Prod.fst hrest)
      have ih := keyOpsLookup_of_mem rest hnd.2 g hrest
      unfold keyOpsLookup at ih ⊢
      simp only [List.find?_cons, hne, decide_False]
      exact ih

theorem foldl_keyOpsInsert_inv :
    ∀ (scanned : List BlockKeyOp) (m : KeyOpsMap) (seen : List BlockKeyOp),
      (m.map Prod.fst).Nodup → (∀ g ∈ m, g.2 ≠ []) →
      (∀ k, keyOpsLookup m k = seen.filter (fun keyOp => decide (keyOp.publicKeyHash = k))) →
      (∀ keyOp ∈ seen, keyOp.publicKeyHash ∈ m.map Prod.fst) →
      (m.flatMap Prod.snd).Perm seen →
      ((scanned.foldl keyOpsInsert m).map Prod.fst).Nodup ∧
      (∀ g ∈ scanned.foldl keyOpsInsert m, g.2 ≠ []) ∧
      (∀ k, keyOpsLookup (scanned.foldl keyOpsInsert m) k =
        (seen ++ scanned).filter (fun keyOp => decide (keyOp.publicKeyHash = k))) ∧
      (∀ keyOp ∈ seen ++ scanned,
        keyOp.publicKeyHash ∈ (scanned.foldl keyOpsInsert m).map Prod.fst) ∧
      ((scanned.foldl keyOpsInsert m).flatMap Prod.snd).Perm (seen ++ scanned)
  | [], m, seen, h1, h2, h3, h4, h5 => by
    simp only [List.foldl_nil, List.append_nil]
    exact ⟨h1, h2, h3, h4, h5⟩
  | keyOp :: rest, m, seen, h1, h2, h3, h4, h5 => by
    have hkeys := keyOpsInsert_keys m keyOp
    have step := foldl_keyOpsInsert_inv rest (keyOpsInsert m keyOp) (seen ++ [keyOp])
      (by
        rw [hkeys]
        split
        · exact h1
        · next hnot =>
          exact List.Nodup.append h1 (List.nodup_singleton _)
            (fun a ha hb => by
              rw [List.mem_singleton] at hb
              subst hb
              exact hnot ha))
      (keyOpsInsert_nonempty m keyOp h2)
      (by
        intro k
        rw [keyOpsLookup_insert, h3 k, List.filter_append]
        by_cases hk : keyOp.publicKeyHash = k <;> simp [hk])
      (by
        intro op hop
        rw [hkeys]
        rcases List.mem_append.mp hop with hseen | hnew
        · have := h4 op hseen
          split
          · exact this
          · exact List.mem_append_left _ this
        · simp only [List.mem_singleton] at hnew
          subst hnew
          split
          · assumption
          · simp)
      ((keyOpsInsert_flatMap m keyOp).trans (List.Perm.append_right _ h5))
    have happ : seen ++ [keyOp] ++ rest = seen ++ keyOp :: rest := by simp
    rw [happ] at step
    simp only [List.foldl_cons]
    exact step

theorem sameOps_eq {ops : List BlockKeyOp} (h : sameOps ops = true) :
    ∀ r1 ∈ ops, ∀ r2 ∈ ops, r1.op = r2.op := by
  cases ops with
  | nil => intro r1 h1; simp at h1
  | cons first rest =>
    unfold sameOps at h
    rw [List.all_eq_true] at h
    intro r1 h1 r2 h2
    have e1 := h r1 h1
    have e2 := h r2 h2
    simp only [decide_eq_true_eq] at e1 e2
    rw [e1, e2]

theorem forall₂_exists_of_mem {α β : Type} {R : α → β → Prop} :
    ∀ {l1 : List α} {l2 : List β}, List.Forall₂ R l1 l2 → ∀ a ∈ l1, ∃ b ∈ l2, R a b
  | _, _, List.Forall₂.nil, a, ha => by simp at ha
  | _, _, List.Forall₂.cons hr hrest, a, ha => by
    rcases List.mem_cons.mp ha with rfl | htail
    · exact ⟨_, List.mem_cons_self _ _, hr⟩
    · obtain ⟨b, hb, hab⟩ := forall₂_exists_of_mem hrest a htail
      exact ⟨b, List.mem_cons_of_mem _ hb, hab⟩

theorem dbGetKeyOps_ok {PK : Type} {env : Env PK} {b : Block} {allKeyOps : KeyOpsMap}
    (hok : dbGetKeyOps env b = .ok allKeyOps) :
    ∃ rows scanned, b.db.keys = some rows ∧
      List.Forall₂ (fun row keyOp => scanKeyOp env row = .ok keyOp) rows scanned ∧
      (allKeyOps.map Prod.fst).Nodup ∧
      (∀ g ∈ allKeyOps, g.2 ≠ [] ∧
        g.2 = scanned.filter (fun keyOp => decide (keyOp.publicKeyHash = g.1))) ∧
      (∀ keyOp ∈ scanned, ∃ g ∈ allKeyOps, g.1 = keyOp.publicKeyHash ∧ keyOp ∈ g.2) ∧
      (allKeyOps.flatMap Prod.snd).Perm scanned ∧
      (∀ g ∈ allKeyOps, ∀ r1 ∈ g.2, ∀ r2 ∈ g.2, r1.op = r2.op) := by
  unfold dbGetKeyOps at hok
  split at hok
  · simp at hok
  · next rows hrows =>
    split at hok
    · simp at hok
    · next keyOps hread =>
      split at hok
      · next hsame =>
        simp only [Except.ok.injEq] at hok
        subst hok
        obtain ⟨scanned, hall, hout⟩ := readKeyRows_ok env rows [] keyOps hread
        obtain ⟨i1, i2, i3, i4, i5⟩ := foldl_keyOpsInsert_inv scanned [] []
          (by simp) (by simp) (by simp [keyOpsLookup]) (by simp) (by simp)
        simp only [List.nil_append] at i3 i4 i5
        rw [← hout] at i1 i2 i3 i4 i5
        have hgrp : ∀ g ∈ keyOps, g.2 =
            scanned.filter (fun keyOp => decide (keyOp.publicKeyHash = g.1)) := by
          intro g hg
          rw [← keyOpsLookup_of_mem keyOps i1 g hg]
          exact i3 g.1
        refine ⟨rows, scanned, hrows, hall, i1, fun g hg => ⟨i2 g hg, hgrp g hg⟩, ?_, i5, ?_⟩
        · intro keyOp hmem
          obtain ⟨g, hg, hg1⟩ := List.mem_map.mp (i4 keyOp hmem)
          refine ⟨g, hg, hg1, ?_⟩
          rw [hgrp g hg, List.mem_filter]
          exact ⟨hmem, by simp [hg1]⟩
        · intro g hg
          rw [List.all_eq_true] at hsame
          exact sameOps_eq (hsame g hg)
      · simp at hok

/-- C14: `dbGetKeyOps` groups the rows of `_keys` by `pubkey_hash`.  When it
succeeds, every row of `_keys` is decoded into one key op (`scanned`, in row
order); the keys of the result are pairwise distinct; the group of a key is
non-empty and consists of exactly the decoded rows with that `pubkey_hash`,
in row order; every decoded row sits in the group keyed by its own
`pubkey_hash`, and the groups together hold every decoded row exactly once;
every row's `pubkey_hash` is the canonical hash of its decoded `pubkey`; and
all rows of a group have the same op.  It fails when some row's stored
`pubkey_hash` is not the canonical hash of its `pubkey`, and when two rows
with the same `pubkey_hash` carry different ops. -/
theorem dbGetKeyOps_groups_rows {PK : Type} (env : Env PK) (b : Block) :
    (∀ allKeyOps, dbGetKeyOps env b = .ok allKeyOps →
      ∃ rows scanned, b.db.keys = some rows ∧
        List.Forall₂ (fun row keyOp => scanKeyOp env row = .ok keyOp) rows scanned ∧
        (allKeyOps.map Prod.fst).Nodup ∧
        (∀ g ∈ allKeyOps, g.2 ≠ [] ∧
          g.2 = scanned.filter (fun keyOp => decide (keyOp.publicKeyHash = g.1))) ∧
        (∀ keyOp ∈ scanned, ∃ g ∈ allKeyOps, g.1 = keyOp.publicKeyHash ∧ keyOp ∈ g.2) ∧
        (allKeyOps.flatMap Prod.snd).Perm scanned ∧
        (∀ row ∈ rows, ∃ bytes pk, hexDecodeString row.pubkey = some bytes ∧
          env.cryptoDecodePublicKeyBytes bytes = some pk ∧
          row.pubkey_hash = env.cryptoMustGetPublicKeyHash pk) ∧
        (∀ g ∈ allKeyOps, ∀ r1 ∈ g.2, ∀ r2 ∈ g.2, r1.op = r2.op)) ∧
    (∀ rows, b.db.keys = some rows →
      (∃ row ∈ rows, ∀ bytes pk, hexDecodeString row.pubkey = some bytes →
        env.cryptoDecodePublicKeyBytes bytes = some pk →
        row.pubkey_hash ≠ env.cryptoMustGetPublicKeyHash pk) →
      ∃ e, dbGetKeyOps env b = .error e) ∧
    (∀ rows, b.db.keys = some rows →
      (∃ r1 ∈ rows, ∃ r2 ∈ rows, r1.pubkey_hash = r2.pubkey_hash ∧ r1.op ≠ r2.op) →
      ∃ e, dbGetKeyOps env b = .error e) := by
  have hrow : ∀ allKeyOps, dbGetKeyOps env b = .ok allKeyOps → ∀ rows scanned,
      b.db.keys = some rows →
      List.Forall₂ (fun row keyOp => scanKeyOp env row = .ok keyOp) rows scanned →
      ∀ row ∈ rows, ∃ bytes pk, hexDecodeString row.pubkey = some bytes ∧
        env.cryptoDecodePublicKeyBytes bytes = some pk ∧
        row.pubkey_hash = env.cryptoMustGetPublicKeyHash pk := by
    intro allKeyOps _ rows scanned _ hall row hmem
    obtain ⟨keyOp, _, hscan⟩ := forall₂_exists_of_mem hall row hmem
    obtain ⟨_, _, _, _, hbytes, pk, hpk, hhash⟩ := scanKeyOp_ok hscan
    exact ⟨keyOp.publicKeyBytes, pk, hbytes, hpk, hhash⟩
  have failed : ∀ r : Except Err KeyOpsMap, (∀ m, r ≠ .ok m) → ∃ e, r = .error e := by
    intro r hr
    cases r with
    | error e => exact ⟨e, rfl⟩
    | ok m => exact absurd rfl (hr m)
  refine ⟨?_, ?_, ?_⟩
  · intro allKeyOps hok
    obtain ⟨rows, scanned, hrows, hall, h1, h2, h3, h4, h5⟩ := dbGetKeyOps_ok hok
    exact ⟨rows, scanned, hrows, hall, h1, h2, h3, h4,
      hrow allKeyOps hok rows scanned hrows hall, h5⟩
  · rintro rows hrows ⟨row, hmem, hbad⟩
    refine failed _ fun m hok => ?_
    obtain ⟨rows1, scanned, hrows1, hall, _⟩ := dbGetKeyOps_ok hok
    rw [hrows] at hrows1
    simp only [Option.some.injEq] at hrows1
    subst hrows1
    obtain ⟨bytes, pk, hb, hp, hh⟩ := hrow m hok rows scanned hrows hall row hmem
    exact hbad bytes pk hb hp hh
  · rintro rows hrows ⟨r1, hm1, r2, hm2, hsame, hdiff⟩
    refine failed _ fun m hok => ?_
    obtain ⟨rows1, scanned, hrows1, hall, _, hgroups, hin, _, hops⟩ := dbGetKeyOps_ok hok
    rw [hrows] at hrows1
    simp only [Option.some.injEq] at hrows1
    subst hrows1
    obtain ⟨k1, hk1, hs1⟩ := forall₂_exists_of_mem hall r1 hm1
    obtain ⟨k2, hk2, hs2⟩ := forall₂_exists_of_mem hall r2 hm2
    obtain ⟨o1, p1, _⟩ := scanKeyOp_ok hs1
    obtain ⟨o2, p2, _⟩ := scanKeyOp_ok hs2
    obtain ⟨g1, hg1, hkey1, hin1⟩ := hin k1 hk1
    have hin2 : k2 ∈ g1.2 := by
      rw [(hgroups g1 hg1).2, List.mem_filter]
      refine ⟨hk2, ?_⟩
      simp only [decide_eq_true_eq]
      rw [p2, ← hsame, ← p1, hkey1]
    have := hops g1 hg1 k1 hin1 k2 hin2
    rw [o1, o2] at this
    exact hdiff this

/-- C14 at concrete inputs: the two rows for `bb` of `testBlockExcess` are
read into one group of two key ops, in row order; the block whose row stores
the hash `bb` for the key `cc` and the block whose two rows for `bb` carry
the ops `A` and `R` make `dbGetKeyOps` fail. -/
theorem dbGetKeyOps_groups_rows_witness :
    dbGetKeyOps testEnv testBlockExcess =
      .ok [("bb", [{ op := "A", publicKeyHash := "bb", publicKeyBytes := [0xbb],
                     signatureKeyHash := "aa", signature := [0xaa, 0xbb], metadata := [] },
                   { op := "A", publicKeyHash := "bb", publicKeyBytes := [0xbb],
                     signatureKeyHash := "aa", signature := [0xaa, 0xbb], metadata := [] }])] ∧
    (∃ rows scanned, testBlockExcess.db.keys = some rows ∧
      List.Forall₂ (fun row keyOp => scanKeyOp testEnv row = .ok keyOp) rows scanned ∧
      scanned.length = 2) ∧
    (∃ e, dbGetKeyOps testEnv testBlockBadHash = .error e) ∧
    (∃ e, dbGetKeyOps testEnv testBlockMixed = .error e) :=
  ⟨by rfl,
   ((dbGetKeyOps_groups_rows testEnv testBlockExcess).1 _ (by rfl)).elim
     fun rows hrest => hrest.elim fun scanned hs =>
       ⟨rows, scanned, hs.1, hs.2.1, by
         have hr : testBlockExcess.db.keys =
             some [testRow "A" "bb" "aa", testRow "A" "bb" "aa"] := rfl
         have h1 := hs.1
         rw [hr] at h1
         simp only [Option.some.injEq] at h1
         have hlen := hs.2.1.length_eq
         rw [← h1] at hlen
         simpa using hlen.symm⟩,
   (dbGetKeyOps_groups_rows testEnv testBlockBadHash).2.1 _ rfl
     ⟨_, List.mem_singleton.mpr rfl, fun bytes pk hb hp => by
       have h1 : hexDecodeString "cc" = some [0xcc] := by decide
       have hb1 : some [0xcc] = some bytes := h1.symm.trans hb
       simp only [Option.some.injEq] at hb1
       subst hb1
       have h2 : testEnv.cryptoDecodePublicKeyBytes [0xcc] = some [0xcc] := rfl
       have hp1 : some [0xcc] = some pk := h2.symm.trans hp
       simp only [Option.some.injEq] at hp1
       subst hp1
       decide⟩,
   (dbGetKeyOps_groups_rows testEnv testBlockMixed).2.2 _ rfl
     ⟨testRow "A" "bb" "aa", by simp, testRow "R" "bb" "aa", by simp, rfl, by decide⟩⟩

/-! # Acceptance and the visiting order of the key-op groups -/

theorem mapRange_short {α : Type} (order : List Nat) (m : List α) (h : m.length ≤ 1) :
    mapRange order m = m := by
  match m, h with
  | [], _ => cases order <;> rfl
  | [x], _ =>
    cases order with
    | nil => rfl
    | cons c cs =>
      have hc : c % 1 = 0 := Nat.mod_one c
      cases cs <;> simp [mapRange, hc]

theorem applyKeyOp_lookup {h : Int} {db db1 : Db} {key : String} {keyOps : List BlockKeyOp}
    (hok : applyKeyOp h db key keyOps = .ok db1) :
    dbGetPublicKey db1 key = keyOpEffect h key keyOps (dbGetPublicKey db key) ∧
    ∀ k, k ≠ key → dbGetPublicKey db1 k = dbGetPublicKey db k := by
  unfold applyKeyOp at hok
  split at hok
  · simp at hok
  · next first more =>
    split at hok
    · next hA =>
      split at hok
      · simp at hok
      · next hnone =>
        simp only [Except.ok.injEq] at hok
        subst hok
        refine ⟨?_, fun k hk => ?_⟩
        · rw [dbGetPublicKey_write_new _ _ hnone]
          simp [keyOpEffect, hA]
        · unfold dbGetPublicKey
          simp only [dbWritePublicKey, List.find?_append]
          have hk1 : ¬ key = k := fun e => hk e.symm
          simp [hk1]
    · next hA =>
      split at hok
      · next hR =>
        split at hok
        · simp at hok
        · next entry hentry =>
          split at hok
          · simp at hok
          · simp only [Except.ok.injEq] at hok
            subst hok
            refine ⟨?_, fun k hk => ?_⟩
            · rw [dbGetPublicKey_revoke hentry, hentry]
              simp [keyOpEffect, hA, hR]
            · have hfun : ((fun r : DbPubKey => decide (r.publicKeyHash = k)) ∘
                  fun r : DbPubKey =>
                    if r.publicKeyHash = key then { r with isRevoked := true } else r) =
                  fun r : DbPubKey => decide (r.publicKeyHash = k) := by
                funext r
                by_cases hkk : r.publicKeyHash = key <;> simp [hkk]
              unfold dbGetPublicKey
              simp only [dbRevokePublicKey, List.find?_map]
              rw [hfun]
              cases hfind : List.find? (fun r : DbPubKey => decide (r.publicKeyHash = k))
                  db.pubkeys with
              | none => rfl
              | some e =>
                have he : e.publicKeyHash = k := by
                  have := List.find?_some hfind
                  simpa using this
                have hne : ¬ e.publicKeyHash = key := fun e1 => hk (he.symm.trans e1)
                simp [hne]
      · simp at hok

theorem acceptKeyOps_lookup {PK : Type} (env : Env PK) (h Q : Int) :
    ∀ (l : List (String × List BlockKeyOp)) (db dbf : Db),
      acceptKeyOps env h Q l db = (none, dbf) → (l.map Prod.fst).Nodup → ∀ k : String,
        (∀ g ∈ l, g.1 = k →
          dbGetPublicKey dbf k = keyOpEffect h k g.2 (dbGetPublicKey db k)) ∧
        ((∀ g ∈ l, g.1 ≠ k) → dbGetPublicKey dbf k = dbGetPublicKey db k)
  | [], db, dbf, hloop, _, k => by
    simp only [acceptKeyOps, Prod.mk.injEq, true_and] at hloop
    subst hloop
    exact ⟨fun g hg => by simp at hg, fun _ => rfl⟩
  | (key, keyOps) :: rest, db, dbf, hloop, hnd, k => by
    unfold acceptKeyOps at hloop
    simp only [List.map_cons, List.nodup_cons] at hnd
    split at hloop
    · simp at hloop
    · next db1 hg =>
      obtain ⟨hkey, hframe⟩ := applyKeyOp_lookup (acceptKeyOpGroup_ok hg).2.2
      obtain ⟨ih1, ih2⟩ := acceptKeyOps_lookup env h Q rest db1 dbf hloop hnd.2 k
      refine ⟨fun g hgm hgk => ?_, fun hno => ?_⟩
      · rcases List.mem_cons.mp hgm with rfl | hrest
        · simp only at hgk
          subst hgk
          have hnot : ∀ g1 ∈ rest, g1.1 ≠ key := fun g1 hg1 e =>
            hnd.1 (e ▸ List.mem_map_of_mem Prod.fst hg1)
          rw [ih2 hnot]
          exact hkey
        · have hk : k ≠ key := by
            intro e
            exact hnd.1 (e ▸ hgk ▸ List.mem_map_of_mem Prod.fst hrest)
          rw [ih1 g hrest hgk, hframe k hk]
      · have hk : k ≠ key := fun e => hno (key, keyOps) (List.mem_cons_self _ _) e.symm
        rw [ih2 (fun g1 hg1 => hno g1 (List.mem_cons_of_mem _ hg1)), hframe k hk]

/-- C17 (as stated, refuted): the block `testBlockChained` has two key-op
groups, the add of `bb` co-signed by `aa` and the add of `cc` co-signed by
`bb`.  Visited in the order `bb`, `cc` it is accepted at height 1; visited in
the order `cc`, `bb` it is rejected, because `bb` is not yet in the registry
when the group of `cc` is checked.  And the block `testBlockTwoGroups` is
rejected under both orders but leaves different registries behind. -/
theorem checkAcceptBlock_depends_on_order :
    dbGetKeyOps testEnv testBlockChained =
      .ok [("bb", [{ op := "A", publicKeyHash := "bb", publicKeyBytes := [0xbb],
                     signatureKeyHash := "aa", signature := [0xaa, 0xbb], metadata := [] }]),
           ("cc", [{ op := "A", publicKeyHash := "cc", publicKeyBytes := [0xcc],
                     signatureKeyHash := "bb", signature := [0xbb, 0xcc], metadata := [] }])] ∧
    (checkAcceptBlock testEnv [0] testDb testBlockChained).1 = .ok 1 ∧
    (checkAcceptBlock testEnv [1] testDb testBlockChained).1 = .error .unknownOpSigner ∧
    (checkAcceptBlock testEnv [0] testDb testBlockTwoGroups).1 = .error .unknownOpSigner ∧
    (checkAcceptBlock testEnv [1] testDb testBlockTwoGroups).1 = .error .unknownOpSigner ∧
    (checkAcceptBlock testEnv [0] testDb testBlockTwoGroups).2 ≠
      (checkAcceptBlock testEnv [1] testDb testBlockTwoGroups).2 ∧
    dbGetPublicKey (checkAcceptBlock testEnv [0] testDb testBlockTwoGroups).2 "bb" ≠
      dbGetPublicKey (checkAcceptBlock testEnv [1] testDb testBlockTwoGroups).2 "bb" :=
  ⟨by rfl, by rfl, by rfl, by rfl, by rfl, by decide, by decide⟩

/-- C17 (amended): for any two visiting orders of the key-op groups of the
same block on the same index and registry: when both calls of
`checkAcceptBlock` accept, they return the same height and leave the same
index and registries that agree on the entry of every key hash; and when the
block is rejected before the key-op loop or has at most one key-op group, the
two calls return the same verdict and the same database. -/
theorem checkAcceptBlock_order_independent {PK : Type} (env : Env PK) (o1 o2 : List Nat)
    (db : Db) (blk : Block) :
    (∀ h1 h2, (checkAcceptBlock env o1 db blk).1 = .ok h1 →
      (checkAcceptBlock env o2 db blk).1 = .ok h2 →
      h1 = h2 ∧
      (checkAcceptBlock env o1 db blk).2.blockchain =
        (checkAcceptBlock env o2 db blk).2.blockchain ∧
      ∀ k, dbGetPublicKey (checkAcceptBlock env o1 db blk).2 k =
        dbGetPublicKey (checkAcceptBlock env o2 db blk).2 k) ∧
    ((∀ h allKeyOps, checkAcceptBlockHeader env db blk = .ok h →
        dbGetKeyOps env blk = .ok allKeyOps → allKeyOps.length ≤ 1) →
      checkAcceptBlock env o1 db blk = checkAcceptBlock env o2 db blk) := by
  refine ⟨fun h1 h2 hok1 hok2 => ?_, fun hshort => ?_⟩
  · obtain ⟨hhdr1, all1, hops1, hloop1⟩ := checkAcceptBlock_ok hok1
    obtain ⟨hhdr2, all2, hops2, hloop2⟩ := checkAcceptBlock_ok hok2
    rw [hhdr1] at hhdr2
    simp only [Except.ok.injEq] at hhdr2
    subst hhdr2
    rw [hops1] at hops2
    simp only [Except.ok.injEq] at hops2
    subst hops2
    obtain ⟨_, _, _, _, hnd, _⟩ := dbGetKeyOps_ok hops1
    have hnd1 : ((mapRange o1 all1).map Prod.fst).Nodup :=
      ((mapRange_perm o1 all1).map Prod.fst).nodup_iff.mpr hnd
    have hnd2 : ((mapRange o2 all1).map Prod.fst).Nodup :=
      ((mapRange_perm o2 all1).map Prod.fst).nodup_iff.mpr hnd
    refine ⟨rfl, ?_, fun k => ?_⟩
    · rw [checkAcceptBlock_blockchain, checkAcceptBlock_blockchain]
    · obtain ⟨a1, b1⟩ := acceptKeyOps_lookup env h1 _ _ db _ hloop1 hnd1 k
      obtain ⟨a2, b2⟩ := acceptKeyOps_lookup env h1 _ _ db _ hloop2 hnd2 k
      by_cases hex : ∃ g ∈ all1, g.1 = k
      · obtain ⟨g, hg, hgk⟩ := hex
        rw [a1 g ((mem_mapRange o1 all1 g).mpr hg) hgk,
          a2 g ((mem_mapRange o2 all1 g).mpr hg) hgk]
      · have hno : ∀ g ∈ all1, g.1 ≠ k := fun g hg e => hex ⟨g, hg, e⟩
        rw [b1 (fun g hg => hno g ((mem_mapRange o1 all1 g).mp hg)),
          b2 (fun g hg => hno g ((mem_mapRange o2 all1 g).mp hg))]
  · unfold checkAcceptBlock
    split
    · rfl
    · next h0 hhdr =>
      split
      · rfl
      · next allKeyOps hops =>
        have hlen := hshort h0 allKeyOps hhdr hops
        simp only [mapRange_short o1 allKeyOps hlen, mapRange_short o2 allKeyOps hlen]

/-- C17 (amended), at concrete inputs: the block `testBlockIndependent` has
the two groups `bb` and `cc`, both co-signed by `aa`.  The choice sequence `[0]`
visits them in the order `bb`, `cc`, the sequence `[1]` in the order `cc`,
`bb`.  The block is accepted at height 1 both ways; the two registries list the
new keys in different orders and agree on the entry of every key hash.  And the
one-group block `testBlockAdd` gives the same result under the sequences `[0]`
and `[1]`. -/
theorem checkAcceptBlock_order_independent_witness :
    dbGetKeyOps testEnv testBlockIndependent =
      .ok [("bb", [{ op := "A", publicKeyHash := "bb", publicKeyBytes := [0xbb],
                     signatureKeyHash := "aa", signature := [0xaa, 0xbb], metadata := [] }]),
           ("cc", [{ op := "A", publicKeyHash := "cc", publicKeyBytes := [0xcc],
                     signatureKeyHash := "aa", signature := [0xaa, 0xcc], metadata := [] }])] ∧
    (mapRange [0] ["bb", "cc"] = ["bb", "cc"] ∧ mapRange [1] ["bb", "cc"] = ["cc", "bb"]) ∧
    (checkAcceptBlock testEnv [0] testDb testBlockIndependent).1 = .ok 1 ∧
    (checkAcceptBlock testEnv [1] testDb testBlockIndependent).1 = .ok 1 ∧
    (checkAcceptBlock testEnv [0] testDb testBlockIndependent).2.pubkeys.map
        (fun e => e.publicKeyHash) = ["aa", "bb", "cc"] ∧
    (checkAcceptBlock testEnv [1] testDb testBlockIndependent).2.pubkeys.map
        (fun e => e.publicKeyHash) = ["aa", "cc", "bb"] ∧
    ((1 : Int) = 1 ∧
      (checkAcceptBlock testEnv [0] testDb testBlockIndependent).2.blockchain =
        (checkAcceptBlock testEnv [1] testDb testBlockIndependent).2.blockchain ∧
      ∀ k, dbGetPublicKey (checkAcceptBlock testEnv [0] testDb testBlockIndependent).2 k =
        dbGetPublicKey (checkAcceptBlock testEnv [1] testDb testBlockIndependent).2 k) ∧
    checkAcceptBlock testEnv [0] testDb testBlockAdd =
      checkAcceptBlock testEnv [1] testDb testBlockAdd :=
  ⟨by rfl, ⟨by decide, by decide⟩, by rfl, by rfl, by rfl, by rfl,
   (checkAcceptBlock_order_independent testEnv [0] [1] testDb testBlockIndependent).1 1 1
     (by rfl) (by rfl),
   (checkAcceptBlock_order_independent testEnv [0] [1] testDb testBlockAdd).2
     (fun _ allKeyOps _ hops => by
       have hk : dbGetKeyOps testEnv testBlockAdd =
           .ok [("bb", [{ op := "A", publicKeyHash := "bb", publicKeyBytes := [0xbb],
                          signatureKeyHash := "aa", signature := [0xaa, 0xbb],
                          metadata := [] }])] := by rfl
       rw [hk] at hops
       simp only [Except.ok.injEq] at hops
       subst hops
       decide)⟩
/-! # Acceptance: applying a key op -/

theorem applyKeyOp_ok_cases {h : Int} {db dbpost : Db} {key : String} {first : BlockKeyOp}
    {more : List BlockKeyOp} (hok : applyKeyOp h db key (first :: more) = .ok dbpost) :
    (first.op = "A" ∧ dbGetPublicKey db key = none ∧
      dbGetPublicKey dbpost key =
        some { publicKeyHash := key, publicKeyBytes := first.publicKeyBytes,
               addedAtHeight := h, isRevoked := false }) ∨
    (first.op = "R" ∧ ∃ entry, dbGetPublicKey db key = some entry ∧ entry.isRevoked = false ∧
      dbGetPublicKey dbpost key = some { entry with isRevoked := true }) := by
  unfold applyKeyOp at hok
  simp only at hok
  split at hok
  · next hA =>
    split at hok
    · simp at hok
    · next hnone =>
      simp only [Except.ok.injEq] at hok
      subst hok
      exact Or.inl ⟨hA, hnone, dbGetPublicKey_write_new _ _ hnone⟩
  · next hA =>
    split at hok
    · next hR =>
      split at hok
      · simp at hok
      · next entry hentry =>
        split at hok
        · simp at hok
        · next hrev =>
          simp only [Except.ok.injEq] at hok
          subst hok
          exact Or.inr ⟨hR, entry, hentry, by simpa using hrev, dbGetPublicKey_revoke hentry⟩
    · simp at hok

theorem acceptKeyOps_applied {PK : Type} (env : Env PK) (h Q : Int) :
    ∀ (l : List (String × List BlockKeyOp)) (db dbf : Db),
      acceptKeyOps env h Q l db = (none, dbf) → (l.map Prod.fst).Nodup →
      ∀ g ∈ l, ∃ dbpre dbpost,
        dbGetPublicKey dbpre g.1 = dbGetPublicKey db g.1 ∧
        applyKeyOp h dbpre g.1 g.2 = .ok dbpost ∧
        dbGetPublicKey dbf g.1 = dbGetPublicKey dbpost g.1
  | [], _, _, _, _, g, hg => by simp at hg
  | (key, keyOps) :: rest, db, dbf, hloop, hnd, g, hg => by
    have hloop0 := hloop
    unfold acceptKeyOps at hloop
    simp only [List.map_cons, List.nodup_cons] at hnd
    split at hloop
    · simp at hloop
    · next db1 hgrp =>
      have happ := (acceptKeyOpGroup_ok hgrp).2.2
      obtain ⟨_, hframe⟩ := applyKeyOp_lookup happ
      rcases List.mem_cons.mp hg with rfl | hrest
      · refine ⟨db, db1, rfl, happ, ?_⟩
        have hnot : ∀ g1 ∈ rest, g1.1 ≠ key := fun g1 hg1 e =>
          hnd.1 (e ▸ List.mem_map_of_mem Prod.fst hg1)
        exact (acceptKeyOps_lookup env h Q rest db1 dbf hloop hnd.2 key).2 hnot
      · obtain ⟨dbpre, dbpost, hpre, happ1, hpost⟩ :=
          acceptKeyOps_applied env h Q rest db1 dbf hloop hnd.2 g hrest
        have hk : g.1 ≠ key := fun e =>
          hnd.1 (e ▸ List.mem_map_of_mem Prod.fst hrest)
        exact ⟨dbpre, dbpost, hpre.trans (hframe g.1 hk), happ1, hpost⟩

theorem checkAcceptBlock_group_applied {PK : Type} {env : Env PK} {order : List Nat} {db : Db}
    {blk : Block} {allKeyOps : KeyOpsMap} {target : String} {first : BlockKeyOp}
    {more : List BlockKeyOp} {h : Int}
    (hops : dbGetKeyOps env blk = .ok allKeyOps)
    (hmem : (target, first :: more) ∈ allKeyOps)
    (hok : (checkAcceptBlock env order db blk).1 = .ok h) :
    (first.op = "A" ∧ dbGetPublicKey db target = none ∧
      dbGetPublicKey (checkAcceptBlock env order db blk).2 target =
        some { publicKeyHash := target, publicKeyBytes := first.publicKeyBytes,
               addedAtHeight := h, isRevoked := false }) ∨
    (first.op = "R" ∧ ∃ entry, dbGetPublicKey db target = some entry ∧
      entry.isRevoked = false ∧
      dbGetPublicKey (checkAcceptBlock env order db blk).2 target =
        some { entry with isRevoked := true }) := by
  obtain ⟨_, all1, hops1, hloop⟩ := checkAcceptBlock_ok hok
  rw [hops] at hops1
  simp only [Except.ok.injEq] at hops1
  subst hops1
  obtain ⟨_, _, _, _, hnd, _⟩ := dbGetKeyOps_ok hops
  have hnd1 : ((mapRange order allKeyOps).map Prod.fst).Nodup :=
    ((mapRange_perm order allKeyOps).map Prod.fst).nodup_iff.mpr hnd
  obtain ⟨dbpre, dbpost, hpre, happ, hpost⟩ :=
    acceptKeyOps_applied env h _ _ db _ hloop hnd1 (target, first :: more)
      ((mem_mapRange order allKeyOps _).mpr hmem)
  simp only at hpre happ hpost
  rcases applyKeyOp_ok_cases happ with ⟨hA, hnone, hnew⟩ | ⟨hR, entry, hentry, hrev, hnew⟩
  · exact Or.inl ⟨hA, hpre ▸ hnone, hpost.trans hnew⟩
  · exact Or.inr ⟨hR, entry, hpre ▸ hentry, hrev, hpost.trans hnew⟩

/-- C5: for every key-op group `(target, ops)` of a block, with `o` the op of
its first row (the op of all its rows), every visiting order and every index
and registry.  When `checkAcceptBlock` accepts the block at height `h`: `o` is
`"A"` or `"R"`; if `o` is `"A"`, the registry had no entry for `target` before
the call and holds the entry `(target, pubkey bytes, h, not revoked)` after
it; if `o` is `"R"`, the registry had an entry for `target` that was not
revoked, and after the call it holds that entry, revoked.  So the block is
rejected if `o` is `"A"` and the registry has an entry for `target`, if `o` is
`"R"` and the registry has no entry for `target` or a revoked one, and if `o`
is any other op. -/
theorem checkAcceptBlock_applies_key_op {PK : Type} (env : Env PK) (order : List Nat) (db : Db)
    (blk : Block) (allKeyOps : KeyOpsMap) (target : String) (first : BlockKeyOp)
    (more : List BlockKeyOp)
    (hops : dbGetKeyOps env blk = .ok allKeyOps)
    (hmem : (target, first :: more) ∈ allKeyOps) :
    (∀ r ∈ first :: more, r.op = first.op) ∧
    (∀ h, (checkAcceptBlock env order db blk).1 = .ok h → first.op = "A" ∨ first.op = "R") ∧
    (∀ h, (checkAcceptBlock env order db blk).1 = .ok h → first.op = "A" →
      dbGetPublicKey db target = none ∧
      dbGetPublicKey (checkAcceptBlock env order db blk).2 target =
        some { publicKeyHash := target, publicKeyBytes := first.publicKeyBytes,
               addedAtHeight := h, isRevoked := false }) ∧
    (∀ h, (checkAcceptBlock env order db blk).1 = .ok h → first.op = "R" →
      ∃ entry, dbGetPublicKey db target = some entry ∧ entry.isRevoked = false ∧
        dbGetPublicKey (checkAcceptBlock env order db blk).2 target =
          some { entry with isRevoked := true }) ∧
    (first.op = "A" → ∀ entry, dbGetPublicKey db target = some entry →
      ∃ e, (checkAcceptBlock env order db blk).1 = .error e) ∧
    (first.op = "R" → dbGetPublicKey db target = none →
      ∃ e, (checkAcceptBlock env order db blk).1 = .error e) ∧
    (first.op = "R" → ∀ entry, dbGetPublicKey db target = some entry → entry.isRevoked = true →
      ∃ e, (checkAcceptBlock env order db blk).1 = .error e) ∧
    (first.op ≠ "A" → first.op ≠ "R" →
      ∃ e, (checkAcceptBlock env order db blk).1 = .error e) := by
  have hRA : ¬ ("R" : String) = "A" := by decide
  have rejected : ∀ r : Except Err Int, (∀ h, r ≠ .ok h) → ∃ e, r = .error e := by
    intro r hr
    cases r with
    | error e => exact ⟨e, rfl⟩
    | ok h => exact absurd rfl (hr h)
  have hsame : ∀ r ∈ first :: more, r.op = first.op := by
    obtain ⟨_, _, _, _, _, _, _, _, hop⟩ := dbGetKeyOps_ok hops
    intro r hr
    exact hop _ hmem r hr first (List.mem_cons_self _ _)
  refine ⟨hsame, fun h hok => ?_, fun h hok hA => ?_, fun h hok hR => ?_,
    fun hA entry hentry => rejected _ fun h hok => ?_,
    fun hR hnone => rejected _ fun h hok => ?_,
    fun hR entry hentry hrev => rejected _ fun h hok => ?_,
    fun hA hR => rejected _ fun h hok => ?_⟩
  · rcases checkAcceptBlock_group_applied hops hmem hok with ⟨hA, _⟩ | ⟨hR, _⟩
    · exact Or.inl hA
    · exact Or.inr hR
  · rcases checkAcceptBlock_group_applied hops hmem hok with ⟨_, hnone, hnew⟩ | ⟨hR, _⟩
    · exact ⟨hnone, hnew⟩
    · exact absurd (hR.symm.trans hA) hRA
  · rcases checkAcceptBlock_group_applied hops hmem hok with ⟨hA, _⟩ | ⟨_, hex⟩
    · exact absurd (hR.symm.trans hA) hRA
    · exact hex
  · rcases checkAcceptBlock_group_applied hops hmem hok with ⟨_, hnone, _⟩ | ⟨hR, _⟩
    · rw [hnone] at hentry
      simp at hentry
    · exact absurd (hR.symm.trans hA) hRA
  · rcases checkAcceptBlock_group_applied hops hmem hok with ⟨hA, _⟩ | ⟨_, entry, hentry, _⟩
    · exact absurd (hR.symm.trans hA) hRA
    · rw [hnone] at hentry
      simp at hentry
  · rcases checkAcceptBlock_group_applied hops hmem hok with ⟨hA, _⟩ | ⟨_, entry1, hentry1, hrev1, _⟩
    · exact absurd (hR.symm.trans hA) hRA
    · rw [hentry] at hentry1
      simp only [Option.some.injEq] at hentry1
      subst hentry1
      rw [hrev] at hrev1
      simp at hrev1
  · rcases checkAcceptBlock_group_applied hops hmem hok with ⟨hA1, _⟩ | ⟨hR1, _⟩
    · exact hA hA1
    · exact hR hR1

/-- C5 at concrete inputs, on top of the test genesis with the registry
`{aa}`.  The block that adds the new key `bb` is accepted at height 1 and the
registry then holds `(bb, [0xbb], 1, not revoked)`; the block that revokes `aa`
is accepted at height 1 and the entry of `aa` is then revoked; the block that
adds `aa` again, the block that revokes the unknown key `bb`, the block that
revokes the revoked key `ee`, and the block whose op is `X` are rejected. -/
theorem checkAcceptBlock_applies_key_op_witness :
    (checkAcceptBlock testEnv [] testDb testBlockAdd).1 = .ok 1 ∧
    (dbGetPublicKey testDb "bb" = none ∧
      dbGetPublicKey (checkAcceptBlock testEnv [] testDb testBlockAdd).2 "bb" =
        some { publicKeyHash := "bb", publicKeyBytes := [0xbb], addedAtHeight := 1,
               isRevoked := false }) ∧
    (checkAcceptBlock testEnv [] testDb testBlockRevoke).1 = .ok 1 ∧
    (∃ entry, dbGetPublicKey testDb "aa" = some entry ∧ entry.isRevoked = false ∧
      dbGetPublicKey (checkAcceptBlock testEnv [] testDb testBlockRevoke).2 "aa" =
        some { entry with isRevoked := true }) ∧
    (∃ e, (checkAcceptBlock testEnv [] testDb (testBlock [testRow "A" "aa" "aa"])).1 =
      .error e) ∧
    (∃ e, (checkAcceptBlock testEnv [] testDb (testBlock [testRow "R" "bb" "aa"])).1 =
      .error e) ∧
    (∃ e, (checkAcceptBlock testEnv [] testDbRevoked (testBlock [testRow "R" "ee" "aa"])).1 =
      .error e) ∧
    (∃ e, (checkAcceptBlock testEnv [] testDb (testBlock [testRow "X" "bb" "aa"])).1 =
      .error e) :=
  ⟨by rfl,
   (checkAcceptBlock_applies_key_op testEnv [] testDb testBlockAdd
      [("bb", [{ op := "A", publicKeyHash := "bb", publicKeyBytes := [0xbb],
                 signatureKeyHash := "aa", signature := [0xaa, 0xbb], metadata := [] }])]
      "bb" _ [] (by rfl) (List.mem_singleton.mpr rfl)).2.2.1 1 (by rfl) (by rfl),
   by rfl,
   (checkAcceptBlock_applies_key_op testEnv [] testDb testBlockRevoke
      [("aa", [{ op := "R", publicKeyHash := "aa", publicKeyBytes := [0xaa],
                 signatureKeyHash := "aa", signature := [0xaa, 0xaa], metadata := [] }])]
      "aa" _ [] (by rfl) (List.mem_singleton.mpr rfl)).2.2.2.1 1 (by rfl) (by rfl),
   (checkAcceptBlock_applies_key_op testEnv [] testDb (testBlock [testRow "A" "aa" "aa"])
      [("aa", [{ op := "A", publicKeyHash := "aa", publicKeyBytes := [0xaa],
                 signatureKeyHash := "aa", signature := [0xaa, 0xaa], metadata := [] }])]
      "aa" _ [] (by rfl) (List.mem_singleton.mpr rfl)).2.2.2.2.1 (by rfl) testKeyA (by rfl),
   (checkAcceptBlock_applies_key_op testEnv [] testDb (testBlock [testRow "R" "bb" "aa"])
      [("bb", [{ op := "R", publicKeyHash := "bb", publicKeyBytes := [0xbb],
                 signatureKeyHash := "aa", signature := [0xaa, 0xbb], metadata := [] }])]
      "bb" _ [] (by rfl) (List.mem_singleton.mpr rfl)).2.2.2.2.2.1 (by rfl) (by rfl),
   (checkAcceptBlock_applies_key_op testEnv [] testDbRevoked
      (testBlock [testRow "R" "ee" "aa"])
      [("ee", [{ op := "R", publicKeyHash := "ee", publicKeyBytes := [0xee],
                 signatureKeyHash := "aa", signature := [0xaa, 0xee], metadata := [] }])]
      "ee" _ [] (by rfl) (List.mem_singleton.mpr rfl)).2.2.2.2.2.2.1 (by rfl)
      { publicKeyHash := "ee", publicKeyBytes := [0xee], addedAtHeight := 0, isRevoked := true }
      (by rfl) (by rfl),
   (checkAcceptBlock_applies_key_op testEnv [] testDb (testBlock [testRow "X" "bb" "aa"])
      [("bb", [{ op := "X", publicKeyHash := "bb", publicKeyBytes := [0xbb],
                 signatureKeyHash := "aa", signature := [0xaa, 0xbb], metadata := [] }])]
      "bb" _ [] (by rfl) (List.mem_singleton.mpr rfl)).2.2.2.2.2.2.2 (by decide) (by decide)⟩

/-! # Bootstrap: the registry after `blockchainInit` -/

theorem osWriteFile_ok {fs fs1 : FileSys} {path : String} {data : Bytes}
    (h : osWriteFile fs path data = .ok fs1) : readFile fs1 path = some data := by
  unfold osWriteFile at h
  split at h
  · simp at h
  · split at h
    · simp at h
    · simp only [Except.ok.injEq] at h
      subst h
      simp [readFile]

theorem OpenBlockFile_ok {PK : Type} {env : Env PK} {ienv : InitEnv} {fs : FileSys}
    {fileName : String} {b : Block} (h : OpenBlockFile env ienv fs fileName = some b) :
    ∃ content, readFile fs fileName = some content ∧ env.dbOpen content = some b.db := by
  unfold OpenBlockFile at h
  split at h
  · simp at h
  · split at h
    · simp at h
    · next bdb hopen =>
      have hdb : ∃ content, readFile fs fileName = some content ∧
          env.dbOpen content = some bdb := by
        unfold dbOpen at hopen
        split at hopen
        · simp at hopen
        · next content hread => exact ⟨content, hread, hopen⟩
      repeat' split at h
      all_goals first
        | (simp at h; done)
        | (simp only [Option.some.injEq] at h
           subst h
           exact hdb)

theorem dbGetPublicKey_none_iff (db : Db) (k : String) :
    dbGetPublicKey db k = none ↔ k ∉ db.pubkeys.map (fun e => e.publicKeyHash) := by
  unfold dbGetPublicKey
  rw [List.find?_eq_none]
  simp only [decide_eq_true_eq, List.mem_map, not_exists, not_and]

theorem registerGenesisKeyOps_inv :
    ∀ (ops : List BlockKeyOp) (db : Db),
      (db.pubkeys.map (fun e => e.publicKeyHash)).Nodup →
      ((registerGenesisKeyOps db ops).pubkeys.map (fun e => e.publicKeyHash)).Nodup ∧
      (registerGenesisKeyOps db ops).blockchain = db.blockchain ∧
      (∀ e ∈ db.pubkeys, e ∈ (registerGenesisKeyOps db ops).pubkeys) ∧
      (∀ e ∈ (registerGenesisKeyOps db ops).pubkeys, e ∈ db.pubkeys ∨
        (e.addedAtHeight = 0 ∧ e.isRevoked = false ∧
          ∃ op ∈ ops, op.publicKeyHash = e.publicKeyHash ∧
            op.publicKeyBytes = e.publicKeyBytes)) ∧
      (∀ op ∈ ops, op.publicKeyHash ∈
        (registerGenesisKeyOps db ops).pubkeys.map (fun e => e.publicKeyHash))
  | [], db, hnd =>
    ⟨hnd, rfl, fun e he => he, fun e he => Or.inl he, fun op hop => by simp at hop⟩
  | keyOp :: rest, db, hnd => by
    unfold registerGenesisKeyOps
    split
    · next hex =>
      obtain ⟨i1, i2, i3, i4, i5⟩ := registerGenesisKeyOps_inv rest db hnd
      refine ⟨i1, i2, i3, fun e he => ?_, fun op hop => ?_⟩
      · rcases i4 e he with hin | ⟨a, b, op, hop, hh⟩
        · exact Or.inl hin
        · exact Or.inr ⟨a, b, op, List.mem_cons_of_mem _ hop, hh⟩
      · rcases List.mem_cons.mp hop with rfl | hrest
        · have hsome : dbGetPublicKey db op.publicKeyHash ≠ none := by
            unfold dbPublicKeyExists at hex
            intro hn
            rw [hn] at hex
            simp at hex
          have hmem : op.publicKeyHash ∈ db.pubkeys.map (fun e => e.publicKeyHash) := by
            by_contra hnot
            exact hsome ((dbGetPublicKey_none_iff db _).mpr hnot)
          obtain ⟨e, he, hek⟩ := List.mem_map.mp hmem
          exact List.mem_map.mpr ⟨e, i3 e he, hek⟩
        · exact i5 op hrest
    · next hex =>
      have hnone : dbGetPublicKey db keyOp.publicKeyHash = none := by
        unfold dbPublicKeyExists at hex
        cases hg : dbGetPublicKey db keyOp.publicKeyHash with
        | none => rfl
        | some e => rw [hg] at hex; simp at hex
      have hnotin := (dbGetPublicKey_none_iff db _).mp hnone
      have hnd1 : ((dbWritePublicKey db keyOp.publicKeyBytes keyOp.publicKeyHash
          0).pubkeys.map (fun e => e.publicKeyHash)).Nodup := by
        simp only [dbWritePublicKey, List.map_append, List.map_cons, List.map_nil]
        exact List.Nodup.append hnd (List.nodup_singleton _)
          (fun a ha hb => by
            rw [List.mem_singleton] at hb
            subst hb
            exact hnotin ha)
      obtain ⟨i1, i2, i3, i4, i5⟩ := registerGenesisKeyOps_inv rest _ hnd1
      refine ⟨i1, i2, fun e he => i3 e ?_, fun e he => ?_, fun op hop => ?_⟩
      · simp only [dbWritePublicKey, List.mem_append]
        exact Or.inl he
      · rcases i4 e he with hin | ⟨a, b, op, hop, hh⟩
        · simp only [dbWritePublicKey, List.mem_append, List.mem_singleton] at hin
          rcases hin with hold | hnew
          · exact Or.inl hold
          · subst hnew
            exact Or.inr ⟨rfl, rfl, keyOp, List.mem_cons_self _ _, rfl, rfl⟩
        · exact Or.inr ⟨a, b, op, List.mem_cons_of_mem _ hop, hh⟩
      · rcases List.mem_cons.mp hop with rfl | hrest
        · exact List.mem_map.mpr
            ⟨{ publicKeyHash := op.publicKeyHash, publicKeyBytes := op.publicKeyBytes,
               addedAtHeight := 0, isRevoked := false },
             i3 _ (by simp [dbWritePublicKey]), rfl⟩
        · exact i5 op hrest

theorem registerGenesisKeys_inv :
    ∀ (l : List (String × List BlockKeyOp)) (db : Db),
      (db.pubkeys.map (fun e => e.publicKeyHash)).Nodup →
      ((registerGenesisKeys db l).pubkeys.map (fun e => e.publicKeyHash)).Nodup ∧
      (registerGenesisKeys db l).blockchain = db.blockchain ∧
      (∀ e ∈ db.pubkeys, e ∈ (registerGenesisKeys db l).pubkeys) ∧
      (∀ e ∈ (registerGenesisKeys db l).pubkeys, e ∈ db.pubkeys ∨
        (e.addedAtHeight = 0 ∧ e.isRevoked = false ∧
          ∃ g ∈ l, ∃ op ∈ g.2, op.publicKeyHash = e.publicKeyHash ∧
            op.publicKeyBytes = e.publicKeyBytes)) ∧
      (∀ g ∈ l, ∀ op ∈ g.2, op.publicKeyHash ∈
        (registerGenesisKeys db l).pubkeys.map (fun e => e.publicKeyHash))
  | [], db, hnd =>
    ⟨hnd, rfl, fun e he => he, fun e he => Or.inl he, fun g hg => by simp at hg⟩
  | (key, keyOps) :: rest, db, hnd => by
    unfold registerGenesisKeys
    obtain ⟨j1, j2, j3, j4, j5⟩ := registerGenesisKeyOps_inv keyOps db hnd
    obtain ⟨i1, i2, i3, i4, i5⟩ := registerGenesisKeys_inv rest _ j1
    refine ⟨i1, i2.trans j2, fun e he => i3 e (j3 e he), fun e he => ?_, fun g hg op hop => ?_⟩
    · rcases i4 e he with hin | ⟨a, b, g, hg, op, hop, hh⟩
      · rcases j4 e hin with hold | ⟨a, b, op, hop, hh⟩
        · exact Or.inl hold
        · exact Or.inr ⟨a, b, (key, keyOps), List.mem_cons_self _ _, op, hop, hh⟩
      · exact Or.inr ⟨a, b, g, List.mem_cons_of_mem _ hg, op, hop, hh⟩
    · rcases List.mem_cons.mp hg with rfl | hrest
      · obtain ⟨e, he, hek⟩ := List.mem_map.mp (j5 op hop)
        exact List.mem_map.mpr ⟨e, i3 e he, hek⟩
      · exact i5 g hrest op hop

theorem dbInsertBlock_pubkeys {db db2 : Db} {b : DbBlockchainBlock}
    (h : dbInsertBlock db b = some db2) : db2.pubkeys = db.pubkeys := by
  unfold dbInsertBlock at h
  split at h
  · simp at h
  · split at h
    · simp at h
    · simp only [Option.some.injEq] at h
      subst h
      rfl

theorem bootstrapGenesis_ok {PK : Type} {env : Env PK} {ienv : InitEnv} {order : List Nat}
    {g : Globals} {db db2 : Db} {fs fs2 : FileSys}
    (h : bootstrapGenesis env ienv order g db fs = (none, db2, fs2)) :
    ∃ (genesisBlock : Bytes) (b : Block) (blockKeyOps : KeyOpsMap),
      ienv.mustAsset "bindata/genesis.db" = some genesisBlock ∧
      env.dbOpen genesisBlock = some b.db ∧
      dbGetKeyOps env b = .ok blockKeyOps ∧
      db2.pubkeys = (registerGenesisKeys db (mapRange order blockKeyOps)).pubkeys := by
  unfold bootstrapGenesis at h
  cases hself : ienv.cryptoSelfTest with
  | false => simp [hself] at h
  | true =>
    cases hasset : ienv.mustAsset "bindata/genesis.db" with
    | none => simp [hself, hasset] at h
    | some genesisBlock =>
      by_cases hhash : env.hashBytesToHexString genesisBlock = g.chainParams.GenesisBlockHash
      · cases hdir : blockchainEnsureBlockDir g fs 0 with
        | error e => simp [hself, hasset, hhash, hdir] at h
        | ok fs1 =>
          cases hwrite : osWriteFile fs1 (blockchainGetFilename g 0) genesisBlock with
          | error e => simp [hself, hasset, hhash, hdir, hwrite] at h
          | ok fs3 =>
            cases hopen : OpenBlockFile env ienv fs3 (blockchainGetFilename g 0) with
            | none => simp [hself, hasset, hhash, hdir, hwrite, hopen] at h
            | some b0 =>
              cases htime : ienv.timeParse g.chainParams.GenesisBlockTimestamp with
              | none => simp [hself, hasset, hhash, hdir, hwrite, hopen, htime] at h
              | some timeAccepted =>
                cases hsig : hexDecodeString g.chainParams.GenesisBlockHashSignature with
                | none => simp [hself, hasset, hhash, hdir, hwrite, hopen, htime, hsig] at h
                | some hashSignature =>
                  simp [hself, hasset, hhash, hdir, hwrite, hopen, htime, hsig] at h
                  cases hops : dbGetKeyOps env
                      { b0 with
                        Height := 0
                        TimeAccepted := timeAccepted
                        HashSignature := hashSignature } with
                  | error e => simp [hops] at h
                  | ok blockKeyOps =>
                    simp only [hops] at h
                    obtain ⟨content, hread, hdbopen⟩ := OpenBlockFile_ok hopen
                    rw [osWriteFile_ok hwrite] at hread
                    simp only [Option.some.injEq] at hread
                    subst hread
                    refine ⟨genesisBlock, _, blockKeyOps, rfl, ?_, hops, ?_⟩
                    · exact hdbopen
                    · split at h
                      · simp at h
                      · next db3 hins =>
                        simp only [Prod.mk.injEq, true_and] at h
                        rw [← h.1]
                        exact dbInsertBlock_pubkeys hins
      · simp [hself, hasset, hhash] at h

theorem bootstrapGenesis_no_verify {PK : Type} (env : Env PK) (ienv : InitEnv)
    (order : List Nat) (g : Globals) (db : Db) (fs : FileSys) (e : Err) :
    (bootstrapGenesis env ienv order g db fs).1 ≠ some (.verify e) := by
  unfold bootstrapGenesis
  cases hself : ienv.cryptoSelfTest with
  | false => simp
  | true =>
    cases hasset : ienv.mustAsset "bindata/genesis.db" with
    | none => simp
    | some genesisBlock =>
      by_cases hhash : env.hashBytesToHexString genesisBlock = g.chainParams.GenesisBlockHash
      · cases hdir : blockchainEnsureBlockDir g fs 0 with
        | error e1 => simp [hhash, hdir]
        | ok fs1 =>
          cases hwrite : osWriteFile fs1 (blockchainGetFilename g 0) genesisBlock with
          | error e1 => simp [hhash, hdir, hwrite]
          | ok fs3 =>
            cases hopen : OpenBlockFile env ienv fs3 (blockchainGetFilename g 0) with
            | none => simp [hhash, hdir, hwrite, hopen]
            | some b0 =>
              cases htime : ienv.timeParse g.chainParams.GenesisBlockTimestamp with
              | none => simp [hhash, hdir, hwrite, hopen, htime]
              | some timeAccepted =>
                cases hsig : hexDecodeString g.chainParams.GenesisBlockHashSignature with
                | none => simp [hhash, hdir, hwrite, hopen, htime, hsig]
                | some hashSignature =>
                  simp only [hhash, hdir, hwrite, hopen, htime, hsig, ne_eq, not_true_eq_false,
                    if_false, Bool.not_true, Bool.false_eq_true]
                  repeat' split
                  all_goals simp
      · simp [hhash]

theorem blockchainInit_bootstrapped {PK : Type} {env : Env PK} {ienv : InitEnv}
    {order : List Nat} {orders : Int → List Nat} {g : Globals} {db : Db} {fs : FileSys}
    (hidx : db.blockchain = [])
    (hdone : (blockchainInit env ienv order orders true g db fs).1 = none ∨
      ∃ e, (blockchainInit env ienv order orders true g db fs).1 = some (.verify e)) :
    ∃ g1 fs1 fs2, ensureBlockchainSubdirectoryExists g fs = .ok (g1, fs1) ∧
      bootstrapGenesis env ienv order g1 db fs1 =
        (none, (blockchainInit env ienv order orders true g db fs).2.2.1, fs2) := by
  have hheight : dbGetBlockchainHeight db = -1 := by
    unfold dbGetBlockchainHeight
    rw [hidx]
  unfold blockchainInit at hdone ⊢
  split
  · next f hens =>
    simp only [hens] at hdone
    unfold ensureBlockchainSubdirectoryExists at hens
    simp only at hens
    split at hens
    · simp at hens
    · split at hens
      · simp only [Except.error.injEq] at hens
        subst hens
        simp at hdone
      · simp at hens
  · next g1 fs1 hens =>
    simp only [hens, hheight, and_self, if_true] at hdone ⊢
    cases hb : bootstrapGenesis env ienv order g1 db fs1 with
    | mk r rest =>
      obtain ⟨db2, fs2⟩ := rest
      rw [hb] at hdone
      cases r with
      | some f =>
        simp only at hdone
        exfalso
        rcases hdone with h1 | ⟨e, h1⟩
        · simp at h1
        · simp only [Option.some.injEq] at h1
          subst h1
          have hno := bootstrapGenesis_no_verify env ienv order g1 db fs1 e
          rw [hb] at hno
          exact hno rfl
      | none =>
        refine ⟨g1, fs1, fs2, rfl, ?_⟩
        simp only
        split <;> exact hb

/-- C16: when `blockchainInit` bootstraps an empty index with an empty
registry (it takes the bootstrap branch and passes every panic of that
branch, whatever the final `blockchainVerifyEverything` says), the registry
afterwards holds every public key listed in the `_keys` table of the genesis
block exactly once (no key hash occurs in two entries), each with
`added_at_height` 0 and not revoked, and no other key: every entry carries the
hash and the decoded bytes of a row of the table. -/
theorem blockchainInit_bootstrap_registry {PK : Type} (env : Env PK) (ienv : InitEnv)
    (order : List Nat) (orders : Int → List Nat) (g : Globals) (db : Db) (fs : FileSys)
    (hidx : db.blockchain = []) (hreg : db.pubkeys = [])
    (hdone : (blockchainInit env ienv order orders true g db fs).1 = none ∨
      ∃ e, (blockchainInit env ienv order orders true g db fs).1 = some (.verify e)) :
    ∃ (genesisBlock : Bytes) (bdb : BlockDb) (rows : List KeyRow),
      ienv.mustAsset "bindata/genesis.db" = some genesisBlock ∧
      env.dbOpen genesisBlock = some bdb ∧ bdb.keys = some rows ∧
      ((blockchainInit env ienv order orders true g db fs).2.2.1.pubkeys.map
        (fun e => e.publicKeyHash)).Nodup ∧
      (∀ row ∈ rows, ∃ e ∈ (blockchainInit env ienv order orders true g db fs).2.2.1.pubkeys,
        e.publicKeyHash = row.pubkey_hash) ∧
      (∀ e ∈ (blockchainInit env ienv order orders true g db fs).2.2.1.pubkeys,
        e.addedAtHeight = 0 ∧ e.isRevoked = false ∧
        ∃ row ∈ rows, row.pubkey_hash = e.publicKeyHash ∧
          hexDecodeString row.pubkey = some e.publicKeyBytes) := by
  obtain ⟨g1, fs1, fs2, _, hboot⟩ := blockchainInit_bootstrapped hidx hdone
  obtain ⟨genesisBlock, b, blockKeyOps, hasset, hopen, hops, hpub⟩ := bootstrapGenesis_ok hboot
  obtain ⟨rows, scanned, hrows, hall, _, _, hin, hperm, _⟩ := dbGetKeyOps_ok hops
  obtain ⟨i1, _, _, i4, i5⟩ := registerGenesisKeys_inv (mapRange order blockKeyOps) db
    (by rw [hreg]; simp)
  rw [← hpub] at i1 i4 i5
  refine ⟨genesisBlock, b.db, rows, hasset, hopen, hrows, i1, ?_, ?_⟩
  · intro row hrow
    obtain ⟨keyOp, hk, hscan⟩ := forall₂_exists_of_mem hall row hrow
    obtain ⟨grp, hgrp, _, hmem⟩ := hin keyOp hk
    obtain ⟨e, he, hek⟩ := List.mem_map.mp
      (i5 grp ((mem_mapRange order blockKeyOps grp).mpr hgrp) keyOp hmem)
    exact ⟨e, he, hek.trans (scanKeyOp_ok hscan).2.1⟩
  · intro e he
    rcases i4 e he with hold | ⟨h0, hrev, grp, hgrp, op, hop, hhash, hbytes⟩
    · rw [hreg] at hold
      simp at hold
    · refine ⟨h0, hrev, ?_⟩
      have hgrp1 := (mem_mapRange order blockKeyOps grp).mp hgrp
      have hopmem : op ∈ scanned :=
        hperm.mem_iff.mp (List.mem_flatMap.mpr ⟨grp, hgrp1, hop⟩)
      obtain ⟨row, hrow, hscan⟩ : ∃ row ∈ rows, scanKeyOp env row = .ok op := by
        have hflip : ∀ {l1 : List KeyRow} {l2 : List BlockKeyOp},
            List.Forall₂ (fun row keyOp => scanKeyOp env row = .ok keyOp) l1 l2 →
            ∀ o ∈ l2, ∃ r ∈ l1, scanKeyOp env r = .ok o := by
          intro l1 l2 hf
          induction hf with
          | nil => intro o ho; simp at ho
          | cons hr _ ih =>
            intro o ho
            rcases List.mem_cons.mp ho with rfl | htail
            · exact ⟨_, List.mem_cons_self _ _, hr⟩
            · obtain ⟨r, hr1, hr2⟩ := ih o htail
              exact ⟨r, List.mem_cons_of_mem _ hr1, hr2⟩
        exact hflip hall op hopmem
      obtain ⟨_, hph, _, _, hpk, _⟩ := scanKeyOp_ok hscan
      exact ⟨row, hrow, hph.symm.trans hhash, by rw [← hbytes]; exact hpk⟩

/-- C16 at concrete inputs: on an empty database and a fresh data directory,
with a genesis block that lists the key `aa`, `blockchainInit` runs to its
end and the registry is the single entry of `aa`; with a genesis block that
lists `aa` twice and `bb` once the bootstrap branch goes through and the
registry holds `aa` and `bb` once each. -/
theorem blockchainInit_bootstrap_registry_witness :
    blockchainInit (testEnvInit [testRow "A" "aa" "aa"]) testInitEnv [] (fun _ => []) true
        testGlobals testDbEmpty testFsFresh =
      (none, testGlobals, testDb,
        { dirs := ["data", "data/blocks", "data/blocks/0000"],
          files := [("data/blocks/0000/block_00000000.db", [0x00])] }) ∧
    (blockchainInit
        (testEnvInit [testRow "A" "aa" "aa", testRow "A" "aa" "aa", testRow "A" "bb" "aa"])
        testInitEnv [] (fun _ => []) true testGlobals testDbEmpty testFsFresh).2.2.1.pubkeys =
      [testKeyA,
       { publicKeyHash := "bb", publicKeyBytes := [0xbb], addedAtHeight := 0,
         isRevoked := false }] ∧
    ∃ (genesisBlock : Bytes) (bdb : BlockDb) (rows : List KeyRow),
      testInitEnv.mustAsset "bindata/genesis.db" = some genesisBlock ∧
      (testEnvInit [testRow "A" "aa" "aa", testRow "A" "aa" "aa",
        testRow "A" "bb" "aa"]).dbOpen genesisBlock = some bdb ∧
      bdb.keys = some rows ∧
      ((blockchainInit
          (testEnvInit [testRow "A" "aa" "aa", testRow "A" "aa" "aa", testRow "A" "bb" "aa"])
          testInitEnv [] (fun _ => []) true testGlobals testDbEmpty
          testFsFresh).2.2.1.pubkeys.map (fun e => e.publicKeyHash)).Nodup ∧
      (∀ row ∈ rows, ∃ e ∈ (blockchainInit
          (testEnvInit [testRow "A" "aa" "aa", testRow "A" "aa" "aa", testRow "A" "bb" "aa"])
          testInitEnv [] (fun _ => []) true testGlobals testDbEmpty testFsFresh).2.2.1.pubkeys,
        e.publicKeyHash = row.pubkey_hash) ∧
      (∀ e ∈ (blockchainInit
          (testEnvInit [testRow "A" "aa" "aa", testRow "A" "aa" "aa", testRow "A" "bb" "aa"])
          testInitEnv [] (fun _ => []) true testGlobals testDbEmpty testFsFresh).2.2.1.pubkeys,
        e.addedAtHeight = 0 ∧ e.isRevoked = false ∧
        ∃ row ∈ rows, row.pubkey_hash = e.publicKeyHash ∧
          hexDecodeString row.pubkey = some e.publicKeyBytes) :=
  ⟨by rfl, by rfl,
   blockchainInit_bootstrap_registry
     (testEnvInit [testRow "A" "aa" "aa", testRow "A" "aa" "aa", testRow "A" "bb" "aa"])
     testInitEnv [] (fun _ => []) testGlobals testDbEmpty testFsFresh rfl rfl
     (Or.inr ⟨.quorumMismatch, by rfl⟩)⟩

/-! # Block file path -/

theorem hexFixed_length : ∀ (w n : Nat), (hexFixed w n).length = w
  | 0, _ => rfl
  | w + 1, n => by simp [hexFixed, hexFixed_length w]

theorem hexFixed_zero : ∀ w : Nat, hexFixed w 0 = List.replicate w '0'
  | 0 => rfl
  | w + 1 => by
    have hd : Nat.digitChar 0 = '0' := rfl
    rw [hexFixed, Nat.zero_div, Nat.zero_mod, hexFixed_zero w, hd, List.replicate_succ']

theorem toDigitsCore_hexFixed :
    ∀ (w n fuel : Nat) (ds : List Char), 0 < w → n < 16 ^ w → n < fuel →
      ∃ z, z < w ∧ Nat.toDigitsCore 16 fuel n ds = (hexFixed w n).drop z ++ ds ∧
        (hexFixed w n).take z = List.replicate z '0'
  | 0, _, _, _, hw, _, _ => absurd hw (Nat.lt_irrefl 0)
  | w + 1, n, 0, _, _, _, hf => absurd hf (Nat.not_lt_zero n)
  | w + 1, n, fuel + 1, ds, _, hn, hf => by
    unfold Nat.toDigitsCore
    simp only
    by_cases hdiv : n / 16 = 0
    · rw [if_pos hdiv]
      refine ⟨w, Nat.lt_succ_self w, ?_, ?_⟩
      · rw [hexFixed, hdiv, hexFixed_zero]
        simp
      · rw [hexFixed, hdiv, hexFixed_zero]
        simp
    · rw [if_neg hdiv]
      have hw : 0 < w := by
        rcases Nat.eq_zero_or_pos w with h0 | hpos
        · subst h0
          exfalso
          apply hdiv
          exact Nat.div_eq_of_lt (by simpa using hn)
        · exact hpos
      have hn1 : n / 16 < 16 ^ w := by
        rw [Nat.div_lt_iff_lt_mul (by decide)]
        rw [Nat.pow_succ] at hn
        exact hn
      have hf1 : n / 16 < fuel := by
        have hpos : 0 < n := by
          rcases Nat.eq_zero_or_pos n with h0 | hpos
          · subst h0; simp at hdiv
          · exact hpos
        have : n / 16 < n := Nat.div_lt_self hpos (by decide)
        omega
      obtain ⟨z, hz, heq, htake⟩ :=
        toDigitsCore_hexFixed w (n / 16) fuel (Nat.digitChar (n % 16) :: ds) hw hn1 hf1
      have hlen := hexFixed_length w (n / 16)
      refine ⟨z, Nat.lt_succ_of_lt hz, ?_, ?_⟩
      · rw [heq, hexFixed, List.drop_append_of_le_length (by omega)]
        simp
      · rw [hexFixed, List.take_append_of_le_length (by omega)]
        exact htake

theorem fmtHex_eq_hexFixed (w : Nat) (n : Int) (hw : 0 < w) (h0 : 0 ≤ n)
    (hn : n.toNat < 16 ^ w) : fmtHex w n = hexFixed w n.toNat := by
  obtain ⟨z, hz, heq, htake⟩ :=
    toDigitsCore_hexFixed w n.toNat (n.toNat + 1) [] hw hn (Nat.lt_succ_self _)
  have habs : n.natAbs = n.toNat := by omega
  have hdig : Nat.toDigits 16 n.natAbs = (hexFixed w n.toNat).drop z := by
    rw [habs]
    unfold Nat.toDigits
    rw [heq, List.append_nil]
  unfold fmtHex
  simp only [hdig, not_lt.mpr h0, if_false]
  have hlen : ((hexFixed w n.toNat).drop z).length = w - z := by
    rw [List.length_drop, hexFixed_length]
  rw [hlen]
  have hz2 : w - (w - z) = z := by omega
  rw [hz2, ← htake, List.take_append_drop]

theorem ensureBlockchainSubdirectoryExists_ok {g g1 : Globals} {fs fs1 : FileSys}
    (h : ensureBlockchainSubdirectoryExists g fs = .ok (g1, fs1)) :
    g1 = { g with blockchainSubdirectory := g.cfg.DataDir ++ "/" ++ "blocks" } := by
  unfold ensureBlockchainSubdirectoryExists at h
  simp only at h
  split at h
  · simp only [Except.ok.injEq, Prod.mk.injEq] at h
    exact h.1.symm
  · split at h
    · simp at h
    · simp only [Except.ok.injEq, Prod.mk.injEq] at h
      exact h.1.symm

/-- C15: for every height `h` with `0 <= h < 2^32`, `blockchainGetFilename(h)`
is the block directory followed by `/`, the 4-digit zero-padded lowercase
hexadecimal of `h div 65536`, `/block_`, the 8-digit zero-padded lowercase
hexadecimal of `h`, and `.db`; for `h = 0`, once
`ensureBlockchainSubdirectoryExists` has set the block directory, this is
`blocks/0000/block_00000000.db` under the data directory. -/
theorem blockchainGetFilename_path (g : Globals) (h : Int) (h0 : 0 ≤ h) (hlt : h < 2 ^ 32) :
    blockchainGetFilename g h =
      g.blockchainSubdirectory ++ "/" ++ String.mk (hexFixed 4 (h.toNat / 65536)) ++
        "/block_" ++ String.mk (hexFixed 8 h.toNat) ++ ".db" ∧
    (hexFixed 4 (h.toNat / 65536)).length = 4 ∧ (hexFixed 8 h.toNat).length = 8 ∧
    (h = 0 → ∀ (fs : FileSys) (g1 : Globals) (fs1 : FileSys),
      ensureBlockchainSubdirectoryExists g fs = .ok (g1, fs1) →
      blockchainGetFilename g1 h = g.cfg.DataDir ++ "/blocks/0000/block_00000000.db") := by
  obtain ⟨n, rfl⟩ := Int.eq_ofNat_of_zero_le h0
  have hn : n < 2 ^ 32 := by exact_mod_cast hlt
  have hdiv : Int.tdiv (n : Int) 65536 = ((n / 65536 : Nat) : Int) :=
    (Int.ofNat_tdiv n 65536).symm
  have h4 : fmtHex 4 (Int.tdiv (n : Int) 65536) = hexFixed 4 (n / 65536) := by
    rw [hdiv]
    have := fmtHex_eq_hexFixed 4 ((n / 65536 : Nat) : Int) (by decide) (by omega)
      (by simp only [Int.toNat_ofNat]; omega)
    simpa using this
  have h8 : fmtHex 8 (n : Int) = hexFixed 8 n := by
    have := fmtHex_eq_hexFixed 8 (n : Int) (by decide) (by omega)
      (by simp only [Int.toNat_ofNat]; omega)
    simpa using this
  refine ⟨?_, hexFixed_length _ _, hexFixed_length _ _, ?_⟩
  · unfold blockchainGetFilename
    rw [h4, h8]
    simp only [Int.toNat_ofNat]
  · intro hz fs g1 fs1 hens
    have hn0 : n = 0 := by exact_mod_cast hz
    subst hn0
    rw [ensureBlockchainSubdirectoryExists_ok hens]
    unfold blockchainGetFilename
    have e4 : String.mk (fmtHex 4 (Int.tdiv ((0 : Nat) : Int) 65536)) = "0000" := by decide
    have e8 : String.mk (fmtHex 8 ((0 : Nat) : Int)) = "00000000" := by decide
    rw [e4, e8]
    simp only [String.append_assoc]
    rfl

/-- C15 at concrete inputs: the paths of the heights 0 and 70000 under the
test globals. -/
theorem blockchainGetFilename_path_witness :
    (blockchainGetFilename testGlobals 70000 =
      testGlobals.blockchainSubdirectory ++ "/" ++ String.mk (hexFixed 4 ((70000 : Int).toNat / 65536)) ++
        "/block_" ++ String.mk (hexFixed 8 (70000 : Int).toNat) ++ ".db" ∧
     (hexFixed 4 ((70000 : Int).toNat / 65536)).length = 4 ∧
     (hexFixed 8 (70000 : Int).toNat).length = 8) ∧
    blockchainGetFilename testGlobals 70000 = "data/blocks/0001/block_00011170.db" ∧
    blockchainGetFilename testGlobals 0 = "data/blocks/0000/block_00000000.db" :=
  ⟨⟨(blockchainGetFilename_path testGlobals 70000 (by decide) (by decide)).1,
    (blockchainGetFilename_path testGlobals 70000 (by decide) (by decide)).2.1,
    (blockchainGetFilename_path testGlobals 70000 (by decide) (by decide)).2.2.1⟩,
   by decide,
   (blockchainGetFilename_path testGlobals 0 (by decide) (by decide)).2.2.2 rfl
     testFs testGlobals testFs (by rfl)⟩

/-! # Quorum rule -/

theorem exp_small_le : Real.exp (1 / 2 ^ 40) ≤ 1 + 1 / 2 ^ 39 := by
  have h := Real.exp_bound_div_one_sub_of_interval (x := 1 / 2 ^ 40) (by positivity)
    (by norm_num)
  refine h.trans ?_
  norm_num

theorem two_log_lower (n k : Nat) (hn : 0 < n)
    (hb : (2.7182818286 : ℝ) ^ k * (1 + 1 / 2 ^ 39) ≤ (n : ℝ) ^ 2) :
    (k : ℝ) + 1 / 2 ^ 40 ≤ Real.log (n : ℝ) * 2 := by
  have hnpos : (0 : ℝ) < (n : ℝ) ^ 2 := by positivity
  have hexp : Real.exp ((k : ℝ) + 1 / 2 ^ 40) ≤ (n : ℝ) ^ 2 := by
    rw [Real.exp_add]
    have h1 : Real.exp (k : ℝ) ≤ (2.7182818286 : ℝ) ^ k := by
      have := Real.exp_nat_mul 1 k
      rw [mul_one] at this
      rw [this]
      exact pow_le_pow_left₀ (Real.exp_pos 1).le Real.exp_one_lt_d9.le k
    calc Real.exp (k : ℝ) * Real.exp (1 / 2 ^ 40)
        ≤ (2.7182818286 : ℝ) ^ k * (1 + 1 / 2 ^ 39) :=
          mul_le_mul h1 exp_small_le (Real.exp_pos _).le (by positivity)
      _ ≤ (n : ℝ) ^ 2 := hb
  have hlog := (Real.le_log_iff_exp_le hnpos).mpr hexp
  rw [Real.log_pow] at hlog
  push_cast at hlog
  linarith

theorem two_log_upper (n k : Nat) (hn : 0 < n)
    (hb : (n : ℝ) ^ 2 * (1 + 1 / 2 ^ 39) ≤ (2.7182818283 : ℝ) ^ k) (hk : 0 < k) :
    Real.log (n : ℝ) * 2 < (k : ℝ) - 1 / 2 ^ 40 := by
  have hnpos : (0 : ℝ) < (n : ℝ) ^ 2 := by positivity
  have hk1 : (2.7182818283 : ℝ) ^ k < Real.exp (k : ℝ) := by
    have := Real.exp_nat_mul 1 k
    rw [mul_one] at this
    rw [this]
    exact pow_lt_pow_left₀ Real.exp_one_gt_d9 (by norm_num) (Nat.pos_iff_ne_zero.mp hk)
  have hlt : (n : ℝ) ^ 2 < Real.exp ((k : ℝ) - 1 / 2 ^ 40) := by
    rw [Real.exp_sub, lt_div_iff₀ (Real.exp_pos _)]
    calc (n : ℝ) ^ 2 * Real.exp (1 / 2 ^ 40)
        ≤ (n : ℝ) ^ 2 * (1 + 1 / 2 ^ 39) :=
          mul_le_mul_of_nonneg_left exp_small_le hnpos.le
      _ ≤ (2.7182818283 : ℝ) ^ k := hb
      _ < Real.exp (k : ℝ) := hk1
  have hlog := (Real.log_lt_iff_lt_exp hnpos).mpr hlt
  rw [Real.log_pow] at hlog
  push_cast at hlog
  linarith

theorem mathLogTimes2_of_accurate {PK : Type} {env : Env PK} {h q : Int}
    (hacc : logTimes2Accurate env h) (hlo : (q : ℝ) + 1 / 2 ^ 40 ≤ Real.log (h : ℝ) * 2)
    (hhi : Real.log (h : ℝ) * 2 < (q : ℝ) + 1 - 1 / 2 ^ 40) : env.mathLogTimes2 h = q := by
  obtain ⟨x, hx, hfloor⟩ := hacc
  rw [hfloor, Int.floor_eq_iff]
  have := abs_le.mp hx
  constructor <;> linarith [this.1, this.2]

theorem log_149_bounds :
    ((10 : Int) : ℝ) + 1 / 2 ^ 40 ≤ Real.log ((149 : Int) : ℝ) * 2 ∧
    Real.log ((149 : Int) : ℝ) * 2 < ((10 : Int) : ℝ) + 1 - 1 / 2 ^ 40 := by
  have h1 := two_log_lower 149 10 (by norm_num) (by norm_num)
  have h2 := two_log_upper 149 11 (by norm_num) (by norm_num) (by norm_num)
  push_cast at h1 h2 ⊢
  constructor <;> linarith

theorem log_1000_bounds :
    ((13 : Int) : ℝ) + 1 / 2 ^ 40 ≤ Real.log ((1000 : Int) : ℝ) * 2 ∧
    Real.log ((1000 : Int) : ℝ) * 2 < ((13 : Int) : ℝ) + 1 - 1 / 2 ^ 40 := by
  have h1 := two_log_lower 1000 13 (by norm_num) (by norm_num)
  have h2 := two_log_upper 1000 14 (by norm_num) (by norm_num) (by norm_num)
  push_cast at h1 h2 ⊢
  constructor <;> linarith

theorem logTimes2Accurate_of_floor {PK : Type} {env : Env PK} {h q : Int}
    (hq : env.mathLogTimes2 h = q) (hlo : (q : ℝ) + 1 / 2 ^ 40 ≤ Real.log (h : ℝ) * 2)
    (hhi : Real.log (h : ℝ) * 2 < (q : ℝ) + 1 - 1 / 2 ^ 40) : logTimes2Accurate env h := by
  refine ⟨Real.log (h : ℝ) * 2, by simp, ?_⟩
  rw [hq, eq_comm, Int.floor_eq_iff]
  have hpos : (0 : ℝ) < 1 / 2 ^ 40 := by positivity
  constructor <;> linarith

theorem exp_fifty_gt : (2 : ℝ) ^ 63 < Real.exp 50 - 1 := by
  have h1 : Real.exp 50 = Real.exp 1 ^ 50 := by
    have := Real.exp_nat_mul 1 50
    rw [mul_one] at this
    exact_mod_cast this
  have h2 : (2.7 : ℝ) ^ 50 ≤ Real.exp 1 ^ 50 :=
    pow_le_pow_left₀ (by norm_num) (by linarith [Real.exp_one_gt_d9]) 50
  have h3 : (2 : ℝ) ^ 63 + 1 < (2.7 : ℝ) ^ 50 := by norm_num
  linarith

theorem specQuorum_exp_fifty : specQuorum (Real.exp 50) 100 := by
  refine Or.inr ⟨?_, ?_⟩
  · have := exp_fifty_gt
    have h2 : (149 : ℝ) ≤ 2 ^ 63 := by norm_num
    linarith
  · rw [Real.log_exp, eq_comm, Int.floor_eq_iff]
    norm_num

theorem QuorumForHeight_int_range {PK : Type} (env : Env PK) (h : Int) (h149 : 149 ≤ h)
    (hint : h < 2 ^ 63) (hacc : logTimes2Accurate env h) :
    10 ≤ QuorumForHeight env h ∧ QuorumForHeight env h ≤ 87 := by
  have hq : QuorumForHeight env h = env.mathLogTimes2 h := by
    unfold QuorumForHeight
    rw [if_neg (by omega)]
  obtain ⟨x, hx, hfloor⟩ := hacc
  have habs := abs_le.mp hx
  have hpos : (0 : ℝ) < (h : ℝ) := by
    have : (149 : ℝ) ≤ (h : ℝ) := by exact_mod_cast h149
    linarith
  have hlow : Real.log ((149 : Int) : ℝ) ≤ Real.log (h : ℝ) :=
    Real.log_le_log (by norm_num) (by exact_mod_cast h149)
  have hhigh : Real.log (h : ℝ) ≤ Real.log ((2 : ℝ) ^ 63) :=
    Real.log_le_log hpos (by exact_mod_cast hint.le)
  rw [Real.log_pow] at hhigh
  have hl2 := Real.log_two_lt_d9
  have h149b := log_149_bounds.1
  push_cast at hhigh h149b hlow
  rw [hq, hfloor]
  constructor
  · rw [Int.le_floor]
    push_cast
    linarith
  · have : ⌊x⌋ < 88 := by
      rw [Int.floor_lt]
      push_cast
      linarith
    omega

/-- C13 (counterexample). The number `e^50` is not a height: it exceeds
`2^63 + 1`, above every Go `int`, and whatever the implementation of the
floating-point part, as long as it is accurate to `2^-40`, no `int` height `h`
has `QuorumForHeight(h) = 100`. -/
theorem QuorumForHeight_never_100 :
    (2 : ℝ) ^ 63 < Real.exp 50 - 1 ∧
    ¬ ∃ (env : Env Bytes) (h : Int),
        h < 2 ^ 63 ∧ logTimes2Accurate env h ∧ QuorumForHeight env h = 100 := by
  refine ⟨exp_fifty_gt, ?_⟩
  rintro ⟨env, h, hint, hacc, hq⟩
  by_cases h149 : h < 149
  · unfold QuorumForHeight at hq
    rw [if_pos h149] at hq
    omega
  · have := (QuorumForHeight_int_range env h (by omega) hint hacc).2
    omega

/-- C13 (amended). The rule of the spec gives 100 at the real number `e^50`
(`floor(ln(e^50) * 2) = 100`), but that number is not an argument of
`QuorumForHeight`: every Go `int` `h` (`h < 2^63`) lies below `e^50 - 1`, and on
such heights `QuorumForHeight(h)` is 1 when `h < 149` and, when `h >= 149` and
the floating-point logarithm is accurate to `2^-40`, between 10 and 87. -/
theorem QuorumForHeight_at_exp_fifty {PK : Type} (env : Env PK) (h : Int)
    (hint : h < 2 ^ 63) :
    specQuorum (Real.exp 50) 100 ∧
    (h : ℝ) < Real.exp 50 - 1 ∧
    (h < 149 → QuorumForHeight env h = 1) ∧
    (149 ≤ h → logTimes2Accurate env h →
      10 ≤ QuorumForHeight env h ∧ QuorumForHeight env h ≤ 87) := by
  refine ⟨specQuorum_exp_fifty, ?_, ?_, ?_⟩
  · have h1 : (h : ℝ) < (2 : ℝ) ^ 63 := by exact_mod_cast hint
    linarith [exp_fifty_gt]
  · intro hlt
    unfold QuorumForHeight
    rw [if_pos hlt]
  · intro h149 hacc
    exact QuorumForHeight_int_range env h h149 hint hacc

/-- C13 (witness). At the height 149 with the test environment, whose
floating-point part returns 10: the height is a Go `int`, the environment is
accurate there, and the quorum is 10, not 100. -/
theorem QuorumForHeight_at_exp_fifty_witness :
    (149 : Int) < 2 ^ 63 ∧ logTimes2Accurate testEnv 149 ∧
    QuorumForHeight testEnv 149 = 10 ∧
    (specQuorum (Real.exp 50) 100 ∧
     ((149 : Int) : ℝ) < Real.exp 50 - 1 ∧
     ((149 : Int) < 149 → QuorumForHeight testEnv 149 = 1) ∧
     ((149 : Int) ≤ 149 → logTimes2Accurate testEnv 149 →
       10 ≤ QuorumForHeight testEnv 149 ∧ QuorumForHeight testEnv 149 ≤ 87)) :=
  ⟨by norm_num, logTimes2Accurate_of_floor rfl log_149_bounds.1 log_149_bounds.2, rfl,
    QuorumForHeight_at_exp_fifty testEnv 149 (by norm_num)⟩

/-- X2. The part of the quorum rule that involves no floating point: below the
height 149 `QuorumForHeight` returns 1, which is the value `Q(h)` of the spec,
and from 149 on it returns the truncated floating-point product unchanged. -/
theorem QuorumForHeight_below_149 {PK : Type} (env : Env PK) (h : Int) (hlt : h < 149) :
    QuorumForHeight env h = 1 ∧ specQuorum (h : ℝ) (QuorumForHeight env h) ∧
    ∀ h2 : Int, 149 ≤ h2 → QuorumForHeight env h2 = env.mathLogTimes2 h2 := by
  have hq : QuorumForHeight env h = 1 := by
    unfold QuorumForHeight
    rw [if_pos hlt]
  refine ⟨hq, Or.inl ⟨by exact_mod_cast hlt, hq⟩, ?_⟩
  intro h2 h149
  unfold QuorumForHeight
  rw [if_neg (by omega)]

/-- X2 (witness). The pinned value `QuorumForHeight(148) = 1`. -/
theorem QuorumForHeight_below_149_witness :
    (148 : Int) < 149 ∧ QuorumForHeight testEnv 148 = 1 :=
  ⟨by decide, (QuorumForHeight_below_149 testEnv 148 (by decide)).1⟩

/-- X3. When the floating-point logarithm is accurate to `2^-40` at a height
`h >= 149` and `ln(h) * 2` is at least `2^-40` away from the integers around it,
`QuorumForHeight(h)` is the floor of `ln(h) * 2`, the value `Q(h)` of the spec. -/
theorem QuorumForHeight_floor_of_accurate {PK : Type} (env : Env PK) (h q : Int)
    (h149 : 149 ≤ h) (hacc : logTimes2Accurate env h)
    (hlo : (q : ℝ) + 1 / 2 ^ 40 ≤ Real.log (h : ℝ) * 2)
    (hhi : Real.log (h : ℝ) * 2 < (q : ℝ) + 1 - 1 / 2 ^ 40) :
    QuorumForHeight env h = q ∧ q = ⌊Real.log (h : ℝ) * 2⌋ ∧
    specQuorum (h : ℝ) (QuorumForHeight env h) := by
  have hq : QuorumForHeight env h = q := by
    unfold QuorumForHeight
    rw [if_neg (by omega)]
    exact mathLogTimes2_of_accurate hacc hlo hhi
  have hfl : q = ⌊Real.log (h : ℝ) * 2⌋ := by
    rw [eq_comm, Int.floor_eq_iff]
    have hpos : (0 : ℝ) < 1 / 2 ^ 40 := by positivity
    constructor <;> linarith
  exact ⟨hq, hfl, Or.inr ⟨by exact_mod_cast h149, hq.trans hfl⟩⟩

/-- X3 (witness). The height 1000 with the quorum test environment. -/
theorem QuorumForHeight_floor_of_accurate_witness :
    (149 : Int) ≤ 1000 ∧ logTimes2Accurate testEnvQuorum 1000 ∧
    QuorumForHeight testEnvQuorum 1000 = 13 ∧ (13 : Int) = ⌊Real.log ((1000 : Int) : ℝ) * 2⌋ :=
  have hacc : logTimes2Accurate testEnvQuorum 1000 :=
    logTimes2Accurate_of_floor rfl log_1000_bounds.1 log_1000_bounds.2
  have hthm := QuorumForHeight_floor_of_accurate testEnvQuorum 1000 13 (by decide) hacc
    log_1000_bounds.1 log_1000_bounds.2
  ⟨by decide, hacc, hthm.1, hthm.2.1⟩

/-- X4. The pinned values of the quorum rule: with a floating-point logarithm
accurate to `2^-40` at the heights 149 and 1000, `QuorumForHeight(148) = 1`,
`QuorumForHeight(149) = 10 = floor(ln(149) * 2)` and
`QuorumForHeight(1000) = 13 = floor(ln(1000) * 2)`. -/
theorem QuorumForHeight_pinned {PK : Type} (env : Env PK)
    (hacc149 : logTimes2Accurate env 149) (hacc1000 : logTimes2Accurate env 1000) :
    QuorumForHeight env 148 = 1 ∧
    QuorumForHeight env 149 = 10 ∧ (10 : Int) = ⌊Real.log ((149 : Int) : ℝ) * 2⌋ ∧
    QuorumForHeight env 1000 = 13 ∧ (13 : Int) = ⌊Real.log ((1000 : Int) : ℝ) * 2⌋ := by
  have hpos : (0 : ℝ) < 1 / 2 ^ 40 := by positivity
  have b1 := log_149_bounds
  have b2 := log_1000_bounds
  refine ⟨rfl, ?_, ?_, ?_, ?_⟩
  · unfold QuorumForHeight
    rw [if_neg (by decide)]
    exact mathLogTimes2_of_accurate hacc149 b1.1 b1.2
  · rw [eq_comm, Int.floor_eq_iff]
    push_cast at b1 ⊢
    constructor <;> linarith [b1.1, b1.2]
  · unfold QuorumForHeight
    rw [if_neg (by decide)]
    exact mathLogTimes2_of_accurate hacc1000 b2.1 b2.2
  · rw [eq_comm, Int.floor_eq_iff]
    push_cast at b2 ⊢
    constructor <;> linarith [b2.1, b2.2]

/-- X4 (witness). The quorum test environment is accurate at both heights. -/
theorem QuorumForHeight_pinned_witness :
    logTimes2Accurate testEnvQuorum 149 ∧ logTimes2Accurate testEnvQuorum 1000 ∧
    QuorumForHeight testEnvQuorum 148 = 1 ∧ QuorumForHeight testEnvQuorum 149 = 10 ∧
    QuorumForHeight testEnvQuorum 1000 = 13 :=
  have h1 : logTimes2Accurate testEnvQuorum 149 :=
    logTimes2Accurate_of_floor rfl log_149_bounds.1 log_149_bounds.2
  have h2 : logTimes2Accurate testEnvQuorum 1000 :=
    logTimes2Accurate_of_floor rfl log_1000_bounds.1 log_1000_bounds.2
  have hthm := QuorumForHeight_pinned testEnvQuorum h1 h2
  ⟨h1, h2, hthm.1, hthm.2.1, hthm.2.2.2.1⟩

/-! # Quorum rule: the floor of the logarithm -/

theorem exp_one_bounds_d19 :
    (6613313319248080001 / 2432902008176640000 : ℝ) ≤ Real.exp 1 ∧
    Real.exp 1 ≤ 6613313319248080001 / 2432902008176640000 + 1 / 10 ^ 19 := by
  have hsum : ∑ m ∈ Finset.range 21, (1 : ℝ) ^ m / (m.factorial : ℝ) =
      6613313319248080001 / 2432902008176640000 := by
    simp only [Finset.sum_range_succ, Finset.sum_range_zero, Nat.factorial]
    norm_num
  have h1 := Real.sum_le_exp_of_nonneg (x := 1) zero_le_one 21
  have h2 := Real.exp_bound (x := 1) (by norm_num) (n := 21) (by norm_num)
  rw [hsum] at h1 h2
  refine ⟨h1, ?_⟩
  have h3 := (abs_le.mp h2).2
  have h4 : |(1 : ℝ)| ^ 21 * ((Nat.succ 21 : ℕ) / ((Nat.factorial 21 : ℕ) * (21 : ℕ)) : ℝ) ≤
      1 / 10 ^ 19 := by
    simp only [Nat.factorial]
    norm_num
  linarith

theorem log_exp33_bounds :
    (33 : ℝ) - 1 / 2 ^ 51 < Real.log 214643579785916 ∧
    Real.log 214643579785916 < (33 : ℝ) := by
  obtain ⟨hL, hU⟩ := exp_one_bounds_d19
  have hexp : Real.exp 33 = Real.exp 1 ^ 33 := by
    have := Real.exp_nat_mul 1 33
    rw [mul_one] at this
    exact_mod_cast this
  have hpos : (0 : ℝ) < 214643579785916 := by norm_num
  constructor
  · rw [Real.lt_log_iff_exp_lt hpos, Real.exp_sub, div_lt_iff₀ (Real.exp_pos _), hexp]
    have hd : (1 : ℝ) + 1 / 2 ^ 51 ≤ Real.exp (1 / 2 ^ 51) := by
      have := Real.add_one_le_exp ((1 : ℝ) / 2 ^ 51)
      linarith
    have hup : Real.exp 1 ^ 33 ≤
        (6613313319248080001 / 2432902008176640000 + 1 / 10 ^ 19 : ℝ) ^ 33 :=
      pow_le_pow_left₀ (Real.exp_pos 1).le hU 33
    have hnum : (6613313319248080001 / 2432902008176640000 + 1 / 10 ^ 19 : ℝ) ^ 33 <
        214643579785916 * (1 + 1 / 2 ^ 51) := by norm_num
    calc Real.exp 1 ^ 33
        < 214643579785916 * (1 + 1 / 2 ^ 51) := lt_of_le_of_lt hup hnum
      _ ≤ 214643579785916 * Real.exp (1 / 2 ^ 51) :=
          mul_le_mul_of_nonneg_left hd hpos.le
  · rw [Real.log_lt_iff_lt_exp hpos, hexp]
    have hlow : (6613313319248080001 / 2432902008176640000 : ℝ) ^ 33 ≤ Real.exp 1 ^ 33 :=
      pow_le_pow_left₀ (by norm_num) hL 33
    have hnum : (214643579785916 : ℝ) <
        (6613313319248080001 / 2432902008176640000 : ℝ) ^ 33 := by norm_num
    exact lt_of_lt_of_le hnum hlow

/-- C12 (as stated, refuted): the height `h = 214643579785916` is a Go `int`,
at least 149 and below `2^53`.  Its logarithm lies less than `2^-51` below 33,
so `floor(ln(h) * 2) = 65`; the floating-point part, within `2^-40` of
`ln(h) * 2`, comes out as 66, and `QuorumForHeight(h) = 66` is not the value
`Q(h)` of the rule. -/
theorem QuorumForHeight_not_floor_at_exp33 :
    (149 : Int) ≤ 214643579785916 ∧ (214643579785916 : Int) < 2 ^ 53 ∧
    (33 : ℝ) - 1 / 2 ^ 51 < Real.log ((214643579785916 : Int) : ℝ) ∧
    Real.log ((214643579785916 : Int) : ℝ) < 33 ∧
    ⌊Real.log ((214643579785916 : Int) : ℝ) * 2⌋ = 65 ∧
    logTimes2Accurate testEnvExp33 214643579785916 ∧
    QuorumForHeight testEnvExp33 214643579785916 = 66 ∧
    ¬ specQuorum ((214643579785916 : Int) : ℝ)
        (QuorumForHeight testEnvExp33 214643579785916) := by
  obtain ⟨hlo, hhi⟩ := log_exp33_bounds
  have hcast : ((214643579785916 : Int) : ℝ) = 214643579785916 := by norm_num
  have hfloor : ⌊Real.log ((214643579785916 : Int) : ℝ) * 2⌋ = 65 := by
    rw [hcast, Int.floor_eq_iff]
    push_cast
    constructor <;> linarith [show (1 : ℝ) / 2 ^ 51 ≤ 1 / 2 by norm_num]
  have hq : QuorumForHeight testEnvExp33 214643579785916 = 66 := rfl
  refine ⟨by norm_num, by norm_num, hcast ▸ hlo, hcast ▸ hhi, hfloor, ?_, hq, ?_⟩
  · refine ⟨66, ?_, ?_⟩
    · rw [hcast, abs_le]
      constructor <;> linarith [show (1 : ℝ) / 2 ^ 51 * 2 ≤ 1 / 2 ^ 40 by norm_num]
    · show (66 : Int) = ⌊(66 : ℝ)⌋
      rw [eq_comm, Int.floor_eq_iff]
      norm_num
  · rw [hq]
    rintro (⟨_, h1⟩ | ⟨_, h2⟩)
    · omega
    · rw [hfloor] at h2
      omega

/-- C12 (amended): `QuorumForHeight(h) = 1`, the value `Q(h)` of the rule, for
every `h < 149`.  For `h >= 149`, with a floating-point logarithm accurate to
`2^-40`, `QuorumForHeight(h)` lies between `floor(ln(h) * 2 - 2^-40)` and
`floor(ln(h) * 2 + 2^-40)`, hence within 1 of `floor(ln(h) * 2)`, and it is
`floor(ln(h) * 2)` whenever `ln(h) * 2` is at least `2^-40` away from the
integers around it.  The pinned values hold: `QuorumForHeight(148) = 1`,
`QuorumForHeight(149) = 10` and `QuorumForHeight(1000) = 13`. -/
theorem QuorumForHeight_rule {PK : Type} (env : Env PK) (h : Int)
    (hacc : 149 ≤ h → logTimes2Accurate env h) :
    (h < 149 → QuorumForHeight env h = 1 ∧ specQuorum (h : ℝ) (QuorumForHeight env h)) ∧
    (149 ≤ h →
      ⌊Real.log (h : ℝ) * 2 - 1 / 2 ^ 40⌋ ≤ QuorumForHeight env h ∧
      QuorumForHeight env h ≤ ⌊Real.log (h : ℝ) * 2 + 1 / 2 ^ 40⌋ ∧
      ⌊Real.log (h : ℝ) * 2⌋ - 1 ≤ QuorumForHeight env h ∧
      QuorumForHeight env h ≤ ⌊Real.log (h : ℝ) * 2⌋ + 1 ∧
      ∀ q : Int, (q : ℝ) + 1 / 2 ^ 40 ≤ Real.log (h : ℝ) * 2 →
        Real.log (h : ℝ) * 2 < (q : ℝ) + 1 - 1 / 2 ^ 40 →
        QuorumForHeight env h = q ∧ specQuorum (h : ℝ) (QuorumForHeight env h)) ∧
    QuorumForHeight env 148 = 1 ∧
    (h = 149 → QuorumForHeight env h = 10) ∧
    (h = 1000 → QuorumForHeight env h = 13) := by
  have hge : ∀ k : Int, 149 ≤ k → QuorumForHeight env k = env.mathLogTimes2 k := by
    intro k hk
    unfold QuorumForHeight
    rw [if_neg (by omega)]
  have hδ : (0 : ℝ) < 1 / 2 ^ 40 := by positivity
  have hδ1 : (1 : ℝ) / 2 ^ 40 ≤ 1 := by norm_num
  refine ⟨fun hlt => ?_, fun h149 => ?_, rfl, fun h149 => ?_, fun h1000 => ?_⟩
  · have hq : QuorumForHeight env h = 1 := by
      unfold QuorumForHeight
      rw [if_pos hlt]
    exact ⟨hq, Or.inl ⟨by exact_mod_cast hlt, hq⟩⟩
  · have hacc1 := hacc h149
    obtain ⟨x, hx, hfloor⟩ := hacc1
    have habs := abs_le.mp hx
    have hlo : ⌊Real.log (h : ℝ) * 2 - 1 / 2 ^ 40⌋ ≤ ⌊x⌋ :=
      Int.floor_mono (by linarith [habs.1])
    have hhi : ⌊x⌋ ≤ ⌊Real.log (h : ℝ) * 2 + 1 / 2 ^ 40⌋ :=
      Int.floor_mono (by linarith [habs.2])
    have hlo1 : ⌊Real.log (h : ℝ) * 2⌋ - 1 ≤ ⌊Real.log (h : ℝ) * 2 - 1 / 2 ^ 40⌋ := by
      rw [← Int.floor_sub_one]
      exact Int.floor_mono (by linarith)
    have hhi1 : ⌊Real.log (h : ℝ) * 2 + 1 / 2 ^ 40⌋ ≤ ⌊Real.log (h : ℝ) * 2⌋ + 1 := by
      rw [← Int.floor_add_one]
      exact Int.floor_mono (by linarith)
    rw [hge h h149, hfloor]
    refine ⟨hlo, hhi, hlo1.trans hlo, hhi.trans hhi1, fun q hq1 hq2 => ?_⟩
    have hval : ⌊x⌋ = q := by
      rw [Int.floor_eq_iff]
      constructor <;> linarith [habs.1, habs.2]
    have hfl : q = ⌊Real.log (h : ℝ) * 2⌋ := by
      rw [eq_comm, Int.floor_eq_iff]
      constructor <;> linarith
    exact ⟨hval, Or.inr ⟨by exact_mod_cast h149, hval.trans hfl⟩⟩
  · subst h149
    rw [hge 149 (by decide)]
    exact mathLogTimes2_of_accurate (hacc (by decide)) log_149_bounds.1 log_149_bounds.2
  · subst h1000
    rw [hge 1000 (by decide)]
    exact mathLogTimes2_of_accurate (hacc (by decide)) log_1000_bounds.1 log_1000_bounds.2

/-- C12 (amended), at concrete inputs: the heights 149 and 1000, with test
environments that are accurate there, give the quorums 10 and 13, and
`floor(ln(1000) * 2) = 13`. -/
theorem QuorumForHeight_rule_witness :
    ((149 : Int) ≤ 149 → logTimes2Accurate testEnv 149) ∧
    ((149 : Int) ≤ 1000 → logTimes2Accurate testEnvQuorum 1000) ∧
    QuorumForHeight testEnv 148 = 1 ∧
    QuorumForHeight testEnv 149 = 10 ∧
    QuorumForHeight testEnvQuorum 1000 = 13 ∧
    specQuorum ((1000 : Int) : ℝ) (QuorumForHeight testEnvQuorum 1000) :=
  have h1 : (149 : Int) ≤ 149 → logTimes2Accurate testEnv 149 :=
    fun _ => logTimes2Accurate_of_floor rfl log_149_bounds.1 log_149_bounds.2
  have h2 : (149 : Int) ≤ 1000 → logTimes2Accurate testEnvQuorum 1000 :=
    fun _ => logTimes2Accurate_of_floor rfl log_1000_bounds.1 log_1000_bounds.2
  ⟨h1, h2, (QuorumForHeight_rule testEnv 149 h1).2.2.1,
    (QuorumForHeight_rule testEnv 149 h1).2.2.2.1 rfl,
    (QuorumForHeight_rule testEnvQuorum 1000 h2).2.2.2.2 rfl,
    ((QuorumForHeight_rule testEnvQuorum 1000 h2).2.1 (by decide)).2.2.2.2 13
      log_1000_bounds.1 log_1000_bounds.2 |>.2⟩

end IBTrust
